import Mathlib

/-!
# Dense linear algebra: `Matrix<T>` and `Vector<T>`
(src/Matrix.h, src/Matrix.cpp, src/Vector.h, src/Vector.cpp, src/eigenvalues.cpp)

A shallow embedding of the `Matrix<T>` and `Vector<T>` containers and of the
algorithms built on them.  The element type `T` is a type parameter `α`; the
operations the templates use (`T(0)`, `T(1)`, `+`, `-`, `*`, `/`, `std::abs`, `<`)
are the corresponding operations of `α`, `std::numeric_limits<T>::epsilon()` is a
parameter `eps`, and `std::sqrt`, `std::acos` are parameters `sqrt`, `acos` of the
members that call them.
Exceptions are the `Error` alternative of `Except`.  `for` loops are folds over
the list of values taken by the loop variable, threading the mutated object; a
`const` member is a function of the object, a mutating member returns the new
value of the object.
`size_t` values are natural numbers; the one place of the modelled code where
`size_t` arithmetic can wrap on a matrix that fits in memory (`rows - 1` in
`luDecomposition`, for `rows = 0`) is reduced modulo `2 ^ 64` explicitly.  The
tile bounds `ii + BLOCK_SIZE` of `operator*` stay below `2 ^ 64` for every
matrix whose storage exists, and are not reduced.
-/

namespace LinAlg

/-- Exception classes thrown by the library. -/
inductive Error where
  | invalid_argument
  | runtime_error
  | out_of_range
  deriving DecidableEq

deriving instance DecidableEq for Except

/-- The class `Matrix<T>`: the members `data`, `rows`, `cols` of src/Matrix.h.
Nothing ties `rows`/`cols` to the storage: the constructor from a table of rows
stores what it is given. -/
structure Matrix (α : Type) where
  data : List (List α)
  rows : Nat
  cols : Nat
  deriving DecidableEq

variable {α : Type}

/-- The rectangular invariant: `rows` rows of `cols` elements each. -/
def Matrix.WF (A : Matrix α) : Prop :=
  A.data.length = A.rows ∧ ∀ row ∈ A.data, row.length = A.cols

instance (A : Matrix α) : Decidable A.WF := by
  unfold Matrix.WF
  exact inferInstance

/-- The constructor `Matrix(size_t r, size_t c)`: `r` rows of `c` copies of `T(0)`. -/
def Matrix.new [Zero α] (r c : Nat) : Matrix α :=
  ⟨List.replicate r (List.replicate c 0), r, c⟩

/-- The constructor `Matrix(const std::vector<std::vector<T>>& mat)`. -/
def Matrix.ofRows (mat : List (List α)) : Matrix α :=
  ⟨mat, mat.length, if mat.isEmpty then 0 else (mat.headD []).length⟩

/-- The accessor `getRows()`. -/
def Matrix.getRows (A : Matrix α) : Nat := A.rows

/-- The accessor `getCols()`. -/
def Matrix.getCols (A : Matrix α) : Nat := A.cols

/-- The read `data[i][j]`.  Inside the declared shape of a rectangular matrix
this is the stored element; a read outside the storage (undefined behaviour in
the source) yields `0` here. -/
def Matrix.get [Zero α] (A : Matrix α) (i j : Nat) : α :=
  (A.data.getD i []).getD j 0

/-- The write `data[i][j] = v`.  A write outside the storage (undefined
behaviour in the source) leaves the matrix unchanged here. -/
def Matrix.set (A : Matrix α) (i j : Nat) (v : α) : Matrix α :=
  { A with data := A.data.set i ((A.data.getD i []).set j v) }

/-- The loop `for (size_t x = lo; x < hi; ++x) body`, threading the state. -/
def forRange {σ : Type} (lo hi : Nat) (body : Nat → σ → σ) (s : σ) : σ :=
  (List.range' lo (hi - lo)).foldl (fun s x => body x s) s

/-- The values taken by `x` in `for (size_t x = 0; x < hi; x += step)`. -/
def stepValues (hi step : Nat) : List Nat :=
  List.range' 0 ((hi + step - 1) / step) step

/-- The loop `for (size_t x = 0; x < hi; x += step) body`, threading the state. -/
def forStep {σ : Type} (hi step : Nat) (body : Nat → σ → σ) (s : σ) : σ :=
  (stepValues hi step).foldl (fun s x => body x s) s

/-- The loop `for (size_t x = lo; x < hi; ++x) body` with a body that may throw. -/
def forRangeM {σ : Type} (lo hi : Nat) (body : Nat → σ → Except Error σ) (s : σ) :
    Except Error σ :=
  (List.range' lo (hi - lo)).foldlM (fun s x => body x s) s

/-- The constant `BLOCK_SIZE` of `operator*`. -/
def BLOCK_SIZE : Nat := 64

/-- The innermost loop of both paths of `operator*`:
`T sum = T(0); for (k = lo; k < hi; ++k) sum += data[i][k] * other.data[k][j];`. -/
def dotLoop [Zero α] [Add α] [Mul α] (A B : Matrix α) (i j lo hi : Nat) : α :=
  forRange lo hi (fun k sum => sum + A.get i k * B.get k j) 0

/-- The `else` branch of `operator*` (src/Matrix.cpp:72-81): the direct triple loop. -/
def mulDirect [Zero α] [Add α] [Mul α] (A B : Matrix α) : Matrix α :=
  forRange 0 A.rows (fun i result =>
    forRange 0 B.cols (fun j result =>
      result.set i j (dotLoop A B i j 0 A.cols)) result) (Matrix.new A.rows B.cols)

/-- The `if` branch of `operator*` (src/Matrix.cpp:50-70): the blocked loop nest,
each tile's partial sum being added into the zero-initialised result. -/
def mulBlocked [Zero α] [Add α] [Mul α] (A B : Matrix α) : Matrix α :=
  forStep A.rows BLOCK_SIZE (fun ii result =>
    forStep B.cols BLOCK_SIZE (fun jj result =>
      forStep A.cols BLOCK_SIZE (fun kk result =>
        let i_end := min (ii + BLOCK_SIZE) A.rows
        let j_end := min (jj + BLOCK_SIZE) B.cols
        let k_end := min (kk + BLOCK_SIZE) A.cols
        forRange ii i_end (fun i result =>
          forRange jj j_end (fun j result =>
            result.set i j (result.get i j + dotLoop A B i j kk k_end)) result) result)
        result) result) (Matrix.new A.rows B.cols)

/-- The member `Matrix<T>::operator*(const Matrix<T>&)` (src/Matrix.cpp:38-85). -/
def Matrix.mul [Zero α] [Add α] [Mul α] (A B : Matrix α) : Except Error (Matrix α) :=
  if A.cols ≠ B.rows then .error .invalid_argument
  else if A.rows > BLOCK_SIZE ∨ A.cols > BLOCK_SIZE ∨ B.cols > BLOCK_SIZE then
    .ok (mulBlocked A B)
  else .ok (mulDirect A B)

/-- The member `Matrix<T>::operator==` (src/Matrix.cpp:140-152); the loops
return `false` at the first pair of elements further apart than `EPSILON`. -/
def Matrix.beq [LinearOrderedRing α] (eps : α) (A B : Matrix α) : Bool :=
  if A.rows ≠ B.rows ∨ A.cols ≠ B.cols then false
  else
    let EPSILON := eps * 10
    (List.range A.rows).all (fun i =>
      (List.range A.cols).all (fun j => !decide (|A.get i j - B.get i j| > EPSILON)))

/-- The member `Matrix<T>::transpose` (src/Matrix.cpp:154-164). -/
def Matrix.transpose [Zero α] (A : Matrix α) : Matrix α :=
  forRange 0 A.rows (fun i result =>
    forRange 0 A.cols (fun j result =>
      result.set j i (A.get i j)) result) (Matrix.new A.cols A.rows)

/-- The factory `Matrix<T>::identity` (src/Matrix.cpp:443-450). -/
def Matrix.identity [Zero α] [One α] (n : Nat) : Matrix α :=
  forRange 0 n (fun i result => result.set i i 1) (Matrix.new n n)

/-- The body of the two outer loops of `luDecomposition` (src/Matrix.cpp:211-220):
the pivot test, the factor stored in `L`, and the row update of `U`. -/
def luStep [LinearOrderedField α] (eps : α) (cols k i : Nat) (LU : Matrix α × Matrix α) :
    Except Error (Matrix α × Matrix α) :=
  if |LU.2.get k k| < eps then .error .runtime_error
  else
    let factor := LU.2.get i k / LU.2.get k k
    let L := LU.1.set i k factor
    let U := forRange k cols (fun j U => U.set i j (U.get i j - factor * U.get k j)) LU.2
    .ok (L, U)

/-- The member `Matrix<T>::luDecomposition` (src/Matrix.cpp:199-225).  The bound
`rows - 1` of the outer loop is computed in `size_t`: for `rows = 0` it wraps to
`2 ^ 64 - 1`, and every one of those iterations has an empty inner loop. -/
def luDecomposition [LinearOrderedField α] (eps : α) (A : Matrix α) :
    Except Error (Matrix α × Matrix α) :=
  if A.rows ≠ A.cols then .error .invalid_argument
  else
    forRangeM 0 ((A.rows + 2 ^ 64 - 1) % 2 ^ 64) (fun k LU =>
      forRangeM (k + 1) A.rows (fun i LU => luStep eps A.cols k i LU) LU)
      (Matrix.identity A.rows, A)

/-- The member `Matrix<T>::determinantLU` (src/Matrix.cpp:185-197). -/
def determinantLU [LinearOrderedField α] (eps : α) (A : Matrix α) : Except Error α :=
  match luDecomposition eps A with
  | .error e => .error e
  | .ok (_, U) => .ok (forRange 0 A.rows (fun i det => det * U.get i i) 1)

/-- The member `Matrix<T>::determinant` (src/Matrix.cpp:166-183). -/
def determinant [LinearOrderedField α] (eps : α) (A : Matrix α) : Except Error α :=
  if A.rows ≠ A.cols then .error .invalid_argument
  else if A.rows = 1 then .ok (A.get 0 0)
  else if A.rows = 2 then .ok (A.get 0 0 * A.get 1 1 - A.get 0 1 * A.get 1 0)
  else if A.rows = 3 then
    .ok (A.get 0 0 * (A.get 1 1 * A.get 2 2 - A.get 1 2 * A.get 2 1)
       - A.get 0 1 * (A.get 1 0 * A.get 2 2 - A.get 1 2 * A.get 2 0)
       + A.get 0 2 * (A.get 1 0 * A.get 2 1 - A.get 1 1 * A.get 2 0))
  else determinantLU eps A

/-- The member `Matrix<T>::trace` (src/Matrix.cpp:337-349). -/
def trace [Zero α] [Add α] (A : Matrix α) : Except Error α :=
  if A.rows ≠ A.cols then .error .invalid_argument
  else .ok (forRange 0 A.rows (fun i tr => tr + A.get i i) 0)

/-- The body of the projection loop of `qrDecomposition` (src/Matrix.cpp:241-251)
for the column `j` being built and an earlier column `k`: the coefficient
`R[k][j]` is the dot product of column `k` of `Q` with column `j` of the source,
and that multiple of column `k` of `Q` is subtracted from column `j` of `Q`. -/
def qrProject [LinearOrderedField α] (A : Matrix α) (j k : Nat)
    (QR : Matrix α × Matrix α) : Matrix α × Matrix α :=
  let dot_product := forRange 0 A.rows (fun i d => d + QR.1.get i k * A.get i j) 0
  let R := QR.2.set k j dot_product
  let Q := forRange 0 A.rows
    (fun i Q => Q.set i j (Q.get i j - dot_product * Q.get i k)) QR.1
  (Q, R)

/-- The body of the column loop of `qrDecomposition` (src/Matrix.cpp:234-266) for
column `j`: copy column `j` of the source into `Q`, subtract its projections on
the columns `k < j` of `Q`, then normalise if the norm exceeds epsilon.
The parameter `sqrt` is `std::sqrt`. -/
def qrColumn [LinearOrderedField α] (sqrt : α → α) (eps : α) (A : Matrix α) (j : Nat)
    (QR : Matrix α × Matrix α) : Matrix α × Matrix α :=
  let Q := forRange 0 A.rows (fun i Q => Q.set i j (A.get i j)) QR.1
  let QR := forRange 0 j (fun k QR => qrProject A j k QR) (Q, QR.2)
  let norm := sqrt (forRange 0 A.rows (fun i norm => norm + QR.1.get i j * QR.1.get i j) 0)
  if norm > eps then
    let R := QR.2.set j j norm
    let Q := forRange 0 A.rows (fun i Q => Q.set i j (Q.get i j / norm)) QR.1
    (Q, R)
  else QR

/-- The member `Matrix<T>::qrDecomposition` (src/Matrix.cpp:227-269).  The source
has no `throw` on this path, so the embedding is a total function. -/
def qrDecomposition [LinearOrderedField α] (sqrt : α → α) (eps : α) (A : Matrix α) :
    Matrix α × Matrix α :=
  forRange 0 A.cols (fun j QR => qrColumn sqrt eps A j QR)
    (Matrix.new A.rows A.cols, Matrix.new A.cols A.cols)

/-- The pivot search of `inverse` (src/Matrix.cpp:295-300). -/
def pivotRow [LinearOrderedField α] (rows i : Nat) (aug : Matrix α) : Nat :=
  forRange (i + 1) rows
    (fun k pivot_row => if |aug.get k i| > |aug.get pivot_row i| then k else pivot_row) i

/-- The row exchange of `inverse` (src/Matrix.cpp:303-307): `std::swap` cell by cell. -/
def swapRows (cols i pivot_row : Nat) [Zero α] (aug : Matrix α) : Matrix α :=
  if pivot_row ≠ i then
    forRange 0 (2 * cols) (fun j aug =>
      let tmp := aug.get i j
      (aug.set i j (aug.get pivot_row j)).set pivot_row j tmp) aug
  else aug

/-- The scaling of the pivot row of `inverse` (src/Matrix.cpp:310-313). -/
def scaleRow [LinearOrderedField α] (cols i : Nat) (aug : Matrix α) : Matrix α :=
  let pivot := aug.get i i
  forRange 0 (2 * cols) (fun j aug => aug.set i j (aug.get i j / pivot)) aug

/-- The elimination of column `i` from the other rows in `inverse`
(src/Matrix.cpp:316-323). -/
def eliminateColumn [LinearOrderedField α] (rows cols i : Nat) (aug : Matrix α) : Matrix α :=
  forRange 0 rows (fun k aug =>
    if k ≠ i then
      let factor := aug.get k i
      forRange 0 (2 * cols) (fun j aug => aug.set k j (aug.get k j - factor * aug.get i j)) aug
    else aug) aug

/-- The body of the Gauss-Jordan loop of `inverse` (src/Matrix.cpp:293-324). -/
def gaussJordanStep [LinearOrderedField α] (rows cols i : Nat) (aug : Matrix α) : Matrix α :=
  let pivot_row := pivotRow rows i aug
  let aug := swapRows cols i pivot_row aug
  let aug := scaleRow cols i aug
  eliminateColumn rows cols i aug

/-- The augmented matrix `[A | I]` built by `inverse` (src/Matrix.cpp:284-290). -/
def augment [Zero α] [One α] (A : Matrix α) : Matrix α :=
  forRange 0 A.rows (fun i augmented =>
    forRange 0 A.cols (fun j augmented =>
      (augmented.set i j (A.get i j)).set i (j + A.cols) (if i = j then 1 else 0))
      augmented) (Matrix.new A.rows (2 * A.cols))

/-- The extraction of the right half in `inverse` (src/Matrix.cpp:327-332). -/
def extractRight [Zero α] (rows cols : Nat) (augmented : Matrix α) : Matrix α :=
  forRange 0 rows (fun i result =>
    forRange 0 cols (fun j result =>
      result.set i j (augmented.get i (j + cols))) result) (Matrix.new rows cols)

/-- The member `Matrix<T>::inverse` (src/Matrix.cpp:271-335).  An exception of
`determinant()` propagates. -/
def inverse [LinearOrderedField α] (eps : α) (A : Matrix α) : Except Error (Matrix α) :=
  if A.rows ≠ A.cols then .error .invalid_argument
  else
    match determinant eps A with
    | .error e => .error e
    | .ok det =>
      if |det| < eps then .error .runtime_error
      else
        let augmented := forRange 0 A.rows
          (fun i augmented => gaussJordanStep A.rows A.cols i augmented) (augment A)
        .ok (extractRight A.rows A.cols augmented)

/-- The convergence measure of `eigenvalues` (src/Matrix.cpp:397-404): the sum
of the absolute values of the off-diagonal cells. -/
def offDiagonalSum [LinearOrderedField α] (rows cols : Nat) (A : Matrix α) : α :=
  forRange 0 rows (fun i off_diagonal_sum =>
    forRange 0 cols (fun j off_diagonal_sum =>
      if i ≠ j then off_diagonal_sum + |A.get i j| else off_diagonal_sum)
      off_diagonal_sum) 0

/-- The QR iteration of `eigenvalues` (src/Matrix.cpp:392-409), with the number
of iterations left as first argument; `A = R * Q` may throw. -/
def qrIterate [LinearOrderedField α] (sqrt : α → α) (eps : α) (rows cols : Nat) :
    Nat → Matrix α → Except Error (Matrix α)
  | 0, A => .ok A
  | iters + 1, A =>
    let QR := qrDecomposition sqrt eps A
    match QR.2.mul QR.1 with
    | .error e => .error e
    | .ok A =>
      let TOLERANCE := eps * 100
      if offDiagonalSum rows cols A < TOLERANCE then .ok A
      else qrIterate sqrt eps rows cols iters A

/-- The constant `MAX_ITERATIONS` of `eigenvalues`. -/
def MAX_ITERATIONS : Nat := 1000

/-- The member `Matrix<T>::eigenvalues` (src/Matrix.cpp:351-417); a value
`std::complex<T>(re, im)` is the pair `(re, im)`. -/
def eigenvalues [LinearOrderedField α] (sqrt : α → α) (eps : α) (A : Matrix α) :
    Except Error (List (α × α)) :=
  if A.rows ≠ A.cols then .error .invalid_argument
  else if A.rows = 1 then .ok [(A.get 0 0, 0)]
  else if A.rows = 2 then
    let a := A.get 0 0
    let b := A.get 0 1
    let c := A.get 1 0
    let d := A.get 1 1
    let trace := a + d
    let det := a * d - b * c
    let discriminant := trace * trace - 4 * det
    if discriminant ≥ 0 then
      let sqrt_disc := sqrt discriminant
      .ok [((trace + sqrt_disc) / 2, 0), ((trace - sqrt_disc) / 2, 0)]
    else
      let sqrt_disc := sqrt (-discriminant)
      .ok [(trace / 2, sqrt_disc / 2), (trace / 2, -sqrt_disc / 2)]
  else
    match qrIterate sqrt eps A.rows A.cols MAX_ITERATIONS A with
    | .error e => .error e
    | .ok A' => .ok (forRange 0 A.rows (fun i eigenvals => eigenvals ++ [(A'.get i i, 0)]) [])

/-! ## Element-wise matrix operations (src/Matrix.cpp:5-35, 99-127) -/

/-- The member `Matrix<T>::operator+` (src/Matrix.cpp:5-19). -/
def Matrix.add [Zero α] [Add α] (A B : Matrix α) : Except Error (Matrix α) :=
  if A.rows ≠ B.rows ∨ A.cols ≠ B.cols then .error .invalid_argument
  else
    .ok (forRange 0 A.rows (fun i result =>
      forRange 0 A.cols (fun j result =>
        result.set i j (A.get i j + B.get i j)) result) (Matrix.new A.rows A.cols))

/-- The member `Matrix<T>::operator-` (src/Matrix.cpp:21-35). -/
def Matrix.sub [Zero α] [Sub α] (A B : Matrix α) : Except Error (Matrix α) :=
  if A.rows ≠ B.rows ∨ A.cols ≠ B.cols then .error .invalid_argument
  else
    .ok (forRange 0 A.rows (fun i result =>
      forRange 0 A.cols (fun j result =>
        result.set i j (A.get i j - B.get i j)) result) (Matrix.new A.rows A.cols))

/-- The member `Matrix<T>::operator+=`: the value of `*this` after the call. -/
def Matrix.addAssign [Zero α] [Add α] (A B : Matrix α) : Except Error (Matrix α) :=
  if A.rows ≠ B.rows ∨ A.cols ≠ B.cols then .error .invalid_argument
  else
    .ok (forRange 0 A.rows (fun i self =>
      forRange 0 A.cols (fun j self =>
        self.set i j (self.get i j + B.get i j)) self) A)

/-- The member `Matrix<T>::operator-=`: the value of `*this` after the call. -/
def Matrix.subAssign [Zero α] [Sub α] (A B : Matrix α) : Except Error (Matrix α) :=
  if A.rows ≠ B.rows ∨ A.cols ≠ B.cols then .error .invalid_argument
  else
    .ok (forRange 0 A.rows (fun i self =>
      forRange 0 A.cols (fun j self =>
        self.set i j (self.get i j - B.get i j)) self) A)

/-- The member `Matrix<T>::operator!=` (src/Matrix.h:73). -/
def Matrix.bne [LinearOrderedRing α] (eps : α) (A B : Matrix α) : Bool :=
  !(A.beq eps B)

/-! ## The class `Vector<T>` (src/Vector.h, src/Vector.cpp) -/

/-- The class `Vector<T>`: the members `data` and `dimension` of src/Vector.h. -/
structure Vector (α : Type) where
  data : List α
  dimension : Nat
  deriving DecidableEq

/-- The invariant every constructor establishes: `dimension` elements are stored. -/
def Vector.WF (v : Vector α) : Prop :=
  v.data.length = v.dimension

instance (v : Vector α) : Decidable v.WF := by
  unfold Vector.WF
  exact inferInstance

/-- The constructor `Vector(size_t dim)`: `dim` copies of `T(0)`. -/
def Vector.new [Zero α] (dim : Nat) : Vector α :=
  ⟨List.replicate dim 0, dim⟩

/-- The constructors `Vector(const std::vector<T>&)` and
`Vector(std::initializer_list<T>)`. -/
def Vector.ofList (vec : List α) : Vector α :=
  ⟨vec, vec.length⟩

/-- The read `data[i]`; a read outside the storage yields `0` here. -/
def Vector.get [Zero α] (v : Vector α) (i : Nat) : α :=
  v.data.getD i 0

/-- The write `data[i] = x`; a write outside the storage changes nothing here. -/
def Vector.set (v : Vector α) (i : Nat) (x : α) : Vector α :=
  { v with data := v.data.set i x }

/-- The member `Vector<T>::operator+` (src/Vector.cpp:5-17). -/
def Vector.add [Zero α] [Add α] (a b : Vector α) : Except Error (Vector α) :=
  if a.dimension ≠ b.dimension then .error .invalid_argument
  else
    .ok (forRange 0 a.dimension (fun i result =>
      result.set i (a.get i + b.get i)) (Vector.new a.dimension))

/-- The member `Vector<T>::operator-` (binary, src/Vector.cpp:19-31). -/
def Vector.sub [Zero α] [Sub α] (a b : Vector α) : Except Error (Vector α) :=
  if a.dimension ≠ b.dimension then .error .invalid_argument
  else
    .ok (forRange 0 a.dimension (fun i result =>
      result.set i (a.get i - b.get i)) (Vector.new a.dimension))

/-- The member `Vector<T>::operator*(const T& scalar)`. -/
def Vector.smul [Zero α] [Mul α] (v : Vector α) (scalar : α) : Vector α :=
  forRange 0 v.dimension (fun i result =>
    result.set i (v.get i * scalar)) (Vector.new v.dimension)

/-- The member `Vector<T>::operator/(const T& scalar)` (src/Vector.cpp:43-56). -/
def Vector.div [LinearOrderedRing α] [Div α] (eps : α) (v : Vector α) (scalar : α) :
    Except Error (Vector α) :=
  if |scalar| < eps then .error .invalid_argument
  else
    let inv_scalar := 1 / scalar
    .ok (forRange 0 v.dimension (fun i result =>
      result.set i (v.get i * inv_scalar)) (Vector.new v.dimension))

/-- The member `Vector<T>::operator+=`: the value of `*this` after the call. -/
def Vector.addAssign [Zero α] [Add α] (a b : Vector α) : Except Error (Vector α) :=
  if a.dimension ≠ b.dimension then .error .invalid_argument
  else .ok (forRange 0 a.dimension (fun i self => self.set i (self.get i + b.get i)) a)

/-- The member `Vector<T>::operator-=`: the value of `*this` after the call. -/
def Vector.subAssign [Zero α] [Sub α] (a b : Vector α) : Except Error (Vector α) :=
  if a.dimension ≠ b.dimension then .error .invalid_argument
  else .ok (forRange 0 a.dimension (fun i self => self.set i (self.get i - b.get i)) a)

/-- The member `Vector<T>::operator*=`: the value of `*this` after the call. -/
def Vector.mulAssign [Zero α] [Mul α] (v : Vector α) (scalar : α) : Vector α :=
  forRange 0 v.dimension (fun i self => self.set i (self.get i * scalar)) v

/-- The member `Vector<T>::operator/=` (src/Vector.cpp:93-105): the value of
`*this` after the call. -/
def Vector.divAssign [LinearOrderedRing α] [Div α] (eps : α) (v : Vector α) (scalar : α) :
    Except Error (Vector α) :=
  if |scalar| < eps then .error .invalid_argument
  else
    let inv_scalar := 1 / scalar
    .ok (forRange 0 v.dimension (fun i self => self.set i (self.get i * inv_scalar)) v)

/-- The member `Vector<T>::operator-()` (unary minus). -/
def Vector.neg [Zero α] [Neg α] (v : Vector α) : Vector α :=
  forRange 0 v.dimension (fun i result => result.set i (-(v.get i))) (Vector.new v.dimension)

/-- The member `Vector<T>::operator==` (src/Vector.cpp:117-127). -/
def Vector.beq [LinearOrderedRing α] (eps : α) (a b : Vector α) : Bool :=
  if a.dimension ≠ b.dimension then false
  else
    let EPSILON := eps * 10
    (List.range a.dimension).all (fun i => !decide (|a.get i - b.get i| > EPSILON))

/-- The member `Vector<T>::operator!=` (src/Vector.h). -/
def Vector.bne [LinearOrderedRing α] (eps : α) (a b : Vector α) : Bool :=
  !(a.beq eps b)

/-- The algorithm `std::inner_product(first1, last1, first2, init)`: for each element
of the first range in order, `init = init + *first1 * *first2`.  The second range
must be at least as long as the first (shorter is undefined behaviour in the
source; iteration stops here). -/
def inner_product [Add α] [Mul α] : List α → List α → α → α
  | x :: xs, y :: ys, init => inner_product xs ys (init + x * y)
  | _, _, init => init

/-- The member `Vector<T>::dot` (src/Vector.cpp:129-137). -/
def Vector.dot [Zero α] [Add α] [Mul α] (a b : Vector α) : Except Error α :=
  if a.dimension ≠ b.dimension then .error .invalid_argument
  else .ok (inner_product a.data b.data 0)

/-- The member `Vector<T>::cross` (src/Vector.cpp:139-151). -/
def Vector.cross [Zero α] [Sub α] [Mul α] (a b : Vector α) : Except Error (Vector α) :=
  if a.dimension ≠ 3 ∨ b.dimension ≠ 3 then .error .invalid_argument
  else
    .ok (Vector.ofList
      [a.get 1 * b.get 2 - a.get 2 * b.get 1,
       a.get 2 * b.get 0 - a.get 0 * b.get 2,
       a.get 0 * b.get 1 - a.get 1 * b.get 0])

/-- The member `Vector<T>::magnitudeSquared`. -/
def Vector.magnitudeSquared [Zero α] [Add α] [Mul α] (v : Vector α) : α :=
  inner_product v.data v.data 0

/-- The member `Vector<T>::magnitude`. -/
def Vector.magnitude [Zero α] [Add α] [Mul α] (sqrt : α → α) (v : Vector α) : α :=
  sqrt v.magnitudeSquared

/-- The member `Vector<T>::normalize` (src/Vector.cpp:163-171). -/
def Vector.normalize [LinearOrderedRing α] [Div α] (sqrt : α → α) (eps : α) (v : Vector α) :
    Except Error (Vector α) :=
  let mag := v.magnitude sqrt
  if mag < eps then .error .runtime_error
  else v.div eps mag

/-- The member `Vector<T>::normalizeInPlace` (src/Vector.cpp:173-186): the value
of `*this` after the call. -/
def Vector.normalizeInPlace [LinearOrderedRing α] [Div α] (sqrt : α → α) (eps : α)
    (v : Vector α) : Except Error (Vector α) :=
  let mag := v.magnitude sqrt
  if mag < eps then .error .runtime_error
  else v.divAssign eps mag

/-- The function `std::min(a, b)`: `b` if `b < a`, else `a`. -/
def stdMin [LinearOrder α] (a b : α) : α := if b < a then b else a

/-- The function `std::max(a, b)`: `b` if `a < b`, else `a`. -/
def stdMax [LinearOrder α] (a b : α) : α := if a < b then b else a

/-- The member `Vector<T>::angle` (src/Vector.cpp:200-219); `acos` is `std::acos`. -/
def Vector.angle [LinearOrderedField α] (sqrt acos : α → α) (eps : α) (a b : Vector α) :
    Except Error α :=
  if a.dimension ≠ b.dimension then .error .invalid_argument
  else
    match a.dot b with
    | .error e => .error e
    | .ok dot_product =>
      let mag_product := a.magnitude sqrt * b.magnitude sqrt
      if mag_product < eps then .error .runtime_error
      else
        let cos_angle := dot_product / mag_product
        let cos_angle := stdMax (-1) (stdMin 1 cos_angle)
        .ok (acos cos_angle)

/-- The member `Vector<T>::project` (src/Vector.cpp:221-236). -/
def Vector.project [LinearOrderedField α] (eps : α) (v onto : Vector α) :
    Except Error (Vector α) :=
  if v.dimension ≠ onto.dimension then .error .invalid_argument
  else
    let onto_mag_sq := onto.magnitudeSquared
    if onto_mag_sq < eps then .error .runtime_error
    else
      match v.dot onto with
      | .error e => .error e
      | .ok d =>
        let scalar_proj := d / onto_mag_sq
        .ok (onto.smul scalar_proj)

/-- The member `Vector<T>::reject` (src/Vector.cpp:238-241). -/
def Vector.reject [LinearOrderedField α] (eps : α) (v onto : Vector α) :
    Except Error (Vector α) :=
  match v.project eps onto with
  | .error e => .error e
  | .ok p => v.sub p

/-! ## Element access, constructors and factories (src/Matrix.h, src/Matrix.cpp, src/Vector.h) -/

/-- The constructor `Matrix(size_t r, size_t c, const T& value)`. -/
def Matrix.filled (r c : Nat) (value : α) : Matrix α :=
  ⟨List.replicate r (List.replicate c value), r, c⟩

/-- The factory `Matrix<T>::zeros`. -/
def Matrix.zeros [Zero α] (rows cols : Nat) : Matrix α :=
  Matrix.filled rows cols 0

/-- The factory `Matrix<T>::ones`. -/
def Matrix.ones [One α] (rows cols : Nat) : Matrix α :=
  Matrix.filled rows cols 1

/-- The member `Matrix<T>::operator()(size_t i, size_t j)` (src/Matrix.h:41-49). -/
def Matrix.apply [Zero α] (A : Matrix α) (i j : Nat) : Except Error α :=
  if i ≥ A.rows ∨ j ≥ A.cols then .error .out_of_range
  else .ok (A.get i j)

/-- The member `Matrix<T>::operator*(const T& scalar)` (src/Matrix.cpp:86-96). -/
def Matrix.smul [Zero α] [Mul α] (A : Matrix α) (scalar : α) : Matrix α :=
  forRange 0 A.rows (fun i result =>
    forRange 0 A.cols (fun j result =>
      result.set i j (A.get i j * scalar)) result) (Matrix.new A.rows A.cols)

/-- The member `Matrix<T>::operator*=(const T& scalar)`: the value of `*this` after
the call. -/
def Matrix.mulAssign [Zero α] [Mul α] (A : Matrix α) (scalar : α) : Matrix α :=
  forRange 0 A.rows (fun i self =>
    forRange 0 A.cols (fun j self =>
      self.set i j (self.get i j * scalar)) self) A

/-- The member `Vector<T>::operator[](size_t index)` (src/Vector.h:37-45). -/
def Vector.index [Zero α] (v : Vector α) (index : Nat) : Except Error α :=
  if index ≥ v.dimension then .error .out_of_range
  else .ok (v.get index)

/-- The member `Vector<T>::at(size_t index)` (src/Vector.h:47-48). -/
def Vector.at_ [Zero α] (v : Vector α) (index : Nat) : Except Error α :=
  v.index index

/-- The member `Vector<T>::subVector` (src/Vector.cpp:266-274).  `start` and `length`
are `size_t` values and the sum in the guard is formed in `size_t`, that is modulo
`2 ^ 64`.  The result holds the `length` elements at the positions
`data.begin() + start + i`; a position outside the storage (undefined behaviour in the
source) reads as `0` here. -/
def Vector.subVector [Zero α] (v : Vector α) (start length : Nat) : Except Error (Vector α) :=
  if (start + length) % 2 ^ 64 > v.dimension then .error .out_of_range
  else
    let sub_data := (List.range length).map (fun i => v.get ((start + i) % 2 ^ 64))
    .ok (Vector.ofList sub_data)

/-- The algorithm `std::min_element` followed by the dereference of its result: the
first smallest element; `none` for an empty range (where the source dereferences the
end iterator). -/
def min_element [LinearOrder α] : List α → Option α
  | [] => none
  | x :: xs => some (xs.foldl (fun smallest y => if y < smallest then y else smallest) x)

/-- The algorithm `std::max_element` followed by the dereference of its result: the
first largest element; `none` for an empty range. -/
def max_element [LinearOrder α] : List α → Option α
  | [] => none
  | x :: xs => some (xs.foldl (fun largest y => if largest < y then y else largest) x)

/-- The member `Vector<T>::min` (src/Vector.cpp:288-292); dereferencing the end iterator
(undefined behaviour in the source, reachable only when `dimension` is not the number
of stored elements) yields `0` here. -/
def Vector.min [LinearOrder α] [Zero α] (v : Vector α) : Except Error α :=
  if v.dimension = 0 then .error .runtime_error
  else .ok ((min_element v.data).getD 0)

/-- The member `Vector<T>::max` (src/Vector.cpp:294-298). -/
def Vector.max [LinearOrder α] [Zero α] (v : Vector α) : Except Error α :=
  if v.dimension = 0 then .error .runtime_error
  else .ok ((max_element v.data).getD 0)

/-! ## The instantiation `VectorI = Vector<int>` (src/Vector.h:134-137)

The element type `int` has 32 bits in two's complement.  Its values are the integers from
`INT_MIN` to `INT_MAX`; the result of an operation that leaves this range (undefined
behaviour in the source) is the value the machine operation produces, `wrapInt` of the
mathematical result, and an operation for which the machine produces no value (division
by zero, `INT_MIN / -1`) has no result. -/

/-- The least value of `int`. -/
def INT_MIN : ℤ := -2147483648

/-- The greatest value of `int`. -/
def INT_MAX : ℤ := 2147483647

/-- The 32-bit two's-complement value that represents the integer `x`. -/
def wrapInt (x : ℤ) : ℤ := (x + 2147483648) % 4294967296 - 2147483648

/-- The function `std::abs` on `int`: `-x` for a negative `x`, formed in `int`, so that
`std::abs(INT_MIN)` is `INT_MIN`. -/
def absInt (x : ℤ) : ℤ := if x < 0 then wrapInt (-x) else x

/-- The operator `/` of `int`: the quotient truncated toward zero; no result for a
division by zero and for `INT_MIN / -1`. -/
def intDiv (a b : ℤ) : Option ℤ :=
  if b = 0 ∨ (a = INT_MIN ∧ b = -1) then none else some (Int.tdiv a b)

/-- The constant `std::numeric_limits<int>::epsilon()`. -/
def INT_EPSILON : ℤ := 0

/-- The member `operator/` of `Vector<int>` (src/Vector.cpp:43-56 with `T = int`);
`none` when `T(1) / scalar` has no result. -/
def VectorI.div (v : Vector ℤ) (scalar : ℤ) : Option (Except Error (Vector ℤ)) :=
  if absInt scalar < INT_EPSILON then some (.error .invalid_argument)
  else
    match intDiv 1 scalar with
    | none => none
    | some inv_scalar =>
      some (.ok (forRange 0 v.dimension (fun i result =>
        result.set i (wrapInt (v.get i * inv_scalar))) (Vector.new v.dimension)))

/-- The member `operator/=` of `Vector<int>` (src/Vector.cpp:93-105 with `T = int`): the
value of `*this` after the call; `none` when `T(1) / scalar` has no result. -/
def VectorI.divAssign (v : Vector ℤ) (scalar : ℤ) : Option (Except Error (Vector ℤ)) :=
  if absInt scalar < INT_EPSILON then some (.error .invalid_argument)
  else
    match intDiv 1 scalar with
    | none => none
    | some inv_scalar =>
      some (.ok (forRange 0 v.dimension (fun i self =>
        self.set i (wrapInt (self.get i * inv_scalar))) v))

/-! ## The legacy eigenvalue program (src/eigenvalues.cpp) -/

/-- What `main` of src/eigenvalues.cpp computes from the four cells it has read:
the branch taken and the values of its local variables `eigenvalue1`, `eigenvalue2`. -/
inductive LegacyEigen (α : Type) where
  | real (eigenvalue1 eigenvalue2 : α)
  | complex (eigenvalue1 eigenvalue2 : α)
  | none
  deriving DecidableEq

/-- The computation of `main` in src/eigenvalues.cpp (lines 11-14 and 20-37) on the
matrix `[[a, b], [c, d]]`; `sqrt` is `sqrt` of `<cmath>` and `pow(x, 2)` is `x ^ 2`. -/
def legacyEigenvalues [LinearOrderedField α] (sqrt : α → α) (a b c d : α) : LegacyEigen α :=
  let disc := (a + d) ^ 2 - 4 * ((a * d) - (b * c))
  if disc > 0 then
    let eigenvalue1 := (a + d) / 2 + sqrt disc / 2
    let eigenvalue2 := (a + d) / 2 - disc / 2
    .real eigenvalue1 eigenvalue2
  else if disc < 0 then
    let disc := disc * -1
    let eigenvalue1 := (a + d) + sqrt disc / 2
    let eigenvalue2 := (a + d) - sqrt disc / 2
    .complex eigenvalue1 eigenvalue2
  else .none

/-! ## Auxiliary notions used to state and prove the properties -/

/-- Rectangular with the given numbers of rows and columns. -/
def Matrix.Shape (A : Matrix α) (r c : Nat) : Prop :=
  A.WF ∧ A.rows = r ∧ A.cols = c

/-- The transformer `f` keeps the shape `r × c` and changes every cell by a
function of that cell's own previous value. -/
def ActsOn [Zero α] (r c : Nat) (f : Matrix α → Matrix α) (u : Nat → Nat → α → α) : Prop :=
  ∀ M : Matrix α, M.Shape r c →
    (f M).Shape r c ∧ ∀ i j, i < r → j < c → (f M).get i j = u i j (M.get i j)

/-- The tiles' partial sums added in turn to the zero-initialised cell `(i, j)`. -/
def tiledSum [Zero α] [Add α] [Mul α] (A B : Matrix α) (i j : Nat) : α :=
  (stepValues A.cols BLOCK_SIZE).foldl
    (fun v kk => v + dotLoop A B i j kk (min (kk + BLOCK_SIZE) A.cols)) 0

/-! ## Concrete inputs -/

/-- Left operand of the known-value scenario of `operator*`. -/
def knownA : Matrix ℤ := ⟨[[1, 2], [3, 4]], 2, 2⟩

/-- Right operand of the known-value scenario of `operator*`. -/
def knownB : Matrix ℤ := ⟨[[5, 6], [7, 8]], 2, 2⟩

/-- A `1 × 65` row of ones: one column more than a tile. -/
def wideRow : Matrix ℤ := ⟨[List.replicate 65 1], 1, 65⟩

/-- A `65 × 1` column of twos. -/
def tallCol : Matrix ℤ := ⟨List.replicate 65 [2], 65, 1⟩

/-- A toy element type whose arithmetic rounds, as floating point does: natural
numbers of which a sum or product of 100 or more loses its last decimal digit.
Addition is commutative and has `0` as identity, but it is not associative. -/
structure Dec2 where
  val : Nat
  deriving DecidableEq

/-- Rounding to the representable values of `Dec2`. -/
def Dec2.round (n : Nat) : Dec2 := ⟨if n < 100 then n else n / 10 * 10⟩

instance : Zero Dec2 := ⟨⟨0⟩⟩

instance : Add Dec2 := ⟨fun a b => Dec2.round (a.val + b.val)⟩

instance : Mul Dec2 := ⟨fun a b => Dec2.round (a.val * b.val)⟩

/-- A `1 × 66` row over `Dec2`: `100`, then 63 zeros, then `5, 5` in the second tile. -/
def roundRow : Matrix Dec2 := ⟨[⟨100⟩ :: (List.replicate 63 ⟨0⟩ ++ [⟨5⟩, ⟨5⟩])], 1, 66⟩

/-- A `66 × 1` column of ones over `Dec2`. -/
def roundCol : Matrix Dec2 := ⟨List.replicate 66 [⟨1⟩], 66, 1⟩

/-- A `1 × 3` row over `Dec2`, narrower than a tile. -/
def narrowRow : Matrix Dec2 := ⟨[[⟨60⟩, ⟨50⟩, ⟨7⟩]], 1, 3⟩

/-- A `3 × 1` column of ones over `Dec2`. -/
def narrowCol : Matrix Dec2 := ⟨[[⟨1⟩], [⟨1⟩], [⟨1⟩]], 3, 1⟩

/-- A `2 × 3` integer matrix. -/
def rect23 : Matrix ℤ := ⟨[[1, 2, 3], [4, 5, 6]], 2, 3⟩

/-- The loop invariant of `luDecomposition` on an `n × n` input `A`, before the
step `(k, i)` of the two outer loops: `L * U` is still `A`; `L` is unit lower
triangular and the cells of `L` not yet written are those of the identity; in
`U` the cells already eliminated are zero; the pivots already tested have
magnitude at least `eps`.  The two facts that rest on dividing by a non-zero
pivot are stated for a positive `eps`. -/
structure LUInv [LinearOrderedField α] (eps : α) (A : Matrix α) (n k i : Nat)
    (L U : Matrix α) : Prop where
  shapeL : L.Shape n n
  shapeU : U.Shape n n
  prod : 0 < eps → ∀ r c, r < n → c < n →
    ∑ m ∈ Finset.range n, L.get r m * U.get m c = A.get r c
  diag : ∀ r, r < n → L.get r r = 1
  upper : ∀ r m, r < n → m < n → r < m → L.get r m = 0
  pending : ∀ r m, r < n → m < n → m < r → (k < m ∨ (m = k ∧ i ≤ r)) → L.get r m = 0
  zeroed : 0 < eps → ∀ r c, r < n → c < n → c < r → (c < k ∨ (c = k ∧ r < i)) →
    U.get r c = 0
  pivots : ∀ r, r < n → (r < k ∨ (r = k ∧ k + 1 < i)) → eps ≤ |U.get r r|

/-- The mathematical determinant (the Leibniz sum over permutations) of the
`rows × rows` array of cells of `A`. -/
def Matrix.leibnizDet [CommRing α] (A : Matrix α) : α :=
  Matrix.det (Matrix.of fun i j : Fin A.rows => A.get i.val j.val)

/-- The all-ones `2 × 2` matrix, which is singular. -/
def ones22 : Matrix ℚ := ⟨[[1, 1], [1, 1]], 2, 2⟩

/-- The `2 × 2` exchange matrix `[[0,1],[1,0]]`, of determinant `-1`. -/
def swap22 : Matrix ℚ := ⟨[[0, 1], [1, 0]], 2, 2⟩

/-- A `3 × 3` matrix with an LU decomposition. -/
def lu33 : Matrix ℚ := ⟨[[2, 1, 1], [4, 3, 3], [8, 7, 9]], 3, 3⟩

/-- The matrix of the known-value scenario of `determinant`. -/
def knownDet : Matrix ℚ := ⟨[[1, 2], [3, 4]], 2, 2⟩

/-- The residual of column `c` at row `i`: the source cell minus the projections
`R[k][c] * Q[i][k]` on the earlier columns `k < c`. -/
def qrResidual [LinearOrderedField α] (A Q R : Matrix α) (c i : Nat) : α :=
  A.get i c - ∑ k ∈ Finset.range c, R.get k c * Q.get i k

/-- The norm of the residual of column `c`. -/
def qrNorm [LinearOrderedField α] (sqrt : α → α) (A Q R : Matrix α) (c : Nat) : α :=
  sqrt (∑ i ∈ Finset.range A.rows, qrResidual A Q R c i * qrResidual A Q R c i)

/-- What `qrDecomposition` makes of column `c`: the coefficients above the
diagonal are dot products with the source column, the cells below the diagonal
are zero, and the residual is divided by its norm when the norm exceeds `eps`
and left as it is otherwise. -/
structure QRColumn [LinearOrderedField α] (sqrt : α → α) (eps : α) (A Q R : Matrix α)
    (c : Nat) : Prop where
  coeff : ∀ k, k < c → R.get k c = ∑ i ∈ Finset.range A.rows, Q.get i k * A.get i c
  below : ∀ r, c < r → R.get r c = 0
  normalised : eps < qrNorm sqrt A Q R c →
    R.get c c = qrNorm sqrt A Q R c ∧
      ∀ i, i < A.rows → Q.get i c = qrResidual A Q R c i / qrNorm sqrt A Q R c
  degenerate : ¬ eps < qrNorm sqrt A Q R c →
    R.get c c = 0 ∧ ∀ i, i < A.rows → Q.get i c = qrResidual A Q R c i

/-- The invariant of the column loop of `qrDecomposition` before column `j`. -/
structure QRInv [LinearOrderedField α] (sqrt : α → α) (eps : α) (A : Matrix α) (j : Nat)
    (Q R : Matrix α) : Prop where
  shapeQ : Q.Shape A.rows A.cols
  shapeR : R.Shape A.cols A.cols
  done : ∀ c, c < j → QRColumn sqrt eps A Q R c
  pending : ∀ c, j ≤ c → ∀ r, R.get r c = 0

/-- A `4 × 4` rational matrix with an LU decomposition and determinant `-2`. -/
def lu44 : Matrix ℚ := ⟨[[1, 2, 0, 0], [3, 4, 0, 0], [0, 0, 2, 1], [0, 0, 1, 1]], 4, 4⟩

/-- The invariant of the Gauss-Jordan loop of `inverse` before column `i`, on the
`n × 2n` augmented matrix `[M | N]` built from the source `A`: `M = N * A`; the
first `i` columns of `M` are those of the identity; the determinant of `M` is
not zero. -/
structure GJInv [LinearOrderedField α] (A : Matrix α) (n i : Nat) (aug : Matrix α) :
    Prop where
  shape : aug.Shape n (2 * n)
  rel : ∀ r c, r < n → c < n →
    aug.get r c = ∑ m ∈ Finset.range n, aug.get r (m + n) * A.get m c
  unit : ∀ r c, r < n → c < i → aug.get r c = if r = c then 1 else 0
  det : Matrix.det (Matrix.of fun r c : Fin n => aug.get r.val c.val) ≠ 0

/-- A `4 × 4` matrix of determinant `-1` whose inverse has a zero in cell `(0, 0)`. -/
def corner44 : Matrix ℚ := ⟨[[1, 1, 0, 0], [1, 0, 0, 0], [0, 0, 1, 0], [0, 0, 0, 1]], 4, 4⟩

/-- The inverse of `corner44`. -/
def corner44Inv : Matrix ℚ :=
  ⟨[[0, 1, 0, 0], [1, -1, 0, 0], [0, 0, 1, 0], [0, 0, 0, 1]], 4, 4⟩

/-- A `2 × 2` rational matrix of determinant 2. -/
def det2 : Matrix ℚ := ⟨[[2, 1], [4, 3]], 2, 2⟩

/-- A `2 × 3` rational matrix. -/
def rect23q : Matrix ℚ := ⟨[[1, 2, 3], [4, 5, 6]], 2, 3⟩

/-- The square root of a rational number that is the square of a rational number. -/
def ratSqrt (q : ℚ) : ℚ := (Nat.sqrt q.num.toNat : ℚ) / (Nat.sqrt q.den : ℚ)

/-- A diagonal matrix of order 3. -/
def diag3 : Matrix ℚ := ⟨[[4, 0, 0], [0, 1, 0], [0, 0, 9]], 3, 3⟩

/-- The vector `[1, 2, 3]`. -/
def v123 : Vector ℤ := Vector.ofList [1, 2, 3]

/-- The vector `[4, 5, 6]`. -/
def v456 : Vector ℤ := Vector.ofList [4, 5, 6]

/-- The vector `[7, 8]`. -/
def v78 : Vector ℤ := Vector.ofList [7, 8]

/-- The rational vector `[1, 2, 3]`. -/
def q123 : Vector ℚ := Vector.ofList [1, 2, 3]

/-- The rational vector `[3, 4]`, of magnitude `5`. -/
def q34 : Vector ℚ := Vector.ofList [3, 4]

/-- The rational vector `[1, 0]`. -/
def q10 : Vector ℚ := Vector.ofList [1, 0]

/-! ## The reference modified Gram-Schmidt procedure -/

/-- Reference procedure, following the spec's words ("subtract its projection onto every
previously computed orthonormal column k<j (projection coefficient stored as `R[k][j]`)",
in the modified variant): the coefficient is the inner product of column `k` of `Q` with
the running residual, which is column `j` of `Q` as reduced so far. -/
def mgsProject [LinearOrderedField α] (A : Matrix α) (j k : Nat)
    (QR : Matrix α × Matrix α) : Matrix α × Matrix α :=
  let dot_product := forRange 0 A.rows (fun i d => d + QR.1.get i k * QR.1.get i j) 0
  let R := QR.2.set k j dot_product
  let Q := forRange 0 A.rows
    (fun i Q => Q.set i j (Q.get i j - dot_product * Q.get i k)) QR.1
  (Q, R)

/-- Reference procedure, following the spec's words: "for column j, start from the source
column, subtract its projection onto every previously computed orthonormal column k<j,
then normalize; store the norm as `R[j][j]`.  If the residual norm is below epsilon,
leave the column as zero and `R[j][j] = 0`". -/
def mgsColumn [LinearOrderedField α] (sqrt : α → α) (eps : α) (A : Matrix α) (j : Nat)
    (QR : Matrix α × Matrix α) : Matrix α × Matrix α :=
  let Q := forRange 0 A.rows (fun i Q => Q.set i j (A.get i j)) QR.1
  let QR := forRange 0 j (fun k QR => mgsProject A j k QR) (Q, QR.2)
  let norm := sqrt (forRange 0 A.rows (fun i norm => norm + QR.1.get i j * QR.1.get i j) 0)
  if norm < eps then
    (forRange 0 A.rows (fun i Q => Q.set i j 0) QR.1, QR.2)
  else
    let R := QR.2.set j j norm
    let Q := forRange 0 A.rows (fun i Q => Q.set i j (Q.get i j / norm)) QR.1
    (Q, R)

/-- Reference procedure: modified Gram-Schmidt over the columns of `A`, from zero
matrices `Q` (`rows × cols`) and `R` (`cols × cols`). -/
def mgsDecomposition [LinearOrderedField α] (sqrt : α → α) (eps : α) (A : Matrix α) :
    Matrix α × Matrix α :=
  forRange 0 A.cols (fun j QR => mgsColumn sqrt eps A j QR)
    (Matrix.new A.rows A.cols, Matrix.new A.cols A.cols)

/-- The table `[[1, 2], [3]]`, whose second row is shorter than the first. -/
def raggedRows : List (List ℤ) := [[1, 2], [3]]

/-- The integer vector `[3, 1, 2]`. -/
def v312 : Vector ℤ := Vector.ofList [3, 1, 2]

/-! # Theorems -/

set_option maxRecDepth 100000


/-! ## Reading and writing cells -/

theorem Matrix.row_length {A : Matrix α} (h : A.WF) {i : Nat} (hi : i < A.rows) :
    (A.data.getD i []).length = A.cols := by
  have hlen : i < A.data.length := by rw [h.1]; exact hi
  have hmem : A.data.getD i [] ∈ A.data := by
    rw [List.getD_eq_getElem _ _ hlen]
    exact List.getElem_mem hlen
  exact h.2 _ hmem

theorem Matrix.set_shape {A : Matrix α} {r c : Nat} (h : A.Shape r c) (i j : Nat) (v : α) :
    (A.set i j v).Shape r c := by
  obtain ⟨hwf, hr, hc⟩ := h
  refine ⟨⟨?_, ?_⟩, hr, hc⟩
  · simpa [Matrix.set] using hwf.1
  · intro row hrow
    simp only [Matrix.set] at hrow ⊢
    by_cases hi : i < A.data.length
    · rcases List.mem_or_eq_of_mem_set hrow with hmem | heq
      · exact hwf.2 row hmem
      · subst heq
        rw [List.length_set]
        exact Matrix.row_length hwf (by rw [← hwf.1]; exact hi)
    · rw [List.set_eq_of_length_le (Nat.le_of_not_lt hi)] at hrow
      exact hwf.2 row hrow

theorem Matrix.get_set [Zero α] {A : Matrix α} {r c : Nat} (h : A.Shape r c) {i j : Nat}
    (hi : i < r) (hj : j < c) (v : α) (i' j' : Nat) :
    (A.set i j v).get i' j' = if i' = i ∧ j' = j then v else A.get i' j' := by
  obtain ⟨hwf, hr, hc⟩ := h
  subst hr hc
  have hlen : i < A.data.length := by rw [hwf.1]; exact hi
  have hrow : j < (A.data.getD i []).length := by rw [Matrix.row_length hwf hi]; exact hj
  unfold Matrix.get Matrix.set
  simp only [List.getD_eq_getElem?_getD, List.getElem?_set]
  by_cases h1 : i = i'
  · subst h1
    simp only [hlen, if_true, true_and, Option.getD_some]
    by_cases h2 : j = j'
    · subst h2
      simp only [List.getD_eq_getElem?_getD] at hrow
      simp [hrow]
    · have h3 : ¬ j' = j := fun e => h2 e.symm
      simp [h2, h3]
  · have h3 : ¬ i' = i := fun e => h1 e.symm
    simp [h1, h3]

theorem Matrix.new_shape [Zero α] (r c : Nat) : (Matrix.new r c : Matrix α).Shape r c := by
  refine ⟨⟨?_, ?_⟩, rfl, rfl⟩
  · simp [Matrix.new]
  · intro row hrow
    simp only [Matrix.new] at hrow ⊢
    rw [List.eq_of_mem_replicate hrow]
    simp

theorem Matrix.new_get [Zero α] (r c i j : Nat) : (Matrix.new r c : Matrix α).get i j = 0 := by
  unfold Matrix.get Matrix.new
  simp only [List.getD_eq_getElem?_getD, List.getElem?_replicate]
  by_cases hi : i < r
  · by_cases hj : j < c <;> simp [hi, hj]
  · simp [hi]

/-- Two rectangular matrices of one shape with equal cells are equal. -/

theorem Matrix.ext_get [Zero α] {A B : Matrix α} {r c : Nat} (hA : A.Shape r c)
    (hB : B.Shape r c) (h : ∀ i j, i < r → j < c → A.get i j = B.get i j) : A = B := by
  obtain ⟨hAwf, hAr, hAc⟩ := hA
  obtain ⟨hBwf, hBr, hBc⟩ := hB
  cases A with
  | mk dA rA cA =>
    cases B with
    | mk dB rB cB =>
      simp only at hAr hAc hBr hBc
      have hlA : dA.length = r := hAwf.1.trans hAr
      have hlB : dB.length = r := hBwf.1.trans hBr
      have hcA : ∀ row ∈ dA, row.length = c := fun row hrow => (hAwf.2 row hrow).trans hAc
      have hcB : ∀ row ∈ dB, row.length = c := fun row hrow => (hBwf.2 row hrow).trans hBc
      simp only [Matrix.mk.injEq]
      refine ⟨?_, hAr.trans hBr.symm, hAc.trans hBc.symm⟩
      apply List.ext_getElem (by rw [hlA, hlB])
      intro i h1 h2
      have hi : i < r := by rw [← hlA]; exact h1
      have hrA : (dA[i]).length = c := hcA _ (List.getElem_mem h1)
      have hrB : (dB[i]).length = c := hcB _ (List.getElem_mem h2)
      apply List.ext_getElem (by rw [hrA, hrB])
      intro j h3 h4
      have hj : j < c := by rw [← hrA]; exact h3
      have := h i j hi hj
      simp only [Matrix.get, List.getD_eq_getElem?_getD] at this
      rw [List.getElem?_eq_getElem h1, List.getElem?_eq_getElem h2] at this
      simp only [Option.getD_some] at this
      rw [List.getElem?_eq_getElem h3, List.getElem?_eq_getElem h4] at this
      simpa using this



/-! ## Loops that update cells -/

theorem foldl_fixed {ι β : Type} (l : List ι) (u : ι → β → β) (v : β)
    (h : ∀ x ∈ l, ∀ w, u x w = w) : l.foldl (fun w x => u x w) v = v := by
  induction l with
  | nil => rfl
  | cons x xs ih =>
    rw [List.foldl_cons, h x (List.mem_cons_self x xs)]
    exact ih (fun y hy => h y (List.mem_cons_of_mem x hy))

theorem foldl_single {ι β : Type} (l : List ι) (hnd : l.Nodup) (x0 : ι) (hx : x0 ∈ l)
    (u : ι → β → β) (h : ∀ x ∈ l, x ≠ x0 → ∀ w, u x w = w) (v : β) :
    l.foldl (fun w x => u x w) v = u x0 v := by
  induction l generalizing v with
  | nil => cases hx
  | cons x xs ih =>
    rw [List.foldl_cons]
    rw [List.nodup_cons] at hnd
    by_cases hxx : x = x0
    · subst hxx
      apply foldl_fixed
      intro y hy w
      exact h y (List.mem_cons_of_mem x hy) (fun e => hnd.1 (e ▸ hy)) w
    · rw [h x (List.mem_cons_self x xs) hxx]
      have hx0 : x0 ∈ xs := by
        rcases List.mem_cons.mp hx with e | e
        · exact absurd e.symm hxx
        · exact e
      exact ih hnd.2 hx0 (fun y hy => h y (List.mem_cons_of_mem x hy)) v

/-- Two nested loops whose body rewrites the cell named by the two loop
variables: seen from one cell, the body runs once if the cell is visited and
not at all otherwise. -/

theorem foldl_region {β : Type} (li lj : List Nat) (hi : li.Nodup) (hj : lj.Nodup)
    (g : Nat → Nat → β → β) (i' j' : Nat) (v : β) :
    li.foldl (fun w i => lj.foldl (fun w j => if i' = i ∧ j' = j then g i j w else w) w) v
      = if i' ∈ li ∧ j' ∈ lj then g i' j' v else v := by
  by_cases h : i' ∈ li ∧ j' ∈ lj
  · rw [if_pos h]
    rw [foldl_single li hi i' h.1
      (fun i w => lj.foldl (fun w j => if i' = i ∧ j' = j then g i j w else w) w)]
    · rw [foldl_single lj hj j' h.2 (fun j w => if i' = i' ∧ j' = j then g i' j w else w)]
      · simp
      · intro j _ hne w
        have : ¬ j' = j := fun e => hne e.symm
        simp [this]
    · intro i _ hne w
      apply foldl_fixed
      intro j _ w
      have : ¬ i' = i := fun e => hne e.symm
      simp [this]
  · rw [if_neg h]
    apply foldl_fixed
    intro i hi' w
    apply foldl_fixed
    intro j hj' w
    have : ¬ (i' = i ∧ j' = j) := fun e => h ⟨e.1 ▸ hi', e.2 ▸ hj'⟩
    simp [this]

theorem actsOn_set [Zero α] {r c a b : Nat} (ha : a < r) (hb : b < c) (g : α → α) :
    ActsOn r c (fun M => M.set a b (g (M.get a b)))
      (fun i j v => if i = a ∧ j = b then g v else v) := by
  intro M hM
  refine ⟨Matrix.set_shape hM a b _, ?_⟩
  intro i j _ _
  rw [Matrix.get_set hM ha hb]
  by_cases h : i = a ∧ j = b
  · obtain ⟨h1, h2⟩ := h
    subst h1 h2
    simp
  · simp [h]

theorem actsOn_foldl [Zero α] {ι : Type} {r c : Nat} (l : List ι)
    (body : ι → Matrix α → Matrix α) (u : ι → Nat → Nat → α → α)
    (h : ∀ x ∈ l, ActsOn r c (body x) (u x)) :
    ActsOn r c (fun M => l.foldl (fun M x => body x M) M)
      (fun i j v => l.foldl (fun v x => u x i j v) v) := by
  induction l with
  | nil => intro M hM; exact ⟨hM, fun _ _ _ _ => rfl⟩
  | cons x xs ih =>
    intro M hM
    obtain ⟨h1, h2⟩ := h x (List.mem_cons_self x xs) M hM
    obtain ⟨h3, h4⟩ := ih (fun y hy => h y (List.mem_cons_of_mem x hy)) (body x M) h1
    refine ⟨h3, ?_⟩
    intro i j hi hj
    simp only [List.foldl_cons] at h4 ⊢
    rw [h4 i j hi hj, h2 i j hi hj]

theorem mem_range'_iff {lo hi x : Nat} : x ∈ List.range' lo (hi - lo) ↔ lo ≤ x ∧ x < hi := by
  rw [List.mem_range'_1]
  omega

theorem mem_stepValues {hi x : Nat} :
    x ∈ stepValues hi BLOCK_SIZE ↔ x % 64 = 0 ∧ x < hi := by
  unfold stepValues BLOCK_SIZE
  rw [List.mem_range']
  constructor
  · rintro ⟨b, hb, rfl⟩
    omega
  · rintro ⟨h1, h2⟩
    exact ⟨x / 64, by omega, by omega⟩

theorem nodup_stepValues (hi : Nat) : (stepValues hi BLOCK_SIZE).Nodup := by
  unfold stepValues BLOCK_SIZE
  exact List.nodup_range' 0 _ 64 (by decide)



/-! ## The cells of the results of `operator*`, `transpose` and `identity` -/

theorem mulDirect_spec [Zero α] [Add α] [Mul α] (A B : Matrix α) :
    (mulDirect A B).Shape A.rows B.cols ∧
      ∀ i j, i < A.rows → j < B.cols → (mulDirect A B).get i j = dotLoop A B i j 0 A.cols := by
  have key := actsOn_foldl (r := A.rows) (c := B.cols) (List.range' 0 (A.rows - 0))
    (fun i M => (List.range' 0 (B.cols - 0)).foldl
      (fun M j => M.set i j (dotLoop A B i j 0 A.cols)) M)
    (fun i i' j' v => (List.range' 0 (B.cols - 0)).foldl
      (fun v j => if i' = i ∧ j' = j then dotLoop A B i j 0 A.cols else v) v)
    (fun i hi => actsOn_foldl _ (fun j M => M.set i j (dotLoop A B i j 0 A.cols))
      (fun j i' j' v => if i' = i ∧ j' = j then dotLoop A B i j 0 A.cols else v)
      (fun j hj => actsOn_set (mem_range'_iff.mp hi).2 (mem_range'_iff.mp hj).2
        (fun _ => dotLoop A B i j 0 A.cols)))
  obtain ⟨hs, hg⟩ := key (Matrix.new A.rows B.cols) (Matrix.new_shape _ _)
  refine ⟨hs, fun i j hi hj => ?_⟩
  have := hg i j hi hj
  dsimp only at this
  simp only [mulDirect, forRange]
  rw [this, foldl_region _ _ (List.nodup_range' _ _) (List.nodup_range' _ _)
    (fun i j _ => dotLoop A B i j 0 A.cols),
    if_pos ⟨mem_range'_iff.mpr ⟨Nat.zero_le _, hi⟩, mem_range'_iff.mpr ⟨Nat.zero_le _, hj⟩⟩]

theorem mulBlocked_spec [Zero α] [Add α] [Mul α] (A B : Matrix α) :
    (mulBlocked A B).Shape A.rows B.cols ∧
      ∀ i j, i < A.rows → j < B.cols → (mulBlocked A B).get i j = tiledSum A B i j := by
  have hblock : ∀ ii ∈ stepValues A.rows BLOCK_SIZE, ∀ jj ∈ stepValues B.cols BLOCK_SIZE,
      ∀ kk ∈ stepValues A.cols BLOCK_SIZE,
      ActsOn A.rows B.cols
        (fun M => (List.range' ii (min (ii + BLOCK_SIZE) A.rows - ii)).foldl
          (fun M i => (List.range' jj (min (jj + BLOCK_SIZE) B.cols - jj)).foldl
            (fun M j => M.set i j
              (M.get i j + dotLoop A B i j kk (min (kk + BLOCK_SIZE) A.cols))) M) M)
        (fun i' j' v => (List.range' ii (min (ii + BLOCK_SIZE) A.rows - ii)).foldl
          (fun v i => (List.range' jj (min (jj + BLOCK_SIZE) B.cols - jj)).foldl
            (fun v j => if i' = i ∧ j' = j
              then v + dotLoop A B i j kk (min (kk + BLOCK_SIZE) A.cols) else v) v) v) := by
    intro ii _ jj _ kk _
    exact actsOn_foldl _ _ _ (fun i hi => actsOn_foldl _
      (fun j M => M.set i j (M.get i j + dotLoop A B i j kk (min (kk + BLOCK_SIZE) A.cols)))
      (fun j i' j' v => if i' = i ∧ j' = j
        then v + dotLoop A B i j kk (min (kk + BLOCK_SIZE) A.cols) else v)
      (fun j hj => actsOn_set
        (lt_of_lt_of_le (mem_range'_iff.mp hi).2 (min_le_right _ _))
        (lt_of_lt_of_le (mem_range'_iff.mp hj).2 (min_le_right _ _))
        (fun v => v + dotLoop A B i j kk (min (kk + BLOCK_SIZE) A.cols))))
  have key := actsOn_foldl (r := A.rows) (c := B.cols) (stepValues A.rows BLOCK_SIZE) _ _
    (fun ii hii => actsOn_foldl (stepValues B.cols BLOCK_SIZE) _ _
      (fun jj hjj => actsOn_foldl (stepValues A.cols BLOCK_SIZE) _ _
        (fun kk hkk => hblock ii hii jj hjj kk hkk)))
  obtain ⟨hs, hg⟩ := key (Matrix.new A.rows B.cols) (Matrix.new_shape _ _)
  refine ⟨hs, fun i j hi hj => ?_⟩
  have := hg i j hi hj
  dsimp only at this
  simp only [mulBlocked, forRange, forStep]
  rw [this, Matrix.new_get]
  simp only [foldl_region _ _ (List.nodup_range' _ _) (List.nodup_range' _ _)
    (fun i j v => v + dotLoop A B i j _ _), mem_range'_iff]
  rw [foldl_single _ (nodup_stepValues A.rows) (64 * (i / 64))
    (mem_stepValues.mpr (by omega))]
  · rw [foldl_single _ (nodup_stepValues B.cols) (64 * (j / 64))
      (mem_stepValues.mpr (by omega))]
    · unfold tiledSum
      congr 1
      funext v kk
      rw [if_pos]
      simp only [BLOCK_SIZE]
      omega
    · intro jj hjj hne w
      apply foldl_fixed
      intro kk _ w
      rw [if_neg]
      have := (mem_stepValues.mp hjj).1
      simp only [BLOCK_SIZE]
      omega
  · intro ii hii hne w
    apply foldl_fixed
    intro jj _ w
    apply foldl_fixed
    intro kk _ w
    rw [if_neg]
    have := (mem_stepValues.mp hii).1
    simp only [BLOCK_SIZE]
    omega



/-! ## The loops of `operator*` as finite sums -/

theorem foldl_add_eq_sum [AddCommMonoid α] (f : Nat → α) (n lo : Nat) (s : α) :
    (List.range' lo n).foldl (fun sum k => sum + f k) s
      = s + ∑ k ∈ Finset.Ico lo (lo + n), f k := by
  induction n generalizing lo s with
  | zero => simp
  | succ n ih =>
    rw [List.range'_succ, List.foldl_cons, ih,
      Finset.sum_eq_sum_Ico_succ_bot (by omega : lo < lo + (n + 1)), add_assoc]
    rw [show lo + 1 + n = lo + (n + 1) by omega]

theorem dotLoop_eq_sum [Semiring α] (A B : Matrix α) (i j lo hi : Nat) :
    dotLoop A B i j lo hi = ∑ k ∈ Finset.Ico lo hi, A.get i k * B.get k j := by
  unfold dotLoop forRange
  rw [foldl_add_eq_sum (fun k => A.get i k * B.get k j), zero_add]
  by_cases h : lo ≤ hi
  · rw [Nat.add_sub_cancel' h]
  · rw [Finset.Ico_eq_empty (by omega), Finset.Ico_eq_empty (by omega)]

theorem foldl_tiles_eq_sum [AddCommMonoid α] (f : Nat → α) (n m : Nat) :
    (List.range' 0 m 64).foldl
        (fun v kk => v + ∑ k ∈ Finset.Ico kk (min (kk + 64) n), f k) 0
      = ∑ k ∈ Finset.range (min (64 * m) n), f k := by
  induction m with
  | zero => simp
  | succ m ih =>
    rw [List.range'_concat, List.foldl_append, ih]
    simp only [List.foldl_cons, List.foldl_nil, Nat.zero_add]
    by_cases h : 64 * m ≤ n
    · rw [Nat.min_eq_left h,
        show min (64 * (m + 1)) n = min (64 * m + 64) n by rw [Nat.mul_succ]]
      exact Finset.sum_range_add_sum_Ico f (by omega)
    · rw [Finset.Ico_eq_empty (by omega), Finset.sum_empty, add_zero]
      congr 2
      omega

theorem tiledSum_eq_sum [Semiring α] (A B : Matrix α) (i j : Nat) :
    tiledSum A B i j = ∑ k ∈ Finset.range A.cols, A.get i k * B.get k j := by
  unfold tiledSum stepValues
  simp only [dotLoop_eq_sum, BLOCK_SIZE]
  rw [foldl_tiles_eq_sum (fun k => A.get i k * B.get k j)]
  congr 2
  omega

theorem blocked_eq_direct_semiring [Semiring α] (A B : Matrix α) :
    mulBlocked A B = mulDirect A B := by
  obtain ⟨hs1, hg1⟩ := mulBlocked_spec A B
  obtain ⟨hs2, hg2⟩ := mulDirect_spec A B
  apply Matrix.ext_get hs1 hs2
  intro i j hi hj
  rw [hg1 i j hi hj, hg2 i j hi hj, tiledSum_eq_sum, dotLoop_eq_sum, Finset.range_eq_Ico]

/-- What `A * B` returns when the inner dimensions agree. -/

theorem mul_spec [Semiring α] (A B : Matrix α) (h : A.cols = B.rows) :
    ∃ C, A.mul B = .ok C ∧ C.Shape A.rows B.cols ∧
      ∀ i j, i < A.rows → j < B.cols →
        C.get i j = ∑ k ∈ Finset.range A.cols, A.get i k * B.get k j := by
  refine ⟨mulDirect A B, ?_, (mulDirect_spec A B).1, ?_⟩
  · unfold Matrix.mul
    rw [if_neg (not_not.mpr h), blocked_eq_direct_semiring]
    split_ifs <;> rfl
  · intro i j hi hj
    rw [(mulDirect_spec A B).2 i j hi hj, dotLoop_eq_sum, Finset.range_eq_Ico]


theorem actsOn_set_swap [Zero α] {r c a b : Nat} (ha : a < r) (hb : b < c) (x : α) :
    ActsOn r c (fun M => M.set a b x) (fun i j v => if j = b ∧ i = a then x else v) := by
  intro M hM
  obtain ⟨h1, h2⟩ := actsOn_set ha hb (fun _ => x) M hM
  refine ⟨h1, fun i j hi hj => ?_⟩
  rw [h2 i j hi hj]
  dsimp only
  by_cases h : i = a ∧ j = b
  · rw [if_pos h, if_pos ⟨h.2, h.1⟩]
  · rw [if_neg h, if_neg (fun e => h ⟨e.2, e.1⟩)]

theorem transpose_spec [Zero α] (A : Matrix α) :
    A.transpose.Shape A.cols A.rows ∧
      ∀ i j, i < A.rows → j < A.cols → A.transpose.get j i = A.get i j := by
  have key := actsOn_foldl (r := A.cols) (c := A.rows) (List.range' 0 (A.rows - 0))
    (fun i M => (List.range' 0 (A.cols - 0)).foldl (fun M j => M.set j i (A.get i j)) M)
    (fun i i' j' v => (List.range' 0 (A.cols - 0)).foldl
      (fun v j => if j' = i ∧ i' = j then A.get i j else v) v)
    (fun i hi => actsOn_foldl _ (fun j M => M.set j i (A.get i j))
      (fun j i' j' v => if j' = i ∧ i' = j then A.get i j else v)
      (fun j hj => actsOn_set_swap (mem_range'_iff.mp hj).2 (mem_range'_iff.mp hi).2
        (A.get i j)))
  obtain ⟨hs, hg⟩ := key (Matrix.new A.cols A.rows) (Matrix.new_shape _ _)
  refine ⟨hs, fun i j hi hj => ?_⟩
  have := hg j i hj hi
  dsimp only at this
  simp only [Matrix.transpose, forRange]
  rw [this, foldl_region _ _ (List.nodup_range' _ _) (List.nodup_range' _ _)
    (fun i j _ => A.get i j),
    if_pos ⟨mem_range'_iff.mpr ⟨Nat.zero_le _, hi⟩, mem_range'_iff.mpr ⟨Nat.zero_le _, hj⟩⟩]

theorem identity_spec [Zero α] [One α] (n : Nat) :
    (Matrix.identity n : Matrix α).Shape n n ∧
      ∀ i j, i < n → j < n →
        (Matrix.identity n : Matrix α).get i j = if i = j then 1 else 0 := by
  have key := actsOn_foldl (r := n) (c := n) (α := α) (List.range' 0 (n - 0))
    (fun i M => M.set i i 1)
    (fun i i' j' v => if i' = i ∧ j' = i then 1 else v)
    (fun i hi => actsOn_set (mem_range'_iff.mp hi).2 (mem_range'_iff.mp hi).2 (fun _ => 1))
  obtain ⟨hs, hg⟩ := key (Matrix.new n n) (Matrix.new_shape _ _)
  refine ⟨hs, fun i j hi hj => ?_⟩
  have := hg i j hi hj
  dsimp only at this
  simp only [Matrix.identity, forRange]
  rw [this, Matrix.new_get]
  by_cases h : i = j
  · subst h
    rw [foldl_single _ (List.nodup_range' _ _) i (mem_range'_iff.mpr ⟨Nat.zero_le _, hi⟩)
      (fun x v => if i = x ∧ i = x then (1 : α) else v)]
    · simp
    · intro x _ hne w
      have : ¬ i = x := fun e => hne e.symm
      simp [this]
  · rw [if_neg h]
    apply foldl_fixed
    intro x _ w
    rw [if_neg]
    rintro ⟨h1, h2⟩
    exact h (h1.trans h2.symm)

theorem mul_one_right [Semiring α] (A : Matrix α) (hA : A.WF) :
    A.mul (Matrix.identity A.cols) = .ok A := by
  obtain ⟨hIs, hIg⟩ := identity_spec (α := α) A.cols
  obtain ⟨C, h1, h2, h3⟩ := mul_spec A (Matrix.identity A.cols) hIs.2.1.symm
  rw [h1]
  congr 1
  rw [hIs.2.2] at h2 h3
  apply Matrix.ext_get h2 ⟨hA, rfl, rfl⟩
  intro i j hi hj
  rw [h3 i j hi hj, Finset.sum_eq_single j]
  · rw [hIg j j hj hj, if_pos rfl, mul_one]
  · intro k hk hne
    rw [hIg k j (Finset.mem_range.mp hk) hj, if_neg hne, mul_zero]
  · intro hj'
    exact absurd (Finset.mem_range.mpr hj) hj'

theorem mul_one_left [Semiring α] (A : Matrix α) (hA : A.WF) :
    (Matrix.identity A.rows).mul A = .ok A := by
  obtain ⟨hIs, hIg⟩ := identity_spec (α := α) A.rows
  obtain ⟨C, h1, h2, h3⟩ := mul_spec (Matrix.identity A.rows) A hIs.2.2
  rw [h1]
  congr 1
  rw [hIs.2.1] at h2 h3
  rw [hIs.2.2] at h3
  apply Matrix.ext_get h2 ⟨hA, rfl, rfl⟩
  intro i j hi hj
  rw [h3 i j hi hj, Finset.sum_eq_single i]
  · rw [hIg i i hi hi, if_pos rfl, one_mul]
  · intro k hk hne
    rw [hIg i k hi (Finset.mem_range.mp hk), if_neg (fun e => hne e.symm), zero_mul]
  · intro hi'
    exact absurd (Finset.mem_range.mpr hi) hi'

theorem beq_self [LinearOrderedRing α] (eps : α) (heps : 0 ≤ eps) (A : Matrix α) :
    A.beq eps A = true := by
  unfold Matrix.beq
  have h10 : ¬ (0 : α) > eps * 10 := not_lt.mpr (mul_nonneg heps (by norm_num))
  simp [h10]

/-! ## LU decomposition -/

theorem foldl_rowUpdate [Zero α] [Sub α] [Mul α] {n i k : Nat} (f : α) (hi : i < n)
    (hki : k ≠ i) (js : List Nat) (hjs : ∀ j ∈ js, j < n) (hnd : js.Nodup)
    (U : Matrix α) (hU : U.Shape n n) :
    (js.foldl (fun U j => U.set i j (U.get i j - f * U.get k j)) U).Shape n n ∧
      ∀ r c, r < n → c < n →
        (js.foldl (fun U j => U.set i j (U.get i j - f * U.get k j)) U).get r c
          = if r = i ∧ c ∈ js then U.get i c - f * U.get k c else U.get r c := by
  induction js generalizing U with
  | nil => exact ⟨hU, fun r c _ _ => by simp⟩
  | cons j js ih =>
    rw [List.nodup_cons] at hnd
    have hj : j < n := hjs j (List.mem_cons_self j js)
    have hU1 := Matrix.set_shape hU i j (U.get i j - f * U.get k j)
    obtain ⟨h1, h2⟩ := ih (fun x hx => hjs x (List.mem_cons_of_mem j hx)) hnd.2 _ hU1
    refine ⟨h1, fun r c hr hc => ?_⟩
    rw [List.foldl_cons, h2 r c hr hc]
    by_cases hcase : r = i ∧ c ∈ js
    · obtain ⟨hri, hcj⟩ := hcase
      have hne : c ≠ j := fun e => hnd.1 (e ▸ hcj)
      rw [if_pos ⟨hri, hcj⟩, if_pos ⟨hri, List.mem_cons_of_mem j hcj⟩,
        Matrix.get_set hU hi hj, Matrix.get_set hU hi hj,
        if_neg (fun e => hne e.2), if_neg (fun e => hki e.1)]
    · rw [if_neg hcase, Matrix.get_set hU hi hj]
      by_cases h3 : r = i ∧ c = j
      · rw [if_pos h3, if_pos ⟨h3.1, h3.2 ▸ List.mem_cons_self j js⟩, h3.2]
      · rw [if_neg h3, if_neg]
        rintro ⟨h4, h5⟩
        rcases List.mem_cons.mp h5 with h6 | h6
        · exact h3 ⟨h4, h6⟩
        · exact hcase ⟨h4, h6⟩

/-- What one passing step `(k, i)` of `luDecomposition` does to `L` and `U`. -/
theorem luStep_spec [LinearOrderedField α] {eps : α} {n k i : Nat} (hk : k < i) (hi : i < n)
    {L U L' U' : Matrix α} (hL : L.Shape n n) (hU : U.Shape n n)
    (h : luStep eps n k i (L, U) = .ok (L', U')) :
    eps ≤ |U.get k k| ∧ L'.Shape n n ∧ U'.Shape n n ∧
    (∀ r m, L'.get r m = if r = i ∧ m = k then U.get i k / U.get k k else L.get r m) ∧
    (∀ r c, r < n → c < n → U'.get r c =
      if r = i ∧ k ≤ c then U.get i c - U.get i k / U.get k k * U.get k c else U.get r c) := by
  unfold luStep at h
  by_cases hp : |U.get k k| < eps
  · simp [hp] at h
  · simp only [hp, if_false, Except.ok.injEq, Prod.mk.injEq] at h
    obtain ⟨hL', hU'⟩ := h
    obtain ⟨h1, h2⟩ := foldl_rowUpdate (U.get i k / U.get k k) hi (Nat.ne_of_lt hk)
      (List.range' k (n - k)) (fun j hj => (mem_range'_iff.mp hj).2)
      (List.nodup_range' _ _) U hU
    refine ⟨not_lt.mp hp, ?_, ?_, ?_, ?_⟩
    · rw [← hL']; exact Matrix.set_shape hL _ _ _
    · rw [← hU']; exact h1
    · intro r m
      rw [← hL', Matrix.get_set hL hi (lt_trans hk hi)]
    · intro r c hr hc
      rw [← hU']
      unfold forRange
      rw [h2 r c hr hc]
      simp only [mem_range'_iff]
      by_cases h3 : r = i ∧ k ≤ c
      · rw [if_pos h3, if_pos ⟨h3.1, h3.2, hc⟩]
      · rw [if_neg h3, if_neg (fun e => h3 ⟨e.1, e.2.1⟩)]

theorem LUInv.step [LinearOrderedField α] {eps : α} {A : Matrix α}
    {n k i : Nat} {L U L' U' : Matrix α} (hk : k < i) (hi : i < n)
    (inv : LUInv eps A n k i L U) (h : luStep eps n k i (L, U) = .ok (L', U')) :
    LUInv eps A n k (i + 1) L' U' := by
  obtain ⟨hge, hL', hU', hLg, hUg⟩ := luStep_spec hk hi inv.shapeL inv.shapeU h
  have hkn : k < n := lt_trans hk hi
  have hpiv : 0 < eps → U.get k k ≠ 0 := by
    intro heps e
    rw [e, abs_zero] at hge
    exact absurd heps (not_lt.mpr hge)
  refine ⟨hL', hU', ?_, ?_, ?_, ?_, ?_, ?_⟩
  · intro heps r c hr hc
    rw [← inv.prod heps r c hr hc]
    by_cases hri : r = i
    · subst hri
      have hLrk : L.get r k = 0 := inv.pending r k hr hkn hk (Or.inr ⟨rfl, le_refl r⟩)
      have hLrr : L.get r r = 1 := inv.diag r hr
      have hterm : ∀ m ∈ Finset.range n, L'.get r m * U'.get m c
          = L.get r m * U.get m c
            + ((if m = k then U.get r k / U.get k k * U.get k c else 0)
              + (if m = r then U'.get r c - U.get r c else 0)) := by
        intro m hm
        have hmn : m < n := Finset.mem_range.mp hm
        rw [hLg r m, hUg m c hmn hc]
        by_cases hmk : m = k
        · subst hmk
          have hmr : ¬ m = r := Nat.ne_of_lt hk
          simp [hmr, hLrk]
        · by_cases hmr : m = r
          · subst hmr
            rw [hUg m c hr hc]
            simp only [hmk, and_false, if_false, true_and, if_true, hLrr]
            ring
          · simp [hmk, hmr]
      rw [Finset.sum_congr rfl hterm, Finset.sum_add_distrib, Finset.sum_add_distrib,
        Finset.sum_ite_eq', Finset.sum_ite_eq', if_pos (Finset.mem_range.mpr hkn),
        if_pos (Finset.mem_range.mpr hr), hUg r c hr hc]
      by_cases hkc : k ≤ c
      · simp only [hkc, and_self, if_true]
        ring
      · have hz : U.get k c = 0 := inv.zeroed heps k c hkn hc (by omega) (Or.inl (by omega))
        simp [hkc, hz]
    · apply Finset.sum_congr rfl
      intro m hm
      have hmn : m < n := Finset.mem_range.mp hm
      rw [hLg r m, if_neg (fun e => hri e.1), hUg m c hmn hc]
      by_cases hmi : m = i
      · subst hmi
        have hz : L.get r m = 0 := by
          rcases Nat.lt_or_gt_of_ne hri with h1 | h1
          · exact inv.upper r m hr hmn h1
          · exact inv.pending r m hr hmn h1 (Or.inl hk)
        rw [hz, zero_mul, zero_mul]
      · rw [if_neg (fun e => hmi e.1)]
  · intro r hr
    rw [hLg r r, if_neg (fun e => by omega)]
    exact inv.diag r hr
  · intro r m hr hm hrm
    rw [hLg r m, if_neg (fun e => by omega)]
    exact inv.upper r m hr hm hrm
  · intro r m hr hm hmr hcase
    rw [hLg r m, if_neg (fun e => by omega)]
    exact inv.pending r m hr hm hmr (by omega)
  · intro heps r c hr hc hcr hcase
    rw [hUg r c hr hc]
    by_cases h3 : r = i ∧ k ≤ c
    · obtain ⟨h4, h5⟩ := h3
      have hck : c = k := by omega
      have hpiv' := hpiv heps
      subst h4 hck
      simp only [le_refl, and_self, if_true]
      field_simp
    · rw [if_neg h3]
      exact inv.zeroed heps r c hr hc hcr (by omega)
  · intro r hr hcase
    rw [hUg r r hr hr, if_neg (fun e => by omega)]
    rcases hcase with h1 | ⟨h1, h2⟩
    · exact inv.pivots r hr (Or.inl h1)
    · rw [h1]; exact hge

theorem foldlM_ok_of_id {σ ι : Type} (l : List ι) (body : ι → σ → Except Error σ) (s : σ)
    (h : ∀ x ∈ l, ∀ t, body x t = .ok t) : l.foldlM (fun s x => body x s) s = .ok s := by
  induction l with
  | nil => rfl
  | cons x xs ih =>
    rw [List.foldlM_cons, h x (List.mem_cons_self x xs)]
    exact ih (fun y hy => h y (List.mem_cons_of_mem x hy))

theorem foldlM_cons_ok {σ ι : Type} (x : ι) (xs : List ι) (body : ι → σ → Except Error σ)
    (s s' : σ) (h : (x :: xs).foldlM (fun s x => body x s) s = .ok s') :
    ∃ t, body x s = .ok t ∧ xs.foldlM (fun s x => body x s) t = .ok s' := by
  rw [List.foldlM_cons] at h
  cases hb : body x s with
  | error e => rw [hb] at h; cases h
  | ok t => rw [hb] at h; exact ⟨t, rfl, h⟩

theorem LUInv.inner [LinearOrderedField α] {eps : α} {A : Matrix α}
    {n k : Nat} (len i0 : Nat) (hki : k < i0) (hlen : i0 + len = n) {L U L' U' : Matrix α}
    (inv : LUInv eps A n k i0 L U)
    (h : (List.range' i0 len).foldlM (fun s i => luStep eps n k i s) (L, U) = .ok (L', U')) :
    LUInv eps A n k n L' U' := by
  induction len generalizing i0 L U with
  | zero =>
    have h1 : (L, U) = (L', U') := Except.ok.inj h
    have h2 : i0 = n := by omega
    rw [Prod.mk.injEq] at h1
    rw [h2] at inv
    rw [← h1.1, ← h1.2]
    exact inv
  | succ len ih =>
    rw [List.range'_succ] at h
    obtain ⟨⟨L1, U1⟩, hstep, hrest⟩ := foldlM_cons_ok _ _ (fun i s => luStep eps n k i s) _ _ h
    exact ih (i0 + 1) (by omega) (by omega)
      (LUInv.step hki (by omega) inv hstep) hrest

theorem LUInv.next [LinearOrderedField α] {eps : α} {A : Matrix α} {n k : Nat}
    {L U : Matrix α} (hk : k + 1 < n) (inv : LUInv eps A n k n L U) :
    LUInv eps A n (k + 1) (k + 1 + 1) L U :=
  ⟨inv.shapeL, inv.shapeU, inv.prod, inv.diag, inv.upper,
    fun r m hr hm hmr hcase => inv.pending r m hr hm hmr (by omega),
    fun heps r c hr hc hcr hcase => inv.zeroed heps r c hr hc hcr (by omega),
    fun r hr hcase => inv.pivots r hr (by omega)⟩

theorem LUInv.outer [LinearOrderedField α] {eps : α} {A : Matrix α}
    {n : Nat} (len k0 : Nat) (hlen : k0 + len + 1 = n) {L U L' U' : Matrix α}
    (inv : LUInv eps A n k0 (k0 + 1) L U)
    (h : (List.range' k0 len).foldlM
      (fun s k => forRangeM (k + 1) n (fun i s => luStep eps n k i s) s) (L, U)
        = .ok (L', U')) :
    LUInv eps A n (n - 1) n L' U' := by
  induction len generalizing k0 L U with
  | zero =>
    have h1 : (L, U) = (L', U') := Except.ok.inj h
    rw [Prod.mk.injEq] at h1
    rw [← h1.1, ← h1.2]
    have h2 : n - 1 = k0 := by omega
    have h3 : LUInv eps A n k0 n L U := by
      have h4 : k0 + 1 = n := by omega
      rw [h4] at inv
      exact inv
    rw [h2]
    exact h3
  | succ len ih =>
    rw [List.range'_succ] at h
    obtain ⟨⟨L1, U1⟩, hbody, hrest⟩ := foldlM_cons_ok _ _
      (fun k s => forRangeM (k + 1) n (fun i s => luStep eps n k i s) s) _ _ h
    have h1 : LUInv eps A n k0 n L1 U1 :=
      LUInv.inner (n - (k0 + 1)) (k0 + 1) (Nat.lt_succ_self k0) (by omega) inv hbody
    exact ih (k0 + 1) (by omega) (LUInv.next (by omega) h1) hrest

theorem LUInv.init [LinearOrderedField α] (eps : α) {A : Matrix α} {n : Nat}
    (hA : A.Shape n n) : LUInv eps A n 0 (0 + 1) (Matrix.identity n) A := by
  obtain ⟨hIs, hIg⟩ := identity_spec (α := α) n
  refine ⟨hIs, hA, ?_, ?_, ?_, ?_, ?_, ?_⟩
  · intro _ r c hr hc
    rw [Finset.sum_eq_single r]
    · rw [hIg r r hr hr, if_pos rfl, one_mul]
    · intro m hm hne
      rw [hIg r m hr (Finset.mem_range.mp hm), if_neg (fun e => hne e.symm), zero_mul]
    · intro hr'
      exact absurd (Finset.mem_range.mpr hr) hr'
  · intro r hr
    rw [hIg r r hr hr, if_pos rfl]
  · intro r m hr hm hrm
    rw [hIg r m hr hm, if_neg (Nat.ne_of_lt hrm)]
  · intro r m hr hm hmr _
    rw [hIg r m hr hm, if_neg (Nat.ne_of_gt hmr)]
  · intro _ r c _ _ hcr hcase
    omega
  · intro r _ hcase
    omega

/-- What `luDecomposition` has established when it returns `(L, U)`. -/
theorem luDecomposition_spec [LinearOrderedField α] {eps : α}
    {A L U : Matrix α} (hA : A.WF) (hsz : A.rows < 2 ^ 64)
    (h : luDecomposition eps A = .ok (L, U)) :
    A.rows = A.cols ∧ L.Shape A.rows A.rows ∧ U.Shape A.rows A.rows ∧
    (0 < eps → ∀ r c, r < A.rows → c < A.rows →
      ∑ m ∈ Finset.range A.rows, L.get r m * U.get m c = A.get r c) ∧
    (∀ r, r < A.rows → L.get r r = 1) ∧
    (∀ r m, r < A.rows → m < A.rows → r < m → L.get r m = 0) ∧
    (0 < eps → ∀ r c, r < A.rows → c < A.rows → c < r → U.get r c = 0) ∧
    (∀ r, r + 1 < A.rows → eps ≤ |U.get r r|) := by
  unfold luDecomposition at h
  by_cases hsq : A.rows = A.cols
  · rw [if_neg (not_not.mpr hsq)] at h
    have hshape : A.Shape A.rows A.rows := ⟨hA, rfl, hsq.symm⟩
    unfold forRangeM at h
    rw [← hsq] at h
    rcases Nat.eq_zero_or_pos A.rows with h0 | hpos
    · rw [foldlM_ok_of_id] at h
      · have h1 : (Matrix.identity A.rows, A) = (L, U) := Except.ok.inj h
        rw [Prod.mk.injEq] at h1
        rw [← h1.1, ← h1.2]
        refine ⟨hsq, (identity_spec A.rows).1, hshape, ?_, ?_, ?_, ?_, ?_⟩ <;>
          intros <;> omega
      · intro k _ t
        rw [h0, Nat.zero_sub]
        rfl
    · have hb : (A.rows + 2 ^ 64 - 1) % 2 ^ 64 - 0 = A.rows - 1 := by omega
      rw [hb] at h
      have inv := LUInv.outer (A.rows - 1) 0 (by omega) (LUInv.init eps hshape) h
      exact ⟨hsq, inv.shapeL, inv.shapeU, inv.prod, inv.diag, inv.upper,
        fun heps r c hr hc hcr => inv.zeroed heps r c hr hc hcr (by omega),
        fun r hr => inv.pivots r (by omega) (by omega)⟩
  · rw [if_pos hsq] at h
    cases h

/-- The determinant computed by the closed forms is the Leibniz determinant. -/
theorem determinant_closed_form [LinearOrderedField α] (eps : α) (n : Nat)
    (hn : n = 1 ∨ n = 2 ∨ n = 3) (d : List (List α)) :
    determinant eps ⟨d, n, n⟩ = .ok (Matrix.leibnizDet ⟨d, n, n⟩) := by
  rcases hn with h | h | h <;> subst h
  · simp [determinant, Matrix.leibnizDet, Matrix.det_fin_one]
  · simp [determinant, Matrix.leibnizDet, Matrix.det_fin_two]
  · simp [determinant, Matrix.leibnizDet, Matrix.det_fin_three]
    ring

/-! ## Trace, and the determinant through LU -/

theorem trace_eq_sum [AddCommMonoid α] (A : Matrix α) (h : A.rows = A.cols) :
    trace A = .ok (∑ i ∈ Finset.range A.rows, A.get i i) := by
  unfold trace forRange
  rw [if_neg (not_not.mpr h), foldl_add_eq_sum (fun i => A.get i i), zero_add,
    Nat.sub_zero, Nat.zero_add, Finset.range_eq_Ico]

theorem foldl_mul_eq_prod [CommMonoid α] (f : Nat → α) (n lo : Nat) (s : α) :
    (List.range' lo n).foldl (fun det i => det * f i) s
      = s * ∏ i ∈ Finset.Ico lo (lo + n), f i := by
  induction n generalizing lo s with
  | zero => simp
  | succ n ih =>
    rw [List.range'_succ, List.foldl_cons, ih,
      Finset.prod_eq_prod_Ico_succ_bot (by omega : lo < lo + (n + 1)), mul_assoc]
    rw [show lo + 1 + n = lo + (n + 1) by omega]

/-- The Leibniz determinant of a matrix given cell by cell as a product `L * U`
of a unit lower triangular and an upper triangular factor. -/
theorem det_of_lu [Field α] (n : Nat) (a l u : Nat → Nat → α)
    (hprod : ∀ r c, r < n → c < n → ∑ m ∈ Finset.range n, l r m * u m c = a r c)
    (hdiag : ∀ r, r < n → l r r = 1)
    (hupper : ∀ r m, r < n → m < n → r < m → l r m = 0)
    (hzero : ∀ r c, r < n → c < n → c < r → u r c = 0) :
    Matrix.det (Matrix.of fun i j : Fin n => a i.val j.val)
      = ∏ i ∈ Finset.range n, u i i := by
  have hmul : (Matrix.of fun i j : Fin n => a i.val j.val)
      = (Matrix.of fun i j : Fin n => l i.val j.val)
        * (Matrix.of fun i j : Fin n => u i.val j.val) := by
    ext i j
    rw [Matrix.mul_apply]
    simp only [Matrix.of_apply]
    rw [Fin.sum_univ_eq_sum_range (fun m => l i.val m * u m j.val) n]
    exact (hprod i.val j.val i.isLt j.isLt).symm
  have hL : Matrix.det (Matrix.of fun i j : Fin n => l i.val j.val) = 1 := by
    rw [Matrix.det_of_lowerTriangular]
    · apply Finset.prod_eq_one
      intro i _
      exact hdiag i.val i.isLt
    · intro i j hij
      exact hupper i.val j.val i.isLt j.isLt hij
  have hU : Matrix.det (Matrix.of fun i j : Fin n => u i.val j.val)
      = ∏ i ∈ Finset.range n, u i i := by
    rw [Matrix.det_of_upperTriangular]
    · simp only [Matrix.of_apply]
      exact Fin.prod_univ_eq_prod_range (fun i => u i i) n
    · intro i j hij
      exact hzero i.val j.val i.isLt j.isLt hij
  rw [hmul, Matrix.det_mul, hL, hU, one_mul]

theorem determinantLU_eq [LinearOrderedField α] {eps : α} (heps : 0 < eps)
    {A L U : Matrix α} (hA : A.WF) (hsz : A.rows < 2 ^ 64)
    (h : luDecomposition eps A = .ok (L, U)) :
    determinantLU eps A = .ok (∏ i ∈ Finset.range A.rows, U.get i i) ∧
      ∏ i ∈ Finset.range A.rows, U.get i i = A.leibnizDet := by
  obtain ⟨-, -, -, hprod, hdiag, hupper, hzero, -⟩ := luDecomposition_spec hA hsz h
  constructor
  · unfold determinantLU forRange
    rw [h]
    simp only
    rw [foldl_mul_eq_prod (fun i => U.get i i), one_mul, Nat.sub_zero, Nat.zero_add,
      Finset.range_eq_Ico]
  · unfold Matrix.leibnizDet
    exact (det_of_lu A.rows A.get L.get U.get (hprod heps) hdiag hupper (hzero heps)).symm

/-! ## QR decomposition -/

/-- A loop over the rows `is` that rewrites cell `(i, j)` from its own value and
the value of cell `(i, k)` of another column. -/
theorem foldl_colUpdate [Zero α] {m n j k : Nat} (hj : j < n)
    (g : Nat → α → α → α) (is : List Nat) (his : ∀ i ∈ is, i < m) (hnd : is.Nodup)
    (Q : Matrix α) (hQ : Q.Shape m n) :
    (is.foldl (fun Q i => Q.set i j (g i (Q.get i j) (Q.get i k))) Q).Shape m n ∧
      ∀ r c, (is.foldl (fun Q i => Q.set i j (g i (Q.get i j) (Q.get i k))) Q).get r c
          = if c = j ∧ r ∈ is then g r (Q.get r j) (Q.get r k) else Q.get r c := by
  induction is generalizing Q with
  | nil => exact ⟨hQ, fun r c => by simp⟩
  | cons i is ih =>
    rw [List.nodup_cons] at hnd
    have hi : i < m := his i (List.mem_cons_self i is)
    have hQ1 := Matrix.set_shape hQ i j (g i (Q.get i j) (Q.get i k))
    obtain ⟨h1, h2⟩ := ih (fun x hx => his x (List.mem_cons_of_mem i hx)) hnd.2 _ hQ1
    refine ⟨h1, fun r c => ?_⟩
    rw [List.foldl_cons, h2 r c]
    by_cases hcase : c = j ∧ r ∈ is
    · obtain ⟨hcj, hr⟩ := hcase
      have hne : r ≠ i := fun e => hnd.1 (e ▸ hr)
      rw [if_pos ⟨hcj, hr⟩, if_pos ⟨hcj, List.mem_cons_of_mem i hr⟩,
        Matrix.get_set hQ hi hj, Matrix.get_set hQ hi hj,
        if_neg (fun e => hne e.1), if_neg (fun e => hne e.1)]
    · rw [if_neg hcase, Matrix.get_set hQ hi hj]
      by_cases h3 : r = i ∧ c = j
      · rw [if_pos h3, if_pos ⟨h3.2, h3.1 ▸ List.mem_cons_self i is⟩, h3.1]
      · rw [if_neg h3, if_neg]
        rintro ⟨h4, h5⟩
        rcases List.mem_cons.mp h5 with h6 | h6
        · exact h3 ⟨h6, h4⟩
        · exact hcase ⟨h4, h6⟩

theorem forRange_colUpdate [Zero α] {m n j k : Nat} (hj : j < n)
    (g : Nat → α → α → α) (Q : Matrix α) (hQ : Q.Shape m n) :
    (forRange 0 m (fun i Q => Q.set i j (g i (Q.get i j) (Q.get i k))) Q).Shape m n ∧
      ∀ r c, r < m →
        (forRange 0 m (fun i Q => Q.set i j (g i (Q.get i j) (Q.get i k))) Q).get r c
          = if c = j then g r (Q.get r j) (Q.get r k) else Q.get r c := by
  obtain ⟨h1, h2⟩ := foldl_colUpdate (k := k) hj g (List.range' 0 (m - 0))
    (fun i hi => (mem_range'_iff.mp hi).2) (List.nodup_range' _ _) Q hQ
  refine ⟨h1, fun r c hr => ?_⟩
  unfold forRange
  rw [h2 r c]
  by_cases hc : c = j
  · rw [if_pos ⟨hc, mem_range'_iff.mpr ⟨Nat.zero_le _, hr⟩⟩, if_pos hc]
  · rw [if_neg (fun e => hc e.1), if_neg hc]

theorem forRange_add_eq_sum [AddCommMonoid α] (f : Nat → α) (n : Nat) :
    forRange 0 n (fun i s => s + f i) 0 = ∑ i ∈ Finset.range n, f i := by
  unfold forRange
  rw [foldl_add_eq_sum f, zero_add, Nat.sub_zero, Nat.zero_add, Finset.range_eq_Ico]

theorem qrProject_spec [LinearOrderedField α] (A : Matrix α) {n j k : Nat} (hj : j < n)
    (hk : k < j) (Q R : Matrix α) (hQ : Q.Shape A.rows n) (hR : R.Shape n n) :
    (qrProject A j k (Q, R)).1.Shape A.rows n ∧ (qrProject A j k (Q, R)).2.Shape n n ∧
    (∀ r c, r < A.rows → (qrProject A j k (Q, R)).1.get r c = if c = j
      then Q.get r j - (∑ i ∈ Finset.range A.rows, Q.get i k * A.get i j) * Q.get r k
      else Q.get r c) ∧
    (∀ r c, (qrProject A j k (Q, R)).2.get r c = if r = k ∧ c = j
      then ∑ i ∈ Finset.range A.rows, Q.get i k * A.get i j else R.get r c) := by
  have hdot : forRange 0 A.rows (fun i d => d + Q.get i k * A.get i j) 0
      = ∑ i ∈ Finset.range A.rows, Q.get i k * A.get i j :=
    forRange_add_eq_sum (fun i => Q.get i k * A.get i j) A.rows
  obtain ⟨hQ1, hQ1g⟩ := forRange_colUpdate (k := k) hj
    (fun _ v w => v - (∑ i ∈ Finset.range A.rows, Q.get i k * A.get i j) * w) Q hQ
  unfold qrProject
  simp only [hdot]
  refine ⟨hQ1, Matrix.set_shape hR _ _ _, hQ1g, ?_⟩
  intro r c
  rw [Matrix.get_set hR (lt_trans hk hj) hj]

/-- The projection loop of `qrColumn` over the columns `lo, ..., lo + len - 1`. -/
theorem qr_project_loop [LinearOrderedField α] (A : Matrix α) {n j : Nat} (hj : j < n)
    (len lo : Nat) (hlen : lo + len ≤ j) (Q R : Matrix α) (hQ : Q.Shape A.rows n)
    (hR : R.Shape n n) :
    ((List.range' lo len).foldl (fun QR k => qrProject A j k QR) (Q, R)).1.Shape A.rows n ∧
    ((List.range' lo len).foldl (fun QR k => qrProject A j k QR) (Q, R)).2.Shape n n ∧
    (∀ r c, r < A.rows →
      ((List.range' lo len).foldl (fun QR k => qrProject A j k QR) (Q, R)).1.get r c
        = if c = j
          then Q.get r j - ∑ k ∈ Finset.Ico lo (lo + len),
            (∑ i ∈ Finset.range A.rows, Q.get i k * A.get i j) * Q.get r k
          else Q.get r c) ∧
    (∀ r c, ((List.range' lo len).foldl (fun QR k => qrProject A j k QR) (Q, R)).2.get r c
        = if c = j ∧ lo ≤ r ∧ r < lo + len
          then ∑ i ∈ Finset.range A.rows, Q.get i r * A.get i j else R.get r c) := by
  induction len generalizing lo Q R with
  | zero =>
    refine ⟨hQ, hR, ?_, ?_⟩
    · intro r c _
      by_cases hc : c = j
      · subst hc; simp
      · simp [hc]
    · intro r c
      rw [if_neg (by omega)]
      rfl
  | succ len ih =>
    have hlo : lo < j := by omega
    obtain ⟨hQ1, hR1, hQ1g, hR1g⟩ := qrProject_spec A hj hlo Q R hQ hR
    obtain ⟨h1, h2, h3, h4⟩ := ih (lo + 1) (by omega) _ _ hQ1 hR1
    rw [List.range'_succ, List.foldl_cons]
    refine ⟨h1, h2, ?_, ?_⟩
    · intro r c hr
      rw [h3 r c hr]
      by_cases hc : c = j
      · have hsum : ∑ k ∈ Finset.Ico (lo + 1) (lo + 1 + len),
              (∑ i ∈ Finset.range A.rows,
                (qrProject A j lo (Q, R)).1.get i k * A.get i j)
                * (qrProject A j lo (Q, R)).1.get r k
            = ∑ k ∈ Finset.Ico (lo + 1) (lo + (len + 1)),
              (∑ i ∈ Finset.range A.rows, Q.get i k * A.get i j) * Q.get r k := by
          rw [show lo + 1 + len = lo + (len + 1) by omega]
          apply Finset.sum_congr rfl
          intro k hk
          have hkj : k ≠ j := by
            have := Finset.mem_Ico.mp hk
            omega
          rw [hQ1g r k hr, if_neg hkj]
          congr 1
          apply Finset.sum_congr rfl
          intro i hi
          rw [hQ1g i k (Finset.mem_range.mp hi), if_neg hkj]
        rw [if_pos hc, if_pos hc, hsum, hQ1g r j hr, if_pos rfl,
          Finset.sum_eq_sum_Ico_succ_bot (by omega : lo < lo + (len + 1))]
        ring
      · rw [if_neg hc, if_neg hc, hQ1g r c hr, if_neg hc]
    · intro r c
      rw [h4 r c]
      by_cases hcase : c = j ∧ lo + 1 ≤ r ∧ r < lo + 1 + len
      · have hrj : r ≠ j := by omega
        rw [if_pos hcase, if_pos ⟨hcase.1, by omega, by omega⟩]
        apply Finset.sum_congr rfl
        intro i hi
        rw [hQ1g i r (Finset.mem_range.mp hi), if_neg hrj]
      · rw [if_neg hcase, hR1g r c]
        by_cases h5 : r = lo ∧ c = j
        · rw [if_pos h5, if_pos ⟨h5.2, by omega, by omega⟩, h5.1]
        · rw [if_neg h5, if_neg (by omega)]

theorem qr_project_forRange [LinearOrderedField α] (A : Matrix α) {n j : Nat} (hj : j < n)
    (Q R : Matrix α) (hQ : Q.Shape A.rows n) (hR : R.Shape n n) :
    (forRange 0 j (fun k QR => qrProject A j k QR) (Q, R)).1.Shape A.rows n ∧
    (forRange 0 j (fun k QR => qrProject A j k QR) (Q, R)).2.Shape n n ∧
    (∀ r c, r < A.rows →
      (forRange 0 j (fun k QR => qrProject A j k QR) (Q, R)).1.get r c
        = if c = j
          then Q.get r j - ∑ k ∈ Finset.range j,
            (∑ i ∈ Finset.range A.rows, Q.get i k * A.get i j) * Q.get r k
          else Q.get r c) ∧
    (∀ r c, (forRange 0 j (fun k QR => qrProject A j k QR) (Q, R)).2.get r c
        = if c = j ∧ r < j
          then ∑ i ∈ Finset.range A.rows, Q.get i r * A.get i j else R.get r c) := by
  have h := qr_project_loop A hj j 0 (by omega) Q R hQ hR
  simp only [Nat.zero_add, Nat.zero_le, true_and, ← Finset.range_eq_Ico] at h
  unfold forRange
  rw [Nat.sub_zero]
  exact h

theorem QRColumn.congr [LinearOrderedField α] {sqrt : α → α} {eps : α}
    {A Q R Q' R' : Matrix α} {c : Nat}
    (hQ : ∀ i k, i < A.rows → k ≤ c → Q'.get i k = Q.get i k)
    (hR : ∀ r, R'.get r c = R.get r c) (h : QRColumn sqrt eps A Q R c) :
    QRColumn sqrt eps A Q' R' c := by
  have hres : ∀ i, i < A.rows → qrResidual A Q' R' c i = qrResidual A Q R c i := by
    intro i hi
    unfold qrResidual
    congr 1
    apply Finset.sum_congr rfl
    intro k hk
    rw [hR k, hQ i k hi (Nat.le_of_lt (Finset.mem_range.mp hk))]
  have hnorm : qrNorm sqrt A Q' R' c = qrNorm sqrt A Q R c := by
    unfold qrNorm
    congr 1
    apply Finset.sum_congr rfl
    intro i hi
    rw [hres i (Finset.mem_range.mp hi)]
  refine ⟨?_, ?_, ?_, ?_⟩
  · intro k hk
    rw [hR k, h.coeff k hk]
    apply Finset.sum_congr rfl
    intro i hi
    rw [hQ i k (Finset.mem_range.mp hi) (Nat.le_of_lt hk)]
  · intro r hr
    rw [hR r, h.below r hr]
  · intro hn
    rw [hnorm] at hn ⊢
    obtain ⟨h1, h2⟩ := h.normalised hn
    refine ⟨by rw [hR c, h1], ?_⟩
    intro i hi
    rw [hQ i c hi (le_refl c), hres i hi, h2 i hi]
  · intro hn
    rw [hnorm] at hn
    obtain ⟨h1, h2⟩ := h.degenerate hn
    refine ⟨by rw [hR c, h1], ?_⟩
    intro i hi
    rw [hQ i c hi (le_refl c), hres i hi, h2 i hi]

theorem QRInv.column_step [LinearOrderedField α] {sqrt : α → α} {eps : α} {A Q R : Matrix α}
    {j : Nat} (hj : j < A.cols) (inv : QRInv sqrt eps A j Q R) :
    QRInv sqrt eps A (j + 1) (qrColumn sqrt eps A j (Q, R)).1
      (qrColumn sqrt eps A j (Q, R)).2 := by
  obtain ⟨hQ0, hQ0g⟩ := forRange_colUpdate (k := j) hj (fun i _ _ => A.get i j) Q inv.shapeQ
  obtain ⟨hP1, hP2, hP1g, hP2g⟩ := qr_project_forRange A hj _ R hQ0 inv.shapeR
  have hnormsum := forRange_add_eq_sum (fun i =>
    (forRange 0 j (fun k QR => qrProject A j k QR)
      (forRange 0 A.rows (fun i Q => Q.set i j (A.get i j)) Q, R)).1.get i j
    * (forRange 0 j (fun k QR => qrProject A j k QR)
      (forRange 0 A.rows (fun i Q => Q.set i j (A.get i j)) Q, R)).1.get i j) A.rows
  obtain ⟨hQ3, hQ3g⟩ := forRange_colUpdate (k := j) hj
    (fun _ v _ => v / sqrt (∑ i ∈ Finset.range A.rows,
      (forRange 0 j (fun k QR => qrProject A j k QR)
        (forRange 0 A.rows (fun i Q => Q.set i j (A.get i j)) Q, R)).1.get i j
      * (forRange 0 j (fun k QR => qrProject A j k QR)
        (forRange 0 A.rows (fun i Q => Q.set i j (A.get i j)) Q, R)).1.get i j))
    _ hP1
  have hqr : qrColumn sqrt eps A j (Q, R) =
      if sqrt (∑ i ∈ Finset.range A.rows,
        (forRange 0 j (fun k QR => qrProject A j k QR)
          (forRange 0 A.rows (fun i Q => Q.set i j (A.get i j)) Q, R)).1.get i j
        * (forRange 0 j (fun k QR => qrProject A j k QR)
          (forRange 0 A.rows (fun i Q => Q.set i j (A.get i j)) Q, R)).1.get i j) > eps
      then (forRange 0 A.rows (fun i Q' => Q'.set i j (Q'.get i j /
          sqrt (∑ i ∈ Finset.range A.rows,
            (forRange 0 j (fun k QR => qrProject A j k QR)
              (forRange 0 A.rows (fun i Q => Q.set i j (A.get i j)) Q, R)).1.get i j
            * (forRange 0 j (fun k QR => qrProject A j k QR)
              (forRange 0 A.rows (fun i Q => Q.set i j (A.get i j)) Q, R)).1.get i j)))
          (forRange 0 j (fun k QR => qrProject A j k QR)
            (forRange 0 A.rows (fun i Q => Q.set i j (A.get i j)) Q, R)).1,
        (forRange 0 j (fun k QR => qrProject A j k QR)
          (forRange 0 A.rows (fun i Q => Q.set i j (A.get i j)) Q, R)).2.set j j
          (sqrt (∑ i ∈ Finset.range A.rows,
            (forRange 0 j (fun k QR => qrProject A j k QR)
              (forRange 0 A.rows (fun i Q => Q.set i j (A.get i j)) Q, R)).1.get i j
            * (forRange 0 j (fun k QR => qrProject A j k QR)
              (forRange 0 A.rows (fun i Q => Q.set i j (A.get i j)) Q, R)).1.get i j)))
      else forRange 0 j (fun k QR => qrProject A j k QR)
          (forRange 0 A.rows (fun i Q => Q.set i j (A.get i j)) Q, R) := by
    unfold qrColumn
    simp only [hnormsum]
  generalize forRange 0 j (fun k QR => qrProject A j k QR)
      (forRange 0 A.rows (fun i Q => Q.set i j (A.get i j)) Q, R) = P
    at hP1 hP2 hP1g hP2g hQ3 hQ3g hqr
  generalize forRange 0 A.rows (fun i Q => Q.set i j (A.get i j)) Q = Q0
    at hQ0 hQ0g hP1g hP2g
  -- the projected column is the residual of the final factors
  have hPQ : ∀ i k, i < A.rows → k ≠ j → P.1.get i k = Q.get i k := by
    intro i k hi hk
    rw [hP1g i k hi, if_neg hk, hQ0g i k hi, if_neg hk]
  have hPR : ∀ r c, c ≠ j → P.2.get r c = R.get r c := by
    intro r c hc
    rw [hP2g r c, if_neg (fun e => hc e.1)]
  have hcoeff : ∀ k, k < j →
      P.2.get k j = ∑ i ∈ Finset.range A.rows, P.1.get i k * A.get i j := by
    intro k hk
    rw [hP2g k j, if_pos ⟨rfl, hk⟩]
    apply Finset.sum_congr rfl
    intro i hi
    rw [hQ0g i k (Finset.mem_range.mp hi), if_neg (Nat.ne_of_lt hk),
      hPQ i k (Finset.mem_range.mp hi) (Nat.ne_of_lt hk)]
  have hres : ∀ i, i < A.rows → P.1.get i j = qrResidual A P.1 P.2 j i := by
    intro i hi
    unfold qrResidual
    rw [hP1g i j hi, if_pos rfl, hQ0g i j hi, if_pos rfl]
    congr 1
    apply Finset.sum_congr rfl
    intro k hk
    have hkj : k < j := Finset.mem_range.mp hk
    rw [hP2g k j, if_pos ⟨rfl, hkj⟩, hPQ i k hi (Nat.ne_of_lt hkj),
      hQ0g i k hi, if_neg (Nat.ne_of_lt hkj)]
  have hdiag : P.2.get j j = 0 := by
    rw [hP2g j j, if_neg (by omega)]
    exact inv.pending j (le_refl j) j
  have hbelow : ∀ r, j < r → P.2.get r j = 0 := by
    intro r hr
    rw [hP2g r j, if_neg (by omega)]
    exact inv.pending j (le_refl j) r
  have hPcol : QRColumn sqrt eps A P.1 P.2 j → ∀ c, c < j + 1 → QRColumn sqrt eps A P.1 P.2 c := by
    intro hcol c hc
    rcases Nat.lt_or_ge c j with h1 | h1
    · exact QRColumn.congr (fun i k hi hk => hPQ i k hi (by omega))
        (fun r => hPR r c (by omega)) (inv.done c h1)
    · have : c = j := by omega
      rw [this]
      exact hcol
  have hpend : ∀ c, j + 1 ≤ c → ∀ r, P.2.get r c = 0 := by
    intro c hc r
    rw [hPR r c (by omega)]
    exact inv.pending c (by omega) r
  rw [hqr]
  by_cases hn : sqrt (∑ i ∈ Finset.range A.rows, P.1.get i j * P.1.get i j) > eps
  · rw [if_pos hn]
    generalize hN : sqrt (∑ i ∈ Finset.range A.rows, P.1.get i j * P.1.get i j) = N
      at hQ3 hQ3g hn ⊢
    generalize forRange 0 A.rows (fun i Q' => Q'.set i j (Q'.get i j / N)) P.1 = Q'
      at hQ3 hQ3g ⊢
    have hR' : ∀ r c, (P.2.set j j N).get r c = if r = j ∧ c = j then N else P.2.get r c :=
      fun r c => Matrix.get_set hP2 hj hj N r c
    have hQ'Q : ∀ i k, i < A.rows → k ≠ j → Q'.get i k = P.1.get i k := by
      intro i k hi hk
      rw [hQ3g i k hi, if_neg hk]
    have hR'R : ∀ r c, ¬ (r = j ∧ c = j) → (P.2.set j j N).get r c = P.2.get r c := by
      intro r c hrc
      rw [hR' r c, if_neg hrc]
    have hres' : ∀ i, i < A.rows →
        qrResidual A Q' (P.2.set j j N) j i = P.1.get i j := by
      intro i hi
      rw [hres i hi]
      unfold qrResidual
      congr 1
      apply Finset.sum_congr rfl
      intro k hk
      have hkj : k < j := Finset.mem_range.mp hk
      rw [hR'R k j (by omega), hQ'Q i k hi (Nat.ne_of_lt hkj)]
    have hnorm' : qrNorm sqrt A Q' (P.2.set j j N) j = N := by
      have hs : ∑ i ∈ Finset.range A.rows,
            qrResidual A Q' (P.2.set j j N) j i * qrResidual A Q' (P.2.set j j N) j i
          = ∑ i ∈ Finset.range A.rows, P.1.get i j * P.1.get i j :=
        Finset.sum_congr rfl (fun i hi => by rw [hres' i (Finset.mem_range.mp hi)])
      unfold qrNorm
      rw [hs]
      exact hN
    refine ⟨hQ3, Matrix.set_shape hP2 j j N, ?_, ?_⟩
    · intro c hc
      rcases Nat.lt_or_ge c j with h1 | h1
      · exact QRColumn.congr
          (fun i k hi hk => (hQ'Q i k hi (by omega)).trans (hPQ i k hi (by omega)))
          (fun r => (hR'R r c (by omega)).trans (hPR r c (by omega))) (inv.done c h1)
      · have hcj : c = j := by omega
        rw [hcj]
        refine ⟨?_, ?_, ?_, ?_⟩
        · intro k hk
          rw [hR'R k j (by omega), hcoeff k hk]
          apply Finset.sum_congr rfl
          intro i hi
          rw [hQ'Q i k (Finset.mem_range.mp hi) (Nat.ne_of_lt hk)]
        · intro r hr
          rw [hR'R r j (by omega), hbelow r hr]
        · intro _
          rw [hnorm']
          refine ⟨by rw [hR' j j, if_pos ⟨rfl, rfl⟩], ?_⟩
          intro i hi
          rw [hQ3g i j hi, if_pos rfl, hres' i hi]
        · intro h
          rw [hnorm'] at h
          exact absurd hn h
    · intro c hc r
      rw [hR'R r c (by omega)]
      exact hpend c hc r
  · rw [if_neg hn]
    have hnorm : qrNorm sqrt A P.1 P.2 j
        = sqrt (∑ i ∈ Finset.range A.rows, P.1.get i j * P.1.get i j) := by
      unfold qrNorm
      congr 1
      apply Finset.sum_congr rfl
      intro i hi
      rw [hres i (Finset.mem_range.mp hi)]
    refine ⟨hP1, hP2, hPcol ⟨hcoeff, hbelow, ?_, ?_⟩, hpend⟩
    · intro h
      rw [hnorm] at h
      exact absurd h hn
    · intro _
      exact ⟨hdiag, hres⟩

theorem QRInv.column_loop [LinearOrderedField α] {sqrt : α → α} {eps : α} {A : Matrix α}
    (len j0 : Nat) (hlen : j0 + len ≤ A.cols) {Q R : Matrix α}
    (inv : QRInv sqrt eps A j0 Q R) :
    QRInv sqrt eps A (j0 + len)
      ((List.range' j0 len).foldl (fun QR j => qrColumn sqrt eps A j QR) (Q, R)).1
      ((List.range' j0 len).foldl (fun QR j => qrColumn sqrt eps A j QR) (Q, R)).2 := by
  induction len generalizing j0 Q R with
  | zero => exact inv
  | succ len ih =>
    rw [List.range'_succ, List.foldl_cons, show j0 + (len + 1) = j0 + 1 + len by omega]
    exact ih (j0 + 1) (by omega) (QRInv.column_step (by omega) inv)

/-- What `qrDecomposition` returns, column by column. -/
theorem qrDecomposition_spec [LinearOrderedField α] (sqrt : α → α) (eps : α)
    (A : Matrix α) :
    (qrDecomposition sqrt eps A).1.Shape A.rows A.cols ∧
    (qrDecomposition sqrt eps A).2.Shape A.cols A.cols ∧
    ∀ c, c < A.cols →
      QRColumn sqrt eps A (qrDecomposition sqrt eps A).1 (qrDecomposition sqrt eps A).2 c := by
  have h0 : QRInv sqrt eps A 0 (Matrix.new A.rows A.cols) (Matrix.new A.cols A.cols) :=
    ⟨Matrix.new_shape _ _, Matrix.new_shape _ _, fun c hc => absurd hc (Nat.not_lt_zero c),
      fun c _ r => Matrix.new_get _ _ r c⟩
  have h := QRInv.column_loop A.cols 0 (by omega) h0
  rw [Nat.zero_add] at h
  unfold qrDecomposition forRange
  rw [Nat.sub_zero]
  exact ⟨h.shapeQ, h.shapeR, h.done⟩

theorem qr_product_cell [LinearOrderedField α] {sqrt : α → α} {eps : α} (heps : 0 ≤ eps)
    {A Q R : Matrix α} {c : Nat} (hc : c < A.cols) (hcol : QRColumn sqrt eps A Q R c)
    (i : Nat) (hi : i < A.rows) :
    ∑ k ∈ Finset.range A.cols, Q.get i k * R.get k c
      = if R.get c c = 0 then A.get i c - Q.get i c else A.get i c := by
  have hsplit : ∑ k ∈ Finset.range A.cols, Q.get i k * R.get k c
      = ∑ k ∈ Finset.range (c + 1), Q.get i k * R.get k c := by
    symm
    apply Finset.sum_subset (Finset.range_subset.mpr (by omega))
    intro k _ hk
    have hck : c < k := by
      have := Finset.mem_range.not.mp hk
      omega
    rw [hcol.below k hck, mul_zero]
  have hres : ∑ k ∈ Finset.range c, Q.get i k * R.get k c
      = A.get i c - qrResidual A Q R c i := by
    unfold qrResidual
    rw [sub_sub_cancel]
    exact Finset.sum_congr rfl (fun k _ => mul_comm _ _)
  rw [hsplit, Finset.sum_range_succ, hres]
  by_cases hn : eps < qrNorm sqrt A Q R c
  · obtain ⟨h1, h2⟩ := hcol.normalised hn
    have hN : qrNorm sqrt A Q R c ≠ 0 := ne_of_gt (lt_of_le_of_lt heps hn)
    rw [if_neg (by rw [h1]; exact hN), h2 i hi, h1, div_mul_cancel₀ _ hN]
    ring
  · obtain ⟨h1, h2⟩ := hcol.degenerate hn
    rw [if_pos h1, h1, mul_zero, add_zero, h2 i hi]

theorem qr_gram [LinearOrderedField α] {sqrt : α → α}
    (hsqrt : ∀ x, 0 ≤ x → sqrt x * sqrt x = x) {eps : α} (heps : 0 ≤ eps)
    {A Q R : Matrix α} (hcols : ∀ c, c < A.cols → QRColumn sqrt eps A Q R c)
    (hfull : ∀ c, c < A.cols → R.get c c ≠ 0) (c : Nat) (hc : c < A.cols) :
    (∀ a, a < c → ∑ i ∈ Finset.range A.rows, Q.get i a * Q.get i c = 0) ∧
      ∑ i ∈ Finset.range A.rows, Q.get i c * Q.get i c = 1 := by
  induction c using Nat.strong_induction_on with
  | _ c ih =>
    have hcol := hcols c hc
    have hnormed : eps < qrNorm sqrt A Q R c := by
      by_contra h
      exact hfull c hc (hcol.degenerate h).1
    obtain ⟨-, hQc⟩ := hcol.normalised hnormed
    have hN : qrNorm sqrt A Q R c ≠ 0 := ne_of_gt (lt_of_le_of_lt heps hnormed)
    have hG : ∀ a k, a < c → k < c →
        ∑ i ∈ Finset.range A.rows, Q.get i a * Q.get i k = if a = k then 1 else 0 := by
      intro a k ha hk
      rcases lt_trichotomy a k with h | h | h
      · rw [if_neg (Nat.ne_of_lt h)]
        exact (ih k hk (lt_trans hk hc)).1 a h
      · rw [if_pos h, h]
        exact (ih k hk (lt_trans hk hc)).2
      · rw [if_neg (Nat.ne_of_gt h), Finset.sum_congr rfl (fun i _ => mul_comm _ _)]
        exact (ih a ha (lt_trans ha hc)).1 k h
    have hproj : ∀ a, a < c →
        ∑ i ∈ Finset.range A.rows, Q.get i a * qrResidual A Q R c i = 0 := by
      intro a ha
      unfold qrResidual
      simp only [mul_sub, Finset.sum_sub_distrib, Finset.mul_sum]
      rw [Finset.sum_comm, ← hcol.coeff a ha]
      have h1 : ∀ k ∈ Finset.range c,
          ∑ i ∈ Finset.range A.rows, Q.get i a * (R.get k c * Q.get i k)
            = R.get k c * (if a = k then 1 else 0) := by
        intro k hk
        rw [← hG a k ha (Finset.mem_range.mp hk), Finset.mul_sum]
        exact Finset.sum_congr rfl (fun i _ => by ring)
      rw [Finset.sum_congr rfl h1]
      simp only [mul_ite, mul_one, mul_zero]
      rw [Finset.sum_ite_eq, if_pos (Finset.mem_range.mpr ha), sub_self]
    constructor
    · intro a ha
      have h1 : ∀ i ∈ Finset.range A.rows, Q.get i a * Q.get i c
          = (Q.get i a * qrResidual A Q R c i) / qrNorm sqrt A Q R c := by
        intro i hi
        rw [hQc i (Finset.mem_range.mp hi), mul_div_assoc]
      rw [Finset.sum_congr rfl h1, ← Finset.sum_div, hproj a ha, zero_div]
    · have h1 : ∀ i ∈ Finset.range A.rows, Q.get i c * Q.get i c
          = (qrResidual A Q R c i * qrResidual A Q R c i)
            / (qrNorm sqrt A Q R c * qrNorm sqrt A Q R c) := by
        intro i hi
        rw [hQc i (Finset.mem_range.mp hi), div_mul_div_comm]
      have hS : 0 ≤ ∑ i ∈ Finset.range A.rows,
          qrResidual A Q R c i * qrResidual A Q R c i :=
        Finset.sum_nonneg (fun i _ => mul_self_nonneg _)
      have hNN : qrNorm sqrt A Q R c * qrNorm sqrt A Q R c
          = ∑ i ∈ Finset.range A.rows, qrResidual A Q R c i * qrResidual A Q R c i := by
        unfold qrNorm
        exact hsqrt _ hS
      rw [Finset.sum_congr rfl h1, ← Finset.sum_div, ← hNN]
      exact div_self (mul_ne_zero hN hN)

theorem qr_tiny_eval :
    qrDecomposition Real.sqrt (1 / 1000) (⟨[[1 / 2000]], 1, 1⟩ : Matrix ℝ)
      = (⟨[[1 / 2000]], 1, 1⟩, ⟨[[0]], 1, 1⟩) := by
  have hs : Real.sqrt (2000⁻¹ * 2000⁻¹) = 2000⁻¹ := Real.sqrt_mul_self (by norm_num)
  have hlt : ¬ ((1000 : ℝ)⁻¹ < 2000⁻¹) := by norm_num
  simp [qrDecomposition, qrColumn, qrProject, forRange, Matrix.new, Matrix.set, Matrix.get,
    List.range', hs, hlt]

theorem qr_col34_eval :
    qrDecomposition Real.sqrt (1 / 1000) (⟨[[3], [4]], 2, 1⟩ : Matrix ℝ)
      = (⟨[[3 / 5], [4 / 5]], 2, 1⟩, ⟨[[5]], 1, 1⟩) := by
  have hs : Real.sqrt (3 * 3 + 4 * 4) = 5 := by
    rw [show (3 : ℝ) * 3 + 4 * 4 = 5 * 5 by norm_num]
    exact Real.sqrt_mul_self (by norm_num)
  have hlt : (1000 : ℝ)⁻¹ < 5 := by norm_num
  simp [qrDecomposition, qrColumn, qrProject, forRange, Matrix.new, Matrix.set, Matrix.get,
    List.range', hs, hlt]

/-! ## Which exception the square-only operations raise -/

theorem foldlM_error_kind {σ ι : Type} (P : Error → Prop) (l : List ι)
    (body : ι → σ → Except Error σ) (h : ∀ x t e, body x t = .error e → P e) (s : σ)
    (e : Error) (he : l.foldlM (fun s x => body x s) s = .error e) : P e := by
  induction l generalizing s with
  | nil => cases he
  | cons x xs ih =>
    rw [List.foldlM_cons] at he
    cases hb : body x s with
    | error e' =>
      rw [hb] at he
      have : e' = e := Except.error.inj he
      rw [← this]
      exact h x s e' hb
    | ok t =>
      rw [hb] at he
      exact ih t he

theorem luStep_error [LinearOrderedField α] {eps : α} {cols k i : Nat}
    {LU : Matrix α × Matrix α} {e : Error} (h : luStep eps cols k i LU = .error e) :
    e = .runtime_error := by
  unfold luStep at h
  split_ifs at h
  exact (Except.error.inj h).symm

theorem lu_error_kind [LinearOrderedField α] {eps : α} {A : Matrix α} (hsq : A.rows = A.cols)
    {e : Error} (h : luDecomposition eps A = .error e) : e = .runtime_error := by
  unfold luDecomposition at h
  rw [if_neg (not_not.mpr hsq)] at h
  unfold forRangeM at h
  refine foldlM_error_kind (fun e => e = .runtime_error) _ _ ?_ _ e h
  intro k t e' he'
  exact foldlM_error_kind (fun e => e = .runtime_error) _ _
    (fun i t e'' h'' => luStep_error h'') t e' he'

theorem determinant_error_kind [LinearOrderedField α] {eps : α} {A : Matrix α}
    (hsq : A.rows = A.cols) {e : Error} (h : determinant eps A = .error e) :
    e = .runtime_error := by
  unfold determinant at h
  rw [if_neg (not_not.mpr hsq)] at h
  split_ifs at h
  unfold determinantLU at h
  cases hlu : luDecomposition eps A with
  | error e' =>
    rw [hlu] at h
    have : e' = e := Except.error.inj h
    rw [← this]
    exact lu_error_kind hsq hlu
  | ok LU =>
    rw [hlu] at h
    cases h

theorem determinant_ok_eq [LinearOrderedField α] {eps : α} (heps : 0 < eps) {A : Matrix α}
    (hA : A.WF) (hsq : A.rows = A.cols) (hsz : A.rows < 2 ^ 64) {d : α}
    (h : determinant eps A = .ok d) : d = A.leibnizDet := by
  by_cases hn : A.rows = 1 ∨ A.rows = 2 ∨ A.rows = 3
  · obtain ⟨dat, r, c⟩ := A
    simp only at hsq hn
    subst hsq
    rw [determinant_closed_form eps r hn dat] at h
    exact (Except.ok.inj h).symm
  · have hdet : determinant eps A = determinantLU eps A := by
      unfold determinant
      rw [if_neg (not_not.mpr hsq), if_neg (by omega), if_neg (by omega), if_neg (by omega)]
    rw [hdet] at h
    cases hlu : luDecomposition eps A with
    | error e =>
      unfold determinantLU at h
      rw [hlu] at h
      cases h
    | ok LU =>
      obtain ⟨L, U⟩ := LU
      obtain ⟨h1, h2⟩ := determinantLU_eq heps hA hsz hlu
      rw [h1] at h
      rw [← h2]
      exact (Except.ok.inj h).symm

theorem inverse_of_singular [LinearOrderedField α] {eps : α} (heps : 0 < eps) {A : Matrix α}
    (hA : A.WF) (hsq : A.rows = A.cols) (hsz : A.rows < 2 ^ 64)
    (hdet : A.leibnizDet = 0) : inverse eps A = .error .runtime_error := by
  unfold inverse
  rw [if_neg (not_not.mpr hsq)]
  cases hd : determinant eps A with
  | error e =>
    simp only
    rw [determinant_error_kind hsq hd]
  | ok d =>
    simp only
    have hd0 : d = 0 := (determinant_ok_eq heps hA hsq hsz hd).trans hdet
    rw [hd0, abs_zero, if_pos heps]

/-- The QR iteration of `eigenvalues` on a square matrix returns a square matrix. -/
theorem qrIterate_square [LinearOrderedField α] (sqrt : α → α) (eps : α) (rows cols : Nat)
    (iters : Nat) (A : Matrix α) (hsq : A.rows = A.cols) :
    ∃ A', qrIterate sqrt eps rows cols iters A = .ok A' ∧ A'.rows = A.rows ∧
      A'.cols = A.cols := by
  induction iters generalizing A with
  | zero => exact ⟨A, rfl, rfl, rfl⟩
  | succ iters ih =>
    obtain ⟨hQ, hR, -⟩ := qrDecomposition_spec sqrt eps A
    obtain ⟨B, h1, h2, -⟩ := mul_spec (qrDecomposition sqrt eps A).2
      (qrDecomposition sqrt eps A).1 (hR.2.2.trans (hsq.symm.trans hQ.2.1.symm))
    rw [hR.2.1, hQ.2.2] at h2
    unfold qrIterate
    simp only [h1]
    split_ifs
    · exact ⟨B, rfl, h2.2.1.trans hsq.symm, h2.2.2⟩
    · obtain ⟨A', h3, h4, h5⟩ := ih B (h2.2.1.trans h2.2.2.symm)
      exact ⟨A', h3, h4.trans (h2.2.1.trans hsq.symm), h5.trans h2.2.2⟩

theorem eigenvalues_square [LinearOrderedField α] (sqrt : α → α) (eps : α) (A : Matrix α)
    (hsq : A.rows = A.cols) : ∃ v, eigenvalues sqrt eps A = .ok v := by
  unfold eigenvalues
  rw [if_neg (not_not.mpr hsq)]
  by_cases h1 : A.rows = 1
  · rw [if_pos h1]
    exact ⟨_, rfl⟩
  · rw [if_neg h1]
    by_cases h2 : A.rows = 2
    · rw [if_pos h2]
      by_cases h3 : (A.get 0 0 + A.get 1 1) * (A.get 0 0 + A.get 1 1)
          - 4 * (A.get 0 0 * A.get 1 1 - A.get 0 1 * A.get 1 0) ≥ 0
      · simp only [h3, if_true]
        exact ⟨_, rfl⟩
      · simp only [h3, if_false]
        exact ⟨_, rfl⟩
    · rw [if_neg h2]
      obtain ⟨A', h, -, -⟩ := qrIterate_square sqrt eps A.rows A.cols MAX_ITERATIONS A hsq
      rw [h]
      exact ⟨_, rfl⟩

/-! ## Gauss-Jordan elimination: what each loop of `inverse` does to the cells -/

theorem foldl_rowUpdate_rect [Zero α] [Sub α] [Mul α] {m n i k : Nat} (f : α) (hi : i < m)
    (hki : k ≠ i) (js : List Nat) (hjs : ∀ j ∈ js, j < n) (hnd : js.Nodup)
    (U : Matrix α) (hU : U.Shape m n) :
    (js.foldl (fun U j => U.set i j (U.get i j - f * U.get k j)) U).Shape m n ∧
      ∀ r c, (js.foldl (fun U j => U.set i j (U.get i j - f * U.get k j)) U).get r c
          = if r = i ∧ c ∈ js then U.get i c - f * U.get k c else U.get r c := by
  induction js generalizing U with
  | nil => exact ⟨hU, fun r c => by simp⟩
  | cons j js ih =>
    rw [List.nodup_cons] at hnd
    have hj : j < n := hjs j (List.mem_cons_self j js)
    have hU1 := Matrix.set_shape hU i j (U.get i j - f * U.get k j)
    obtain ⟨h1, h2⟩ := ih (fun x hx => hjs x (List.mem_cons_of_mem j hx)) hnd.2 _ hU1
    refine ⟨h1, fun r c => ?_⟩
    rw [List.foldl_cons, h2 r c]
    by_cases hcase : r = i ∧ c ∈ js
    · obtain ⟨hri, hcj⟩ := hcase
      have hne : c ≠ j := fun e => hnd.1 (e ▸ hcj)
      rw [if_pos ⟨hri, hcj⟩, if_pos ⟨hri, List.mem_cons_of_mem j hcj⟩,
        Matrix.get_set hU hi hj, Matrix.get_set hU hi hj,
        if_neg (fun e => hne e.2), if_neg (fun e => hki e.1)]
    · rw [if_neg hcase, Matrix.get_set hU hi hj]
      by_cases h3 : r = i ∧ c = j
      · rw [if_pos h3, if_pos ⟨h3.1, h3.2 ▸ List.mem_cons_self j js⟩, h3.2]
      · rw [if_neg h3, if_neg]
        rintro ⟨h4, h5⟩
        rcases List.mem_cons.mp h5 with h6 | h6
        · exact h3 ⟨h4, h6⟩
        · exact hcase ⟨h4, h6⟩

/-- The pivot search returns the first row of largest value among `i, ..., hi - 1`. -/
theorem foldl_argmax {β : Type} [LinearOrder β] (f : Nat → β) (i : Nat) (len lo p0 : Nat)
    (h1 : i ≤ p0) (h2 : p0 < lo) (h3 : ∀ k, i ≤ k → k < lo → f k ≤ f p0)
    (h4 : ∀ k, i ≤ k → k < p0 → f k < f p0) :
    i ≤ (List.range' lo len).foldl (fun p k => if f k > f p then k else p) p0 ∧
    (List.range' lo len).foldl (fun p k => if f k > f p then k else p) p0 < max lo (lo + len) ∧
    (∀ k, i ≤ k → k < lo + len →
      f k ≤ f ((List.range' lo len).foldl (fun p k => if f k > f p then k else p) p0)) ∧
    (∀ k, i ≤ k →
      k < (List.range' lo len).foldl (fun p k => if f k > f p then k else p) p0 →
      f k < f ((List.range' lo len).foldl (fun p k => if f k > f p then k else p) p0)) := by
  induction len generalizing lo p0 with
  | zero =>
    refine ⟨h1, ?_, ?_, h4⟩
    · simpa using h2
    · simpa using h3
  | succ len ih =>
    rw [List.range'_succ, List.foldl_cons]
    have hmax : max (lo + 1) (lo + 1 + len) = max lo (lo + (len + 1)) := by
      rw [max_eq_right (by omega), max_eq_right (by omega)]
      omega
    have hlen : lo + 1 + len = lo + (len + 1) := by omega
    by_cases hgt : f lo > f p0
    · rw [if_pos hgt]
      have := ih (lo + 1) lo (by omega) (by omega)
        (fun k hk1 hk2 => by
          rcases Nat.lt_or_ge k lo with h | h
          · exact le_of_lt (lt_of_le_of_lt (h3 k hk1 h) hgt)
          · have : k = lo := by omega
            rw [this])
        (fun k hk1 hk2 => lt_of_le_of_lt (h3 k hk1 hk2) hgt)
      rw [hmax, hlen] at this
      exact this
    · rw [if_neg hgt]
      have := ih (lo + 1) p0 h1 (by omega)
        (fun k hk1 hk2 => by
          rcases Nat.lt_or_ge k lo with h | h
          · exact h3 k hk1 h
          · have : k = lo := by omega
            rw [this]
            exact not_lt.mp hgt)
        h4
      rw [hmax, hlen] at this
      exact this

theorem pivotRow_spec [LinearOrderedField α] {rows i : Nat} (hi : i < rows) (aug : Matrix α) :
    i ≤ pivotRow rows i aug ∧ pivotRow rows i aug < rows ∧
    (∀ k, i ≤ k → k < rows → |aug.get k i| ≤ |aug.get (pivotRow rows i aug) i|) ∧
    (∀ k, i ≤ k → k < pivotRow rows i aug →
      |aug.get k i| < |aug.get (pivotRow rows i aug) i|) := by
  have h := foldl_argmax (fun k => |aug.get k i|) i (rows - (i + 1)) (i + 1) i (le_refl i)
    (Nat.lt_succ_self i)
    (fun k hk1 hk2 => by
      have : k = i := by omega
      rw [this])
    (fun k hk1 hk2 => by omega)
  have hmax : max (i + 1) (i + 1 + (rows - (i + 1))) = rows := by
    rw [max_eq_right (by omega)]
    omega
  have hlen : i + 1 + (rows - (i + 1)) = rows := by omega
  rw [hmax, hlen] at h
  exact h

theorem swapRows_spec [Zero α] {m w cols i p : Nat} (hw : w = 2 * cols) (hi : i < m)
    (hp : p < m) (aug : Matrix α) (haug : aug.Shape m w) :
    (swapRows cols i p aug).Shape m w ∧
      ∀ r c, c < w → (swapRows cols i p aug).get r c
        = aug.get (if r = i then p else if r = p then i else r) c := by
  unfold swapRows
  by_cases hpi : p = i
  · rw [if_neg (not_not.mpr hpi)]
    refine ⟨haug, fun r c _ => ?_⟩
    by_cases hr : r = i
    · rw [if_pos hr, hpi, hr]
    · rw [if_neg hr, if_neg (by rw [hpi]; exact hr)]
  · rw [if_pos hpi]
    have key : ∀ (js : List Nat), (∀ j ∈ js, j < w) → js.Nodup → ∀ (M : Matrix α),
        M.Shape m w →
        (js.foldl (fun M j => (M.set i j (M.get p j)).set p j (M.get i j)) M).Shape m w ∧
        ∀ r c, (js.foldl (fun M j => (M.set i j (M.get p j)).set p j (M.get i j)) M).get r c
          = if c ∈ js then M.get (if r = i then p else if r = p then i else r) c
            else M.get r c := by
      intro js
      induction js with
      | nil => intro _ _ M hM; exact ⟨hM, fun r c => by simp⟩
      | cons j js ih =>
        intro hjs hnd M hM
        rw [List.nodup_cons] at hnd
        have hj : j < w := hjs j (List.mem_cons_self j js)
        have hM1 := Matrix.set_shape hM i j (M.get p j)
        have hM2 := Matrix.set_shape hM1 p j (M.get i j)
        have hcell : ∀ r c, ((M.set i j (M.get p j)).set p j (M.get i j)).get r c
            = if r = p ∧ c = j then M.get i j
              else if r = i ∧ c = j then M.get p j else M.get r c := by
          intro r c
          rw [Matrix.get_set hM1 hp hj, Matrix.get_set hM hi hj]
        obtain ⟨h1, h2⟩ := ih (fun x hx => hjs x (List.mem_cons_of_mem j hx)) hnd.2 _ hM2
        refine ⟨h1, fun r c => ?_⟩
        rw [List.foldl_cons, h2 r c]
        by_cases hc : c ∈ js
        · have hne : c ≠ j := fun e => hnd.1 (e ▸ hc)
          rw [if_pos hc, if_pos (List.mem_cons_of_mem j hc), hcell,
            if_neg (fun e => hne e.2), if_neg (fun e => hne e.2)]
        · rw [if_neg hc, hcell]
          by_cases hcj : c = j
          · subst hcj
            have hmem : c ∈ c :: js := List.mem_cons_self c js
            simp only [hmem, if_true, and_true]
            by_cases hri : r = i
            · have hrp : ¬ r = p := fun e => hpi (e.symm.trans hri)
              rw [if_neg hrp, if_pos hri, if_pos hri]
            · by_cases hrp : r = p
              · rw [if_pos hrp, if_neg hri, if_pos hrp]
              · rw [if_neg hrp, if_neg hri, if_neg hri, if_neg hrp]
          · have hmem : ¬ c ∈ j :: js := by
              intro hmem
              rcases List.mem_cons.mp hmem with h | h
              · exact hcj h
              · exact hc h
            rw [if_neg (fun e => hcj e.2), if_neg (fun e => hcj e.2), if_neg hmem]
    obtain ⟨h1, h2⟩ := key (List.range' 0 (2 * cols - 0))
      (fun j hj => by rw [hw]; exact (mem_range'_iff.mp hj).2) (List.nodup_range' _ _) aug haug
    refine ⟨h1, fun r c hc => ?_⟩
    unfold forRange
    rw [h2 r c, if_pos (mem_range'_iff.mpr ⟨Nat.zero_le _, by rw [← hw]; exact hc⟩)]

theorem scaleRow_spec [LinearOrderedField α] {m w cols i : Nat} (hw : w = 2 * cols)
    (hi : i < m) (aug : Matrix α) (haug : aug.Shape m w) :
    (scaleRow cols i aug).Shape m w ∧
      ∀ r c, r < m → c < w → (scaleRow cols i aug).get r c
        = if r = i then aug.get i c / aug.get i i else aug.get r c := by
  have key := actsOn_foldl (r := m) (c := w) (List.range' 0 (2 * cols - 0))
    (fun j M => M.set i j (M.get i j / aug.get i i))
    (fun j r c v => if r = i ∧ c = j then v / aug.get i i else v)
    (fun j hj => actsOn_set hi (by rw [hw]; exact (mem_range'_iff.mp hj).2)
      (fun v => v / aug.get i i))
  obtain ⟨hs, hg⟩ := key aug haug
  refine ⟨hs, fun r c hr hc => ?_⟩
  have := hg r c hr hc
  dsimp only at this
  unfold scaleRow forRange
  rw [this]
  by_cases hri : r = i
  · rw [if_pos hri, foldl_single _ (List.nodup_range' _ _) c
      (mem_range'_iff.mpr ⟨Nat.zero_le _, by rw [← hw]; exact hc⟩)
      (fun j v => if r = i ∧ c = j then v / aug.get i i else v)]
    · simp only [hri, and_self, if_true]
    · intro j _ hne v
      rw [if_neg (fun e => hne e.2.symm)]
  · rw [if_neg hri]
    apply foldl_fixed
    intro j _ v
    rw [if_neg (fun e => hri e.1)]

theorem eliminateColumn_spec [LinearOrderedField α] {m w cols i : Nat} (hw : w = 2 * cols)
    (hiw : i < w) (aug : Matrix α) (haug : aug.Shape m w) :
    (eliminateColumn m cols i aug).Shape m w ∧
      ∀ r c, r < m → c < w → (eliminateColumn m cols i aug).get r c
        = if r ≠ i then aug.get r c - aug.get r i * aug.get i c else aug.get r c := by
  have key : ∀ (ks : List Nat), (∀ k ∈ ks, k < m) → ks.Nodup → ∀ (M : Matrix α),
      M.Shape m w →
      (ks.foldl (fun M k => if k ≠ i then
          forRange 0 (2 * cols) (fun j M' => M'.set k j (M'.get k j - M.get k i * M'.get i j)) M
        else M) M).Shape m w ∧
      ∀ r c, c < w → (ks.foldl (fun M k => if k ≠ i then
          forRange 0 (2 * cols) (fun j M' => M'.set k j (M'.get k j - M.get k i * M'.get i j)) M
        else M) M).get r c
        = if r ∈ ks ∧ r ≠ i then M.get r c - M.get r i * M.get i c else M.get r c := by
    intro ks
    induction ks with
    | nil => intro _ _ M hM; exact ⟨hM, fun r c _ => by simp⟩
    | cons k ks ih =>
      intro hks hnd M hM
      rw [List.nodup_cons] at hnd
      have hk : k < m := hks k (List.mem_cons_self k ks)
      rw [List.foldl_cons]
      by_cases hki : k = i
      · rw [if_neg (not_not.mpr hki)]
        obtain ⟨h1, h2⟩ := ih (fun x hx => hks x (List.mem_cons_of_mem k hx)) hnd.2 M hM
        refine ⟨h1, fun r c hc => ?_⟩
        rw [h2 r c hc]
        by_cases hcase : r ∈ ks ∧ r ≠ i
        · rw [if_pos hcase, if_pos ⟨List.mem_cons_of_mem k hcase.1, hcase.2⟩]
        · rw [if_neg hcase, if_neg]
          rintro ⟨h3, h4⟩
          rcases List.mem_cons.mp h3 with h5 | h5
          · exact h4 (h5.trans hki)
          · exact hcase ⟨h5, h4⟩
      · rw [if_pos hki]
        obtain ⟨hU, hUg⟩ := foldl_rowUpdate_rect (M.get k i) hk (fun e => hki e.symm)
          (List.range' 0 (2 * cols - 0)) (fun j hj => by rw [hw]; exact (mem_range'_iff.mp hj).2)
          (List.nodup_range' _ _) M hM
        have hUg' : ∀ r c, c < w →
            (forRange 0 (2 * cols)
              (fun j M' => M'.set k j (M'.get k j - M.get k i * M'.get i j)) M).get r c
              = if r = k then M.get k c - M.get k i * M.get i c else M.get r c := by
          intro r c hc
          unfold forRange
          rw [hUg r c]
          by_cases hrk : r = k
          · rw [if_pos ⟨hrk, mem_range'_iff.mpr ⟨Nat.zero_le _, by rw [← hw]; exact hc⟩⟩,
              if_pos hrk]
          · rw [if_neg (fun e => hrk e.1), if_neg hrk]
        have hUs : (forRange 0 (2 * cols)
            (fun j M' => M'.set k j (M'.get k j - M.get k i * M'.get i j)) M).Shape m w := hU
        obtain ⟨h1, h2⟩ := ih (fun x hx => hks x (List.mem_cons_of_mem k hx)) hnd.2 _ hUs
        refine ⟨h1, fun r c hc => ?_⟩
        rw [h2 r c hc]
        by_cases hcase : r ∈ ks ∧ r ≠ i
        · have hrk : r ≠ k := fun e => hnd.1 (e ▸ hcase.1)
          rw [if_pos hcase, if_pos ⟨List.mem_cons_of_mem k hcase.1, hcase.2⟩,
            hUg' r c hc, hUg' r i hiw, hUg' i c hc, if_neg hrk, if_neg hrk,
            if_neg (fun e => hki e.symm)]
        · rw [if_neg hcase, hUg' r c hc]
          by_cases hrk : r = k
          · rw [if_pos hrk, if_pos ⟨hrk ▸ List.mem_cons_self k ks, hrk ▸ hki⟩, hrk]
          · rw [if_neg hrk, if_neg]
            rintro ⟨h3, h4⟩
            rcases List.mem_cons.mp h3 with h5 | h5
            · exact hrk h5
            · exact hcase ⟨h5, h4⟩
  obtain ⟨h1, h2⟩ := key (List.range' 0 (m - 0)) (fun k hk => (mem_range'_iff.mp hk).2)
    (List.nodup_range' _ _) aug haug
  refine ⟨h1, fun r c hr hc => ?_⟩
  have h3 := h2 r c hc
  by_cases hri : r ≠ i
  · rw [if_pos ⟨mem_range'_iff.mpr ⟨Nat.zero_le _, hr⟩, hri⟩] at h3
    rw [if_pos hri]
    exact h3
  · rw [if_neg (fun e => hri e.2)] at h3
    rw [if_neg hri]
    exact h3

theorem gaussJordanStep_spec [LinearOrderedField α] {n w cols i : Nat} (hw : w = 2 * cols)
    (hi : i < n) (hiw : i < w) (aug : Matrix α) (haug : aug.Shape n w) :
    (gaussJordanStep n cols i aug).Shape n w ∧
      ∀ r c, r < n → c < w → (gaussJordanStep n cols i aug).get r c
        = if r = i then aug.get (pivotRow n i aug) c / aug.get (pivotRow n i aug) i
          else aug.get (if r = pivotRow n i aug then i else r) c
            - aug.get (if r = pivotRow n i aug then i else r) i
              * (aug.get (pivotRow n i aug) c / aug.get (pivotRow n i aug) i) := by
  obtain ⟨-, hp, -, -⟩ := pivotRow_spec hi aug
  obtain ⟨hS, hSg⟩ := swapRows_spec hw hi hp aug haug
  obtain ⟨hT, hTg⟩ := scaleRow_spec hw hi _ hS
  obtain ⟨hE, hEg⟩ := eliminateColumn_spec (i := i) hw hiw _ hT
  unfold gaussJordanStep
  refine ⟨hE, fun r c hr hc => ?_⟩
  rw [hEg r c hr hc]
  have hSi : ∀ c, c < w → (swapRows cols i (pivotRow n i aug) aug).get i c
      = aug.get (pivotRow n i aug) c := by
    intro c hc
    rw [hSg i c hc, if_pos rfl]
  by_cases hri : r = i
  · rw [if_neg (not_not.mpr hri), if_pos hri, hTg r c hr hc, if_pos hri, hSi c hc, hSi i hiw]
  · have hSr : ∀ c, c < w → (swapRows cols i (pivotRow n i aug) aug).get r c
        = aug.get (if r = pivotRow n i aug then i else r) c := by
      intro c hc
      rw [hSg r c hc, if_neg hri]
    rw [if_pos hri, if_neg hri, hTg r c hr hc, hTg r i hr hiw, hTg i c hi hc, if_neg hri,
      if_neg hri, if_pos rfl, hSr c hc, hSr i hiw, hSi c hc, hSi i hiw]

theorem actsOn_comp [Zero α] {r c : Nat} {f g : Matrix α → Matrix α}
    {u v : Nat → Nat → α → α} (hf : ActsOn r c f u) (hg : ActsOn r c g v) :
    ActsOn r c (fun M => g (f M)) (fun i j x => v i j (u i j x)) := by
  intro M hM
  obtain ⟨h1, h2⟩ := hf M hM
  obtain ⟨h3, h4⟩ := hg (f M) h1
  refine ⟨h3, fun i j hi hj => ?_⟩
  rw [h4 i j hi hj, h2 i j hi hj]

theorem augment_spec [Zero α] [One α] (A : Matrix α) :
    (augment A).Shape A.rows (2 * A.cols) ∧
      ∀ i c, i < A.rows → c < 2 * A.cols → (augment A).get i c
        = if c < A.cols then A.get i c else if i = c - A.cols then 1 else 0 := by
  have key := actsOn_foldl (r := A.rows) (c := 2 * A.cols) (List.range' 0 (A.rows - 0))
    (fun i M => (List.range' 0 (A.cols - 0)).foldl
      (fun M j => (M.set i j (A.get i j)).set i (j + A.cols) (if i = j then 1 else 0)) M)
    (fun i i' c' v => (List.range' 0 (A.cols - 0)).foldl
      (fun v j => if i' = i ∧ c' = j + A.cols then (if i = j then (1 : α) else 0)
        else if i' = i ∧ c' = j then A.get i j else v) v)
    (fun i hi => actsOn_foldl _
      (fun j M => (M.set i j (A.get i j)).set i (j + A.cols) (if i = j then 1 else 0))
      (fun j i' c' v => if i' = i ∧ c' = j + A.cols then (if i = j then (1 : α) else 0)
        else if i' = i ∧ c' = j then A.get i j else v)
      (fun j hj => actsOn_comp
        (actsOn_set (mem_range'_iff.mp hi).2
          (by have := (mem_range'_iff.mp hj).2; omega) (fun _ => A.get i j))
        (actsOn_set (mem_range'_iff.mp hi).2
          (by have := (mem_range'_iff.mp hj).2; omega)
          (fun _ => if i = j then (1 : α) else 0))))
  obtain ⟨hs, hg⟩ := key (Matrix.new A.rows (2 * A.cols)) (Matrix.new_shape _ _)
  refine ⟨hs, fun i c hi hc => ?_⟩
  have := hg i c hi hc
  dsimp only at this
  simp only [augment, forRange]
  rw [this, Matrix.new_get,
    foldl_single _ (List.nodup_range' _ _) i (mem_range'_iff.mpr ⟨Nat.zero_le _, hi⟩)
      (fun x v => (List.range' 0 (A.cols - 0)).foldl
        (fun v j => if i = x ∧ c = j + A.cols then (if x = j then (1 : α) else 0)
          else if i = x ∧ c = j then A.get x j else v) v)]
  · by_cases hcc : c < A.cols
    · rw [if_pos hcc, foldl_single _ (List.nodup_range' _ _) c
        (mem_range'_iff.mpr ⟨Nat.zero_le _, hcc⟩)
        (fun j v => if i = i ∧ c = j + A.cols then (if i = j then (1 : α) else 0)
          else if i = i ∧ c = j then A.get i j else v)]
      · rw [if_neg (by omega), if_pos ⟨rfl, rfl⟩]
      · intro j _ hne v
        rw [if_neg (by omega), if_neg (fun e => hne e.2.symm)]
    · rw [if_neg hcc, foldl_single _ (List.nodup_range' _ _) (c - A.cols)
        (mem_range'_iff.mpr ⟨Nat.zero_le _, by omega⟩)
        (fun j v => if i = i ∧ c = j + A.cols then (if i = j then (1 : α) else 0)
          else if i = i ∧ c = j then A.get i j else v)]
      · rw [if_pos ⟨rfl, by omega⟩]
      · intro j hj hne v
        have := (mem_range'_iff.mp hj).2
        rw [if_neg (by omega), if_neg (by omega)]
  · intro x _ hne v
    apply foldl_fixed
    intro j _ v
    rw [if_neg (fun e => hne e.1.symm), if_neg (fun e => hne e.1.symm)]

theorem extractRight_spec [Zero α] (rows cols : Nat) (aug : Matrix α) :
    (extractRight rows cols aug).Shape rows cols ∧
      ∀ i j, i < rows → j < cols →
        (extractRight rows cols aug).get i j = aug.get i (j + cols) := by
  have key := actsOn_foldl (r := rows) (c := cols) (List.range' 0 (rows - 0))
    (fun i M => (List.range' 0 (cols - 0)).foldl
      (fun M j => M.set i j (aug.get i (j + cols))) M)
    (fun i i' j' v => (List.range' 0 (cols - 0)).foldl
      (fun v j => if i' = i ∧ j' = j then aug.get i (j + cols) else v) v)
    (fun i hi => actsOn_foldl _ (fun j M => M.set i j (aug.get i (j + cols)))
      (fun j i' j' v => if i' = i ∧ j' = j then aug.get i (j + cols) else v)
      (fun j hj => actsOn_set (mem_range'_iff.mp hi).2 (mem_range'_iff.mp hj).2
        (fun _ => aug.get i (j + cols))))
  obtain ⟨hs, hg⟩ := key (Matrix.new rows cols) (Matrix.new_shape _ _)
  refine ⟨hs, fun i j hi hj => ?_⟩
  have := hg i j hi hj
  dsimp only at this
  simp only [extractRight, forRange]
  rw [this, foldl_region _ _ (List.nodup_range' _ _) (List.nodup_range' _ _)
    (fun i j _ => aug.get i (j + cols)),
    if_pos ⟨mem_range'_iff.mpr ⟨Nat.zero_le _, hi⟩, mem_range'_iff.mpr ⟨Nat.zero_le _, hj⟩⟩]

/-! ## Gauss-Jordan elimination: the invariant of the loop of `inverse` -/

theorem GJInv.pivot_ne_zero [LinearOrderedField α] {A aug : Matrix α} {n i p : Nat}
    (inv : GJInv A n i aug) (hi : i < n)
    (hmax : ∀ k, i ≤ k → k < n → |aug.get k i| ≤ |aug.get p i|) : aug.get p i ≠ 0 := by
  intro h0
  have hz : ∀ k, i ≤ k → k < n → aug.get k i = 0 := by
    intro k hk1 hk2
    have := hmax k hk1 hk2
    rw [h0, abs_zero] at this
    exact abs_eq_zero.mp (le_antisymm this (abs_nonneg _))
  have hMv : Matrix.mulVec (Matrix.of fun r c : Fin n => aug.get r.val c.val)
      (fun c : Fin n => if c.val < i then -aug.get c.val i
        else if c.val = i then 1 else 0) = 0 := by
    funext r
    have hr : r.val < n := r.isLt
    simp only [Matrix.mulVec, Matrix.dotProduct, Matrix.of_apply, Pi.zero_apply]
    rw [Fin.sum_univ_eq_sum_range (fun c => aug.get r.val c *
      (if c < i then -aug.get c i else if c = i then 1 else 0)) n]
    have hterm : ∀ c ∈ Finset.range n, aug.get r.val c *
        (if c < i then -aug.get c i else if c = i then 1 else 0)
        = (if c = r.val then (if r.val < i then -aug.get r.val i else 0) else 0)
          + (if c = i then aug.get r.val i else 0) := by
      intro c hc
      by_cases hci : c < i
      · rw [if_pos hci, inv.unit r.val c hr hci, if_neg (Nat.ne_of_lt hci), add_zero]
        by_cases hrc : r.val = c
        · rw [if_pos hrc, if_pos hrc.symm, if_pos (hrc ▸ hci), one_mul, hrc]
        · rw [if_neg hrc, if_neg (fun e => hrc e.symm), zero_mul]
      · rw [if_neg hci]
        by_cases hci' : c = i
        · rw [if_pos hci', if_pos hci', mul_one, hci']
          by_cases hri : i = r.val
          · rw [if_pos hri, if_neg (by omega), zero_add]
          · rw [if_neg hri, zero_add]
        · rw [if_neg hci', if_neg hci', mul_zero, add_zero]
          by_cases hcr : c = r.val
          · rw [if_pos hcr, if_neg (by omega)]
          · rw [if_neg hcr]
    rw [Finset.sum_congr rfl hterm, Finset.sum_add_distrib, Finset.sum_ite_eq',
      Finset.sum_ite_eq', if_pos (Finset.mem_range.mpr hr), if_pos (Finset.mem_range.mpr hi)]
    by_cases hri : r.val < i
    · rw [if_pos hri, neg_add_cancel]
    · rw [if_neg hri, zero_add]
      exact hz r.val (by omega) hr
  have hv := congrFun (Matrix.eq_zero_of_mulVec_eq_zero inv.det hMv) ⟨i, hi⟩
  simp at hv

theorem sum_row_scale [Field α] (y a : Nat → α) (pv : α) (n : Nat) :
    ∑ m ∈ Finset.range n, y m / pv * a m = (∑ m ∈ Finset.range n, y m * a m) / pv := by
  rw [Finset.sum_div]
  exact Finset.sum_congr rfl (fun m _ => by ring)

theorem sum_row_comb [Field α] (x y a : Nat → α) (k pv : α) (n : Nat) :
    ∑ m ∈ Finset.range n, (x m - k * (y m / pv)) * a m
      = ∑ m ∈ Finset.range n, x m * a m - k * ((∑ m ∈ Finset.range n, y m * a m) / pv) := by
  rw [← sum_row_scale, Finset.mul_sum, ← Finset.sum_sub_distrib]
  exact Finset.sum_congr rfl (fun m _ => by ring)

theorem GJInv.pivot_step [LinearOrderedField α] {A aug : Matrix α} {n i : Nat}
    (inv : GJInv A n i aug) (hi : i < n) :
    GJInv A n (i + 1) (gaussJordanStep n n i aug) := by
  obtain ⟨hpi, hp, hmax, -⟩ := pivotRow_spec hi aug
  have hpv := inv.pivot_ne_zero hi hmax
  obtain ⟨hE, hEg⟩ := gaussJordanStep_spec (show 2 * n = 2 * n from rfl) hi (by omega) aug
    inv.shape
  generalize pivotRow n i aug = p at hpi hp hmax hpv hEg
  generalize gaussJordanStep n n i aug = E at hE hEg ⊢
  have hσ : ∀ r, r < n → (if r = p then i else r) < n := by
    intro r hr
    by_cases h : r = p
    · rw [if_pos h]; exact hi
    · rw [if_neg h]; exact hr
  have hpc : ∀ c, c < i → aug.get p c = 0 := by
    intro c hc
    rw [inv.unit p c hp hc, if_neg (by omega)]
  refine ⟨hE, ?_, ?_, ?_⟩
  · intro r c hr hc
    have hsum : ∑ m ∈ Finset.range n, E.get r (m + n) * A.get m c
        = ∑ m ∈ Finset.range n,
          (if r = i then aug.get p (m + n) / aug.get p i
            else aug.get (if r = p then i else r) (m + n)
              - aug.get (if r = p then i else r) i * (aug.get p (m + n) / aug.get p i))
          * A.get m c :=
      Finset.sum_congr rfl (fun m hm => by
        have := Finset.mem_range.mp hm
        rw [hEg r (m + n) hr (by omega)])
    rw [hEg r c hr (by omega), hsum]
    by_cases hri : r = i
    · simp only [if_pos hri]
      rw [sum_row_scale (fun m => aug.get p (m + n)) (fun m => A.get m c),
        ← inv.rel p c hp hc]
    · simp only [if_neg hri]
      rw [sum_row_comb (fun m => aug.get (if r = p then i else r) (m + n))
          (fun m => aug.get p (m + n)) (fun m => A.get m c),
        ← inv.rel _ c (hσ r hr) hc, ← inv.rel p c hp hc]
  · intro r c hr hc
    rw [hEg r c hr (by omega)]
    by_cases hri : r = i
    · rw [if_pos hri]
      by_cases hci : c = i
      · rw [hci, div_self hpv, if_pos hri]
      · rw [hpc c (by omega), zero_div, if_neg (by omega)]
    · rw [if_neg hri]
      by_cases hci : c = i
      · rw [hci, div_self hpv, mul_one, sub_self, if_neg hri]
      · rw [hpc c (by omega), zero_div, mul_zero, sub_zero,
          inv.unit _ c (hσ r hr) (by omega)]
        by_cases hrp : r = p
        · rw [if_pos hrp, if_neg (by omega), if_neg (by omega)]
        · rw [if_neg hrp]
  · have hS : Matrix.det (Matrix.submatrix
        (Matrix.of fun r c : Fin n => aug.get r.val c.val)
        (Equiv.swap (⟨i, hi⟩ : Fin n) ⟨p, hp⟩) id) ≠ 0 := by
      rw [Matrix.det_permute]
      rcases Int.units_eq_one_or (Equiv.Perm.sign (Equiv.swap (⟨i, hi⟩ : Fin n) ⟨p, hp⟩))
        with h | h
      · rw [h]
        simpa using inv.det
      · rw [h]
        simpa using inv.det
    have hT : Matrix.det (Matrix.updateRow
        (Matrix.submatrix (Matrix.of fun r c : Fin n => aug.get r.val c.val)
          (Equiv.swap (⟨i, hi⟩ : Fin n) ⟨p, hp⟩) id) ⟨i, hi⟩
        ((aug.get p i)⁻¹ • (Matrix.submatrix
          (Matrix.of fun r c : Fin n => aug.get r.val c.val)
          (Equiv.swap (⟨i, hi⟩ : Fin n) ⟨p, hp⟩) id) ⟨i, hi⟩)) ≠ 0 := by
      rw [Matrix.det_updateRow_smul, Matrix.updateRow_eq_self]
      exact mul_ne_zero (inv_ne_zero hpv) hS
    have hEdet := Matrix.det_eq_of_forall_row_eq_smul_add_const
      (A := Matrix.of fun r c : Fin n => E.get r.val c.val)
      (B := Matrix.updateRow
        (Matrix.submatrix (Matrix.of fun r c : Fin n => aug.get r.val c.val)
          (Equiv.swap (⟨i, hi⟩ : Fin n) ⟨p, hp⟩) id) ⟨i, hi⟩
        ((aug.get p i)⁻¹ • (Matrix.submatrix
          (Matrix.of fun r c : Fin n => aug.get r.val c.val)
          (Equiv.swap (⟨i, hi⟩ : Fin n) ⟨p, hp⟩) id) ⟨i, hi⟩))
      (fun r => if r = ⟨i, hi⟩ then 0 else -aug.get (if r.val = p then i else r.val) i)
      ⟨i, hi⟩ (if_pos rfl) ?_
    · rw [hEdet]
      exact hT
    · intro r c
      have hr := r.isLt
      have hc := c.isLt
      simp only [Matrix.of_apply, Matrix.updateRow_apply, Matrix.submatrix_apply,
        Pi.smul_apply, smul_eq_mul, id, Equiv.swap_apply_def, if_true]
      rw [hEg r.val c.val hr (by omega)]
      by_cases hri : r = ⟨i, hi⟩
      · have hri' : r.val = i := by rw [hri]
        rw [if_pos hri', if_pos hri, if_pos hri]
        ring
      · have hri' : ¬ r.val = i := fun e => hri (Fin.ext e)
        rw [if_neg hri', if_neg hri, if_neg hri, if_neg hri]
        by_cases hrp : r = ⟨p, hp⟩
        · have hrp' : r.val = p := by rw [hrp]
          rw [if_pos hrp, if_pos hrp']
          simp only []
          ring
        · have hrp' : ¬ r.val = p := fun e => hrp (Fin.ext e)
          rw [if_neg hrp, if_neg hrp']
          ring

theorem GJInv.pivot_loop [LinearOrderedField α] {A : Matrix α} {n : Nat} (len i0 : Nat)
    (hlen : i0 + len ≤ n) {aug : Matrix α} (inv : GJInv A n i0 aug) :
    GJInv A n (i0 + len)
      ((List.range' i0 len).foldl (fun aug i => gaussJordanStep n n i aug) aug) := by
  induction len generalizing i0 aug with
  | zero => exact inv
  | succ len ih =>
    rw [List.range'_succ, List.foldl_cons, show i0 + (len + 1) = i0 + 1 + len by omega]
    exact ih (i0 + 1) (by omega) (GJInv.pivot_step inv (by omega))

theorem GJInv.augmented [LinearOrderedField α] {A : Matrix α} (hsq : A.rows = A.cols)
    (hdet : A.leibnizDet ≠ 0) : GJInv A A.rows 0 (augment A) := by
  obtain ⟨hs, hg⟩ := augment_spec A
  rw [← hsq] at hs hg
  refine ⟨hs, ?_, ?_, ?_⟩
  · intro r c hr hc
    rw [hg r c hr (by omega), if_pos hc, Finset.sum_eq_single r]
    · rw [hg r (r + A.rows) hr (by omega), if_neg (by omega), if_pos (by omega), one_mul]
    · intro m hm hne
      have := Finset.mem_range.mp hm
      rw [hg r (m + A.rows) hr (by omega), if_neg (by omega), if_neg (by omega), zero_mul]
    · intro h
      exact absurd (Finset.mem_range.mpr hr) h
  · intro r c _ hc
    omega
  · have : (Matrix.of fun r c : Fin A.rows => (augment A).get r.val c.val)
        = Matrix.of fun r c : Fin A.rows => A.get r.val c.val := by
      ext r c
      simp only [Matrix.of_apply]
      rw [hg r.val c.val r.isLt (by have := c.isLt; omega), if_pos c.isLt]
    rw [this]
    exact hdet

/-- When the Gauss-Jordan loop is over, the right half is a right inverse of `A`. -/
theorem GJInv.final [LinearOrderedField α] {A aug : Matrix α} {n : Nat}
    (inv : GJInv A n n aug) (r c : Nat) (hr : r < n) (hc : c < n) :
    ∑ m ∈ Finset.range n, A.get r m * aug.get m (c + n) = if r = c then 1 else 0 := by
  have hNA : (Matrix.of fun r m : Fin n => aug.get r.val (m.val + n))
      * (Matrix.of fun m c : Fin n => A.get m.val c.val) = 1 := by
    ext r c
    rw [Matrix.mul_apply, Matrix.one_apply]
    simp only [Matrix.of_apply]
    rw [Fin.sum_univ_eq_sum_range (fun m => aug.get r.val (m + n) * A.get m c.val) n,
      ← inv.rel r.val c.val r.isLt c.isLt, inv.unit r.val c.val r.isLt c.isLt]
    by_cases h : r = c
    · rw [if_pos h, if_pos (by rw [h])]
    · rw [if_neg h, if_neg (fun e => h (Fin.ext e))]
  have hAN := Matrix.mul_eq_one_comm.mp hNA
  have hcell := congrFun (congrFun hAN ⟨r, hr⟩) ⟨c, hc⟩
  rw [Matrix.mul_apply, Matrix.one_apply] at hcell
  simp only [Matrix.of_apply] at hcell
  rw [Fin.sum_univ_eq_sum_range (fun m => A.get r m * aug.get m (c + n)) n] at hcell
  rw [hcell]
  by_cases h : r = c
  · rw [if_pos h, if_pos (Fin.ext h)]
  · rw [if_neg h, if_neg (fun e => h (Fin.mk.inj e))]

/-- What `inverse` returns once the determinant test is passed. -/
theorem inverse_spec [LinearOrderedField α] {eps : α} {A : Matrix α} (hsq : A.rows = A.cols)
    {d : α} (hd : determinant eps A = .ok d) (hmag : ¬ |d| < eps)
    (hdet : A.leibnizDet ≠ 0) :
    ∃ B, inverse eps A = .ok B ∧ B.Shape A.rows A.rows ∧
      ∀ r c, r < A.rows → c < A.rows →
        ∑ m ∈ Finset.range A.rows, A.get r m * B.get m c = if r = c then 1 else 0 := by
  have hinv := GJInv.pivot_loop A.rows 0 (by omega) (GJInv.augmented hsq hdet)
  rw [Nat.zero_add] at hinv
  obtain ⟨hBs, hBg⟩ := extractRight_spec A.rows A.rows
    ((List.range' 0 A.rows).foldl (fun aug i => gaussJordanStep A.rows A.rows i aug) (augment A))
  refine ⟨_, ?_, hBs, ?_⟩
  · unfold inverse
    rw [if_neg (not_not.mpr hsq), hd]
    simp only [hmag, if_false]
    unfold forRange
    rw [Nat.sub_zero, ← hsq]
  · intro r c hr hc
    rw [← GJInv.final hinv r c hr hc]
    apply Finset.sum_congr rfl
    intro m hm
    rw [hBg m c (Finset.mem_range.mp hm) hc]

theorem mul_inverse [LinearOrderedField α] {eps : α} (heps : 0 < eps) {A : Matrix α}
    (hA : A.WF) (hsq : A.rows = A.cols) (hsz : A.rows < 2 ^ 64) {d : α}
    (hd : determinant eps A = .ok d) (hmag : eps ≤ |d|) :
    ∃ B, inverse eps A = .ok B ∧ B.Shape A.rows A.rows ∧
      A.mul B = .ok (Matrix.identity A.rows) ∧
      (∀ r c, r < A.rows → c < A.rows →
        ∑ m ∈ Finset.range A.rows, A.get r m * B.get m c = if r = c then 1 else 0) := by
  have hdl : d = A.leibnizDet := determinant_ok_eq heps hA hsq hsz hd
  have hdet : A.leibnizDet ≠ 0 := by
    rw [← hdl]
    intro h0
    rw [h0, abs_zero] at hmag
    exact absurd heps (not_lt.mpr hmag)
  obtain ⟨B, h1, h2, h3⟩ := inverse_spec hsq hd (not_lt.mpr hmag) hdet
  refine ⟨B, h1, h2, ?_, h3⟩
  obtain ⟨C, h4, h5, h6⟩ := mul_spec A B (hsq.symm.trans h2.2.1.symm)
  obtain ⟨hIs, hIg⟩ := identity_spec (α := α) A.rows
  rw [h2.2.2] at h5 h6
  rw [h4]
  congr 1
  apply Matrix.ext_get h5 hIs
  intro r c hr hc
  rw [h6 r c hr hc, ← hsq, h3 r c hr hc, hIg r c hr hc]

theorem inverse_error_kind [LinearOrderedField α] {eps : α} {A : Matrix α}
    (hsq : A.rows = A.cols) {e : Error} (h : inverse eps A = .error e) :
    e = .runtime_error := by
  unfold inverse at h
  rw [if_neg (not_not.mpr hsq)] at h
  cases hd : determinant eps A with
  | error e' =>
    rw [hd] at h
    have : e' = e := Except.error.inj h
    rw [← this]
    exact determinant_error_kind hsq hd
  | ok d =>
    rw [hd] at h
    simp only at h
    split_ifs at h
    exact (Except.error.inj h).symm

theorem leibnizDet_eq [CommRing α] (B : Matrix α) {n : Nat} (h : B.rows = n) :
    B.leibnizDet = Matrix.det (Matrix.of fun i j : Fin n => B.get i.val j.val) := by
  subst h
  rfl

theorem det_mul_of_right_inverse [LinearOrderedField α] {A B : Matrix α}
    (hB : B.rows = A.rows)
    (h : ∀ r c, r < A.rows → c < A.rows →
      ∑ m ∈ Finset.range A.rows, A.get r m * B.get m c = if r = c then 1 else 0) :
    A.leibnizDet * B.leibnizDet = 1 := by
  rw [leibnizDet_eq B hB, leibnizDet_eq A rfl, ← Matrix.det_mul]
  have : (Matrix.of fun i j : Fin A.rows => A.get i.val j.val)
      * (Matrix.of fun i j : Fin A.rows => B.get i.val j.val) = 1 := by
    ext r c
    rw [Matrix.mul_apply, Matrix.one_apply]
    simp only [Matrix.of_apply]
    rw [Fin.sum_univ_eq_sum_range (fun m => A.get r.val m * B.get m c.val) A.rows,
      h r.val c.val r.isLt c.isLt]
    by_cases hrc : r = c
    · rw [if_pos hrc, if_pos (by rw [hrc])]
    · rw [if_neg hrc, if_neg (fun e => hrc (Fin.ext e))]
  rw [this, Matrix.det_one]

/-! ## The QR iteration of `eigenvalues` -/

theorem foldl_append_eq_map {ι β : Type} (f : ι → β) (l : List ι) (init : List β) :
    l.foldl (fun acc x => acc ++ [f x]) init = init ++ l.map f := by
  induction l generalizing init with
  | nil => simp
  | cons x xs ih => rw [List.foldl_cons, ih]; simp

theorem forRange_append_eq_map {β : Type} (f : Nat → β) (n : Nat) :
    forRange 0 n (fun i acc => acc ++ [f i]) [] = (List.range n).map f := by
  unfold forRange
  rw [foldl_append_eq_map, List.nil_append, Nat.sub_zero, List.range_eq_range']

theorem qrIterate_trace [LinearOrderedField α] (sqrt : α → α) (eps : α) (rows cols : Nat)
    (fuel : Nat) (A : Matrix α) (hsq : A.rows = A.cols) :
    ∃ (k : Nat) (it : Nat → Matrix α), k ≤ fuel ∧ (1 ≤ fuel → 1 ≤ k) ∧ it 0 = A ∧
      (∀ m, m < k → (qrDecomposition sqrt eps (it m)).2.mul (qrDecomposition sqrt eps (it m)).1
        = .ok (it (m + 1))) ∧
      (∀ m, 1 ≤ m → m < k → ¬ offDiagonalSum rows cols (it m) < eps * 100) ∧
      (k < fuel → offDiagonalSum rows cols (it k) < eps * 100) ∧
      qrIterate sqrt eps rows cols fuel A = .ok (it k) := by
  induction fuel generalizing A with
  | zero =>
    exact ⟨0, fun _ => A, le_refl _, fun h => absurd h (by decide), rfl,
      fun m hm => absurd hm (Nat.not_lt_zero m), fun m _ hm => absurd hm (Nat.not_lt_zero m),
      fun h => absurd h (Nat.lt_irrefl 0), rfl⟩
  | succ fuel ih =>
    obtain ⟨hQ, hR, -⟩ := qrDecomposition_spec sqrt eps A
    obtain ⟨B, h1, h2, -⟩ := mul_spec (qrDecomposition sqrt eps A).2
      (qrDecomposition sqrt eps A).1 (hR.2.2.trans (hsq.symm.trans hQ.2.1.symm))
    rw [hR.2.1, hQ.2.2] at h2
    unfold qrIterate
    simp only [h1]
    by_cases hconv : offDiagonalSum rows cols B < eps * 100
    · rw [if_pos hconv]
      refine ⟨1, fun m => if m = 0 then A else B, by omega, fun _ => le_refl _, by simp, ?_, ?_,
        ?_, by simp⟩
      · intro m hm
        have : m = 0 := by omega
        subst this
        simpa using h1
      · intro m h1 h2
        omega
      · intro _
        simpa using hconv
    · rw [if_neg hconv]
      obtain ⟨k, it, hk, -, h0, hstep, hnot, hlast, hres⟩ := ih B (h2.2.1.trans h2.2.2.symm)
      refine ⟨k + 1, fun m => if m = 0 then A else it (m - 1), by omega, fun _ => by omega,
        by simp, ?_, ?_, ?_, by simpa using hres⟩
      · intro m hm
        by_cases hm0 : m = 0
        · subst hm0
          simpa [h0] using h1
        · have := hstep (m - 1) (by omega)
          rw [show m - 1 + 1 = m by omega] at this
          simpa [hm0] using this
      · intro m hm1 hm
        have hm0 : m ≠ 0 := by omega
        simp only [hm0, if_false]
        by_cases hm2 : m = 1
        · subst hm2
          simpa [h0] using hconv
        · exact hnot (m - 1) (by omega) (by omega)
      · intro hlt
        simpa using hlast (by omega)

theorem offDiagonalSum_eq_sum [LinearOrderedField α] (rows cols : Nat) (A : Matrix α) :
    offDiagonalSum rows cols A
      = ∑ i ∈ Finset.range rows, ∑ j ∈ Finset.range cols,
          if i ≠ j then |A.get i j| else 0 := by
  unfold offDiagonalSum
  have hin : ∀ i : Nat, ∀ s : α,
      forRange 0 cols (fun j off_diagonal_sum =>
        if i ≠ j then off_diagonal_sum + |A.get i j| else off_diagonal_sum) s
        = s + ∑ j ∈ Finset.range cols, if i ≠ j then |A.get i j| else 0 := by
    intro i s
    unfold forRange
    have hbody : (fun (s : α) (j : Nat) => if i ≠ j then s + |A.get i j| else s)
        = fun s j => s + (if i ≠ j then |A.get i j| else 0) := by
      funext s j
      by_cases h : i ≠ j
      · rw [if_pos h, if_pos h]
      · rw [if_neg h, if_neg h, add_zero]
    rw [hbody, foldl_add_eq_sum (fun j => if i ≠ j then |A.get i j| else 0), Nat.sub_zero,
      Nat.zero_add, Finset.range_eq_Ico]
  simp only [hin]
  exact forRange_add_eq_sum _ rows

/-! ## Vectors: the cells written by the element-wise loops -/

theorem Vector.get_of_set [Zero α] (v : Vector α) (i : Nat) (x : α) (j : Nat) :
    (v.set i x).get j = if j = i ∧ i < v.data.length then x else v.get j := by
  unfold Vector.get Vector.set
  simp only [List.getD_eq_getElem?_getD, List.getElem?_set]
  by_cases h1 : i = j
  · subst h1
    by_cases h2 : i < v.data.length
    · simp [h2]
    · simp [h2, List.getElem?_eq_none (not_lt.mp h2)]
  · have h3 : ¬ j = i := fun e => h1 e.symm
    simp [h1, h3]

theorem Vector.set_wf {v : Vector α} (h : v.WF) (i : Nat) (x : α) : (v.set i x).WF := by
  unfold Vector.WF Vector.set at *
  simpa using h

theorem Vector.new_wf [Zero α] (n : Nat) : (Vector.new n : Vector α).WF := by
  simp [Vector.WF, Vector.new]

theorem Vector.get_of_new [Zero α] (n i : Nat) : (Vector.new n : Vector α).get i = 0 := by
  unfold Vector.get Vector.new
  simp only [List.getD_eq_getElem?_getD, List.getElem?_replicate]
  split_ifs <;> rfl

theorem Vector.ext_of_get [Zero α] {a b : Vector α} (ha : a.WF) (hb : b.WF)
    (hd : a.dimension = b.dimension) (h : ∀ i, i < a.dimension → a.get i = b.get i) :
    a = b := by
  cases a with
  | mk da na =>
    cases b with
    | mk db nb =>
      simp only [Vector.WF] at ha hb
      simp only at hd
      simp only [Vector.get] at h
      have hlen : da.length = db.length := by rw [ha, hb, hd]
      have : da = db := by
        apply List.ext_getElem hlen
        intro i h1 h2
        have := h i (by rw [← ha]; exact h1)
        simp only [List.getD_eq_getElem?_getD, List.getElem?_eq_getElem h1,
          List.getElem?_eq_getElem h2, Option.getD_some] at this
        exact this
      rw [this, hd]

theorem Vector.foldl_set [Zero α] (g : Nat → α → α) (l : List Nat) (hnd : l.Nodup)
    (v : Vector α) (hv : v.WF) (hl : ∀ i ∈ l, i < v.dimension) :
    (l.foldl (fun r i => r.set i (g i (r.get i))) v).WF ∧
    (l.foldl (fun r i => r.set i (g i (r.get i))) v).dimension = v.dimension ∧
    ∀ j, (l.foldl (fun r i => r.set i (g i (r.get i))) v).get j
      = if j ∈ l then g j (v.get j) else v.get j := by
  induction l generalizing v with
  | nil => exact ⟨hv, rfl, fun j => by simp⟩
  | cons x xs ih =>
    obtain ⟨hx, hxs⟩ := List.nodup_cons.mp hnd
    have hxlt : x < v.data.length := by
      rw [hv]; exact hl x (List.mem_cons_self x xs)
    obtain ⟨h1, h2, h3⟩ := ih hxs (v.set x (g x (v.get x))) (Vector.set_wf hv _ _)
      (fun i hi => hl i (List.mem_cons_of_mem x hi))
    rw [List.foldl_cons]
    refine ⟨h1, h2, fun j => ?_⟩
    rw [h3 j, Vector.get_of_set]
    by_cases hj : j ∈ xs
    · have hne : ¬ j = x := fun e => hx (e ▸ hj)
      simp [hj, hne]
    · by_cases hjx : j = x
      · subst hjx
        simp [hj, hxlt]
      · simp [hj, hjx]

theorem Vector.forRange_set [Zero α] (g : Nat → α → α) (v : Vector α) (hv : v.WF) :
    (forRange 0 v.dimension (fun i r => r.set i (g i (r.get i))) v).WF ∧
    (forRange 0 v.dimension (fun i r => r.set i (g i (r.get i))) v).dimension = v.dimension ∧
    ∀ j, j < v.dimension →
      (forRange 0 v.dimension (fun i r => r.set i (g i (r.get i))) v).get j = g j (v.get j) := by
  obtain ⟨h1, h2, h3⟩ := Vector.foldl_set g (List.range' 0 (v.dimension - 0))
    (List.nodup_range' _ _) v hv (fun i hi => (mem_range'_iff.mp hi).2)
  refine ⟨h1, h2, fun j hj => ?_⟩
  unfold forRange
  rw [h3 j, if_pos (mem_range'_iff.mpr ⟨Nat.zero_le _, hj⟩)]

/-- A loop that stores `f i` in cell `i` of a fresh vector of dimension `n`. -/
theorem Vector.forRange_fresh [Zero α] (f : Nat → α) (n : Nat) :
    (forRange 0 n (fun i r => r.set i (f i)) (Vector.new n : Vector α)).WF ∧
    (forRange 0 n (fun i r => r.set i (f i)) (Vector.new n : Vector α)).dimension = n ∧
    ∀ j, j < n → (forRange 0 n (fun i r => r.set i (f i)) (Vector.new n : Vector α)).get j
      = f j :=
  Vector.forRange_set (fun i _ => f i) (Vector.new n) (Vector.new_wf n)

theorem inner_product_eq_foldl [Zero α] [Add α] [Mul α] (xs ys : List α)
    (h : xs.length = ys.length) (init : α) :
    inner_product xs ys init
      = (List.range xs.length).foldl (fun acc i => acc + xs.getD i 0 * ys.getD i 0) init := by
  induction xs generalizing ys init with
  | nil => simp [inner_product]
  | cons x xs ih =>
    cases ys with
    | nil => simp at h
    | cons y ys =>
      simp only [List.length_cons, Nat.succ.injEq] at h
      rw [inner_product, ih ys h, List.length_cons, List.range_succ_eq_map, List.foldl_cons,
        List.foldl_map]
      simp

theorem inner_product_eq_sum [Semiring α] (xs ys : List α) (h : xs.length = ys.length)
    (init : α) :
    inner_product xs ys init
      = init + ∑ i ∈ Finset.range xs.length, xs.getD i 0 * ys.getD i 0 := by
  induction xs generalizing ys init with
  | nil => simp [inner_product]
  | cons x xs ih =>
    cases ys with
    | nil => simp at h
    | cons y ys =>
      simp only [List.length_cons, Nat.succ.injEq] at h
      rw [inner_product, ih ys h, List.length_cons, Finset.sum_range_succ']
      simp only [List.getD_cons_succ, List.getD_cons_zero]
      rw [add_assoc, add_comm (x * y)]

theorem Vector.dot_eq_sum [Semiring α] {a b : Vector α} (ha : a.WF) (hb : b.WF)
    (hd : a.dimension = b.dimension) :
    a.dot b = .ok (∑ i ∈ Finset.range a.dimension, a.get i * b.get i) := by
  unfold Vector.dot
  rw [if_neg (not_not.mpr hd), inner_product_eq_sum _ _ (by rw [ha, hb, hd]), zero_add, ha]
  rfl

theorem Vector.magnitudeSquared_eq_sum [Semiring α] {v : Vector α} (hv : v.WF) :
    v.magnitudeSquared = ∑ i ∈ Finset.range v.dimension, v.get i * v.get i := by
  unfold Vector.magnitudeSquared
  rw [inner_product_eq_sum _ _ rfl, zero_add, hv]
  rfl

/-! ## Element-wise matrix loops -/

/-- A double loop over the declared shape that replaces each cell by a function of
its position and of its own previous value. -/
theorem forRange_cells [Zero α] {r c : Nat} (g : Nat → Nat → α → α) (M : Matrix α)
    (hM : M.Shape r c) :
    (forRange 0 r (fun i M =>
      forRange 0 c (fun j M => M.set i j (g i j (M.get i j))) M) M).Shape r c ∧
    ∀ i j, i < r → j < c →
      (forRange 0 r (fun i M =>
        forRange 0 c (fun j M => M.set i j (g i j (M.get i j))) M) M).get i j
        = g i j (M.get i j) := by
  have key := actsOn_foldl (r := r) (c := c) (List.range' 0 (r - 0))
    (fun i M => (List.range' 0 (c - 0)).foldl
      (fun M j => M.set i j (g i j (M.get i j))) M)
    (fun i i' j' v => (List.range' 0 (c - 0)).foldl
      (fun v j => if i' = i ∧ j' = j then g i j v else v) v)
    (fun i hi => actsOn_foldl _ (fun j M => M.set i j (g i j (M.get i j)))
      (fun j i' j' v => if i' = i ∧ j' = j then g i j v else v)
      (fun j hj => actsOn_set (mem_range'_iff.mp hi).2 (mem_range'_iff.mp hj).2
        (fun v => g i j v)))
  obtain ⟨hs, hg⟩ := key M hM
  refine ⟨hs, fun i j hi hj => ?_⟩
  have := hg i j hi hj
  dsimp only at this
  simp only [forRange]
  rw [this, foldl_region _ _ (List.nodup_range' _ _) (List.nodup_range' _ _) g,
    if_pos ⟨mem_range'_iff.mpr ⟨Nat.zero_le _, hi⟩, mem_range'_iff.mpr ⟨Nat.zero_le _, hj⟩⟩]

theorem Matrix.add_cells [Zero α] [Add α] (A B : Matrix α) (hr : A.rows = B.rows)
    (hc : A.cols = B.cols) :
    ∃ S, A.add B = .ok S ∧ S.Shape A.rows A.cols ∧
      ∀ i j, i < A.rows → j < A.cols → S.get i j = A.get i j + B.get i j := by
  have h := forRange_cells (fun i j _ => A.get i j + B.get i j) (Matrix.new A.rows A.cols)
    (Matrix.new_shape _ _)
  refine ⟨_, ?_, h.1, h.2⟩
  unfold Matrix.add
  rw [if_neg (by simp [hr, hc])]

theorem Matrix.sub_cells [Zero α] [Sub α] (A B : Matrix α) (hr : A.rows = B.rows)
    (hc : A.cols = B.cols) :
    ∃ S, A.sub B = .ok S ∧ S.Shape A.rows A.cols ∧
      ∀ i j, i < A.rows → j < A.cols → S.get i j = A.get i j - B.get i j := by
  have h := forRange_cells (fun i j _ => A.get i j - B.get i j) (Matrix.new A.rows A.cols)
    (Matrix.new_shape _ _)
  refine ⟨_, ?_, h.1, h.2⟩
  unfold Matrix.sub
  rw [if_neg (by simp [hr, hc])]

theorem Matrix.addAssign_cells [Zero α] [Add α] (A B : Matrix α) (hA : A.WF)
    (hr : A.rows = B.rows) (hc : A.cols = B.cols) :
    ∃ S, A.addAssign B = .ok S ∧ S.Shape A.rows A.cols ∧
      ∀ i j, i < A.rows → j < A.cols → S.get i j = A.get i j + B.get i j := by
  have h := forRange_cells (fun i j v => v + B.get i j) A ⟨hA, rfl, rfl⟩
  refine ⟨_, ?_, h.1, h.2⟩
  unfold Matrix.addAssign
  rw [if_neg (by simp [hr, hc])]

theorem Matrix.subAssign_cells [Zero α] [Sub α] (A B : Matrix α) (hA : A.WF)
    (hr : A.rows = B.rows) (hc : A.cols = B.cols) :
    ∃ S, A.subAssign B = .ok S ∧ S.Shape A.rows A.cols ∧
      ∀ i j, i < A.rows → j < A.cols → S.get i j = A.get i j - B.get i j := by
  have h := forRange_cells (fun i j v => v - B.get i j) A ⟨hA, rfl, rfl⟩
  refine ⟨_, ?_, h.1, h.2⟩
  unfold Matrix.subAssign
  rw [if_neg (by simp [hr, hc])]

/-! ## Element-wise vector operations -/

theorem Vector.add_spec [Zero α] [Add α] (a b : Vector α) (hd : a.dimension = b.dimension) :
    ∃ s, a.add b = .ok s ∧ s.WF ∧ s.dimension = a.dimension ∧
      ∀ i, i < a.dimension → s.get i = a.get i + b.get i := by
  refine ⟨_, ?_, Vector.forRange_fresh (fun i => a.get i + b.get i) a.dimension⟩
  unfold Vector.add
  rw [if_neg (not_not.mpr hd)]

theorem Vector.sub_spec [Zero α] [Sub α] (a b : Vector α) (hd : a.dimension = b.dimension) :
    ∃ s, a.sub b = .ok s ∧ s.WF ∧ s.dimension = a.dimension ∧
      ∀ i, i < a.dimension → s.get i = a.get i - b.get i := by
  refine ⟨_, ?_, Vector.forRange_fresh (fun i => a.get i - b.get i) a.dimension⟩
  unfold Vector.sub
  rw [if_neg (not_not.mpr hd)]

theorem Vector.addAssign_spec [Zero α] [Add α] (a b : Vector α) (ha : a.WF)
    (hd : a.dimension = b.dimension) :
    ∃ s, a.addAssign b = .ok s ∧ s.WF ∧ s.dimension = a.dimension ∧
      ∀ i, i < a.dimension → s.get i = a.get i + b.get i := by
  refine ⟨_, ?_, Vector.forRange_set (fun i v => v + b.get i) a ha⟩
  unfold Vector.addAssign
  rw [if_neg (not_not.mpr hd)]

theorem Vector.subAssign_spec [Zero α] [Sub α] (a b : Vector α) (ha : a.WF)
    (hd : a.dimension = b.dimension) :
    ∃ s, a.subAssign b = .ok s ∧ s.WF ∧ s.dimension = a.dimension ∧
      ∀ i, i < a.dimension → s.get i = a.get i - b.get i := by
  refine ⟨_, ?_, Vector.forRange_set (fun i v => v - b.get i) a ha⟩
  unfold Vector.subAssign
  rw [if_neg (not_not.mpr hd)]

theorem Vector.smul_spec [Zero α] [Mul α] (v : Vector α) (s : α) :
    (v.smul s).WF ∧ (v.smul s).dimension = v.dimension ∧
      ∀ i, i < v.dimension → (v.smul s).get i = v.get i * s :=
  Vector.forRange_fresh (fun i => v.get i * s) v.dimension

theorem Vector.neg_spec [Zero α] [Neg α] (v : Vector α) :
    v.neg.WF ∧ v.neg.dimension = v.dimension ∧
      ∀ i, i < v.dimension → v.neg.get i = -(v.get i) :=
  Vector.forRange_fresh (fun i => -(v.get i)) v.dimension

/-- The guard of an `if` that throws: the result is the error exactly when the
guard holds, if the other branch succeeds. -/
theorem ite_error_iff {β : Type} (p : Prop) [Decidable p] (e : Error) (x : β) :
    (if p then (.error e : Except Error β) else .ok x) = .error e ↔ p := by
  by_cases h : p <;> simp [h]

/-! ## Vectors: scalar division and squared magnitude -/

theorem Vector.div_spec [LinearOrderedField α] (eps : α) (v : Vector α) (s : α)
    (h : ¬ |s| < eps) :
    ∃ r, v.div eps s = .ok r ∧ r.WF ∧ r.dimension = v.dimension ∧
      ∀ i, i < v.dimension → r.get i = v.get i * (1 / s) := by
  refine ⟨_, ?_, Vector.forRange_fresh (fun i => v.get i * (1 / s)) v.dimension⟩
  unfold Vector.div
  rw [if_neg h]

theorem Vector.divAssign_spec [LinearOrderedField α] (eps : α) (v : Vector α) (hv : v.WF)
    (s : α) (h : ¬ |s| < eps) :
    ∃ r, v.divAssign eps s = .ok r ∧ r.WF ∧ r.dimension = v.dimension ∧
      ∀ i, i < v.dimension → r.get i = v.get i * (1 / s) := by
  refine ⟨_, ?_, Vector.forRange_set (fun _ x => x * (1 / s)) v hv⟩
  unfold Vector.divAssign
  rw [if_neg h]

theorem Vector.divAssign_eq_div [LinearOrderedField α] (eps : α) (v : Vector α) (hv : v.WF)
    (s : α) : v.divAssign eps s = v.div eps s := by
  by_cases h : |s| < eps
  · unfold Vector.divAssign Vector.div
    rw [if_pos h, if_pos h]
  · obtain ⟨r, h1, h2, h3, h4⟩ := Vector.div_spec eps v s h
    obtain ⟨r', h5, h6, h7, h8⟩ := Vector.divAssign_spec eps v hv s h
    rw [h1, h5, Vector.ext_of_get h6 h2 (h7.trans h3.symm)
      (fun i hi => by rw [h8 i (h7 ▸ hi), h4 i (h7 ▸ hi)])]

theorem Vector.magnitudeSquared_nonneg [LinearOrderedField α] {v : Vector α} (hv : v.WF) :
    0 ≤ v.magnitudeSquared := by
  rw [Vector.magnitudeSquared_eq_sum hv]
  exact Finset.sum_nonneg (fun i _ => mul_self_nonneg _)

/-- The squared magnitude of a vector whose cells are those of `v` times `k`. -/
theorem Vector.magnitudeSquared_scaled [LinearOrderedField α] {v u : Vector α} (hv : v.WF)
    (hu : u.WF) (hd : u.dimension = v.dimension) (k : α)
    (h : ∀ i, i < v.dimension → u.get i = v.get i * k) :
    u.magnitudeSquared = v.magnitudeSquared * (k * k) := by
  rw [Vector.magnitudeSquared_eq_sum hv, Vector.magnitudeSquared_eq_sum hu, hd,
    Finset.sum_mul]
  apply Finset.sum_congr rfl
  intro i hi
  rw [h i (Finset.mem_range.mp hi)]
  ring

/-! ## Vectors: clamping, projection and comparison -/

theorem stdMin_eq_min [LinearOrder α] (a b : α) : stdMin a b = min a b := by
  unfold stdMin
  by_cases h : b < a
  · rw [if_pos h, min_eq_right (le_of_lt h)]
  · rw [if_neg h, min_eq_left (not_lt.mp h)]

theorem stdMax_eq_max [LinearOrder α] (a b : α) : stdMax a b = max a b := by
  unfold stdMax
  by_cases h : a < b
  · rw [if_pos h, max_eq_right (le_of_lt h)]
  · rw [if_neg h, max_eq_left (not_lt.mp h)]

theorem Vector.dot_self [Zero α] [Add α] [Mul α] (v : Vector α) :
    v.dot v = .ok v.magnitudeSquared := by
  unfold Vector.dot Vector.magnitudeSquared
  rw [if_neg (not_not.mpr rfl)]

theorem Vector.project_ok [LinearOrderedField α] (eps : α) (v onto : Vector α)
    (hd : v.dimension = onto.dimension) (hg : ¬ onto.magnitudeSquared < eps) :
    v.project eps onto
      = .ok (onto.smul (inner_product v.data onto.data 0 / onto.magnitudeSquared)) := by
  unfold Vector.project Vector.dot
  rw [if_neg (not_not.mpr hd)]
  simp only [hg, if_false, if_neg (not_not.mpr hd)]

theorem Vector.beq_iff [LinearOrderedRing α] (eps : α) (a b : Vector α) :
    a.beq eps b = true ↔ a.dimension = b.dimension ∧
      ∀ i, i < a.dimension → |a.get i - b.get i| ≤ eps * 10 := by
  unfold Vector.beq
  by_cases h : a.dimension = b.dimension
  · rw [if_neg (not_not.mpr h)]
    simp only [List.all_eq_true, List.mem_range, Bool.not_eq_true', decide_eq_false_iff_not,
      gt_iff_lt, not_lt, h, true_and]
  · rw [if_pos h]
    simp [h]

theorem Matrix.beq_iff_cells [LinearOrderedRing α] (eps : α) (A B : Matrix α) :
    A.beq eps B = true ↔ A.rows = B.rows ∧ A.cols = B.cols ∧
      ∀ i j, i < A.rows → j < A.cols → |A.get i j - B.get i j| ≤ eps * 10 := by
  unfold Matrix.beq
  by_cases h : A.rows ≠ B.rows ∨ A.cols ≠ B.cols
  · rw [if_pos h]
    constructor
    · intro hf; cases hf
    · rintro ⟨h1, h2, -⟩
      rcases h with h | h
      · exact absurd h1 h
      · exact absurd h2 h
  · rw [if_neg h]
    have h' : A.rows = B.rows ∧ A.cols = B.cols := by
      constructor
      · by_contra hc; exact h (Or.inl hc)
      · by_contra hc; exact h (Or.inr hc)
    simp only [List.all_eq_true, List.mem_range, Bool.not_eq_true', decide_eq_false_iff_not,
      gt_iff_lt, not_lt, h'.1, h'.2, true_and]
    constructor
    · intro H i j hi hj
      exact H i hi j hj
    · intro H i hi j hj
      exact H i j hi hj

/-! ## Extremes, element access and the rectangular invariant -/

theorem foldl_min_mem [LinearOrder α] (xs : List α) (x : α) :
    xs.foldl (fun smallest y => if y < smallest then y else smallest) x ∈ x :: xs ∧
    ∀ y ∈ x :: xs, xs.foldl (fun smallest y => if y < smallest then y else smallest) x ≤ y := by
  induction xs generalizing x with
  | nil => simp
  | cons z zs ih =>
    rw [List.foldl_cons]
    obtain ⟨h1, h2⟩ := ih (if z < x then z else x)
    constructor
    · rcases List.mem_cons.mp h1 with h | h
      · rw [h]
        by_cases hz : z < x
        · rw [if_pos hz]; simp
        · rw [if_neg hz]; simp
      · exact List.mem_cons_of_mem _ (List.mem_cons_of_mem _ h)
    · intro y hy
      have h0 := h2 (if z < x then z else x) (List.mem_cons_self _ _)
      rcases List.mem_cons.mp hy with h | h
      · rw [h]
        refine le_trans h0 ?_
        by_cases hz : z < x
        · rw [if_pos hz]; exact le_of_lt hz
        · rw [if_neg hz]
      · rcases List.mem_cons.mp h with h' | h'
        · rw [h']
          refine le_trans h0 ?_
          by_cases hz : z < x
          · rw [if_pos hz]
          · rw [if_neg hz]; exact not_lt.mp hz
        · exact h2 y (List.mem_cons_of_mem _ h')

theorem foldl_max_mem [LinearOrder α] (xs : List α) (x : α) :
    xs.foldl (fun largest y => if largest < y then y else largest) x ∈ x :: xs ∧
    ∀ y ∈ x :: xs, y ≤ xs.foldl (fun largest y => if largest < y then y else largest) x := by
  induction xs generalizing x with
  | nil => simp
  | cons z zs ih =>
    rw [List.foldl_cons]
    obtain ⟨h1, h2⟩ := ih (if x < z then z else x)
    constructor
    · rcases List.mem_cons.mp h1 with h | h
      · rw [h]
        by_cases hz : x < z
        · rw [if_pos hz]; simp
        · rw [if_neg hz]; simp
      · exact List.mem_cons_of_mem _ (List.mem_cons_of_mem _ h)
    · intro y hy
      have h0 := h2 (if x < z then z else x) (List.mem_cons_self _ _)
      rcases List.mem_cons.mp hy with h | h
      · rw [h]
        refine le_trans ?_ h0
        by_cases hz : x < z
        · rw [if_pos hz]; exact le_of_lt hz
        · rw [if_neg hz]
      · rcases List.mem_cons.mp h with h' | h'
        · rw [h']
          refine le_trans ?_ h0
          by_cases hz : x < z
          · rw [if_pos hz]
          · rw [if_neg hz]; exact not_lt.mp hz
        · exact h2 y (List.mem_cons_of_mem _ h')

theorem Matrix.filled_wf (r c : Nat) (value : α) : (Matrix.filled r c value).WF := by
  refine ⟨by simp [Matrix.filled], ?_⟩
  intro row hrow
  simp only [Matrix.filled] at hrow ⊢
  rw [(List.mem_replicate.mp hrow).2, List.length_replicate]

theorem Matrix.ofRows_wf_iff (mat : List (List α)) :
    (Matrix.ofRows mat).WF ↔ ∀ row ∈ mat, row.length = (mat.headD []).length := by
  unfold Matrix.WF Matrix.ofRows
  cases mat with
  | nil => simp
  | cons r rs => simp

theorem Matrix.smul_shape [Zero α] [Mul α] (A : Matrix α) (s : α) :
    (A.smul s).Shape A.rows A.cols ∧
      ∀ i j, i < A.rows → j < A.cols → (A.smul s).get i j = A.get i j * s :=
  forRange_cells (fun i j _ => A.get i j * s) (Matrix.new A.rows A.cols) (Matrix.new_shape _ _)

theorem Matrix.mulAssign_shape [Zero α] [Mul α] (A : Matrix α) (hA : A.WF) (s : α) :
    (A.mulAssign s).Shape A.rows A.cols ∧
      ∀ i j, i < A.rows → j < A.cols → (A.mulAssign s).get i j = A.get i j * s :=
  forRange_cells (fun _ _ v => v * s) A ⟨hA, rfl, rfl⟩

theorem Matrix.mul_shape [Zero α] [Add α] [Mul α] {A B C : Matrix α} (h : A.mul B = .ok C) :
    C.Shape A.rows B.cols := by
  unfold Matrix.mul at h
  split_ifs at h
  · cases h
    exact (mulBlocked_spec A B).1
  · cases h
    exact (mulDirect_spec A B).1

/-! ## Sub-vectors -/

/-- Where the guard of `subVector` is exact: when `start + length` does not wrap, the
call is refused iff the range is not contained in the vector, and otherwise returns the
`length` stored elements from position `start` on. -/
theorem subVector_no_wrap [Zero α] (v : Vector α) (hv : v.WF) (start length : Nat)
    (hsum : start + length < 2 ^ 64) :
    (v.subVector start length = .error .out_of_range ↔ ¬ start + length ≤ v.dimension) ∧
    (start + length ≤ v.dimension →
      v.subVector start length = .ok ⟨(v.data.drop start).take length, length⟩) := by
  have hmod : (start + length) % 2 ^ 64 = start + length := Nat.mod_eq_of_lt hsum
  constructor
  · unfold Vector.subVector
    rw [hmod]
    simp only
    rw [ite_error_iff]
    omega
  · intro h
    unfold Vector.subVector
    rw [hmod, if_neg (by omega)]
    simp only [Vector.ofList, List.length_map, List.length_range]
    congr 2
    apply List.ext_getElem
    · simp only [List.length_map, List.length_range, List.length_take, List.length_drop]
      rw [hv]
      omega
    · intro i h1 h2
      simp only [List.length_map, List.length_range] at h1
      have hlt : start + i < v.data.length := by rw [hv]; omega
      simp only [List.getElem_map, List.getElem_range, List.getElem_take, List.getElem_drop,
        Vector.get]
      rw [Nat.mod_eq_of_lt (by omega), List.getD_eq_getElem?_getD,
        List.getElem?_eq_getElem hlt]
      rfl

/-! ## The QR iteration on a diagonal matrix -/

/-- The factors `qrDecomposition` returns for a diagonal matrix whose diagonal entries
are `0` or larger than `eps` in absolute value: column `c` of `Q` is supported on row
`c`, `R` is diagonal, and `Q[c][c] * R[c][c]` is the diagonal entry. -/
theorem qr_diagonal_columns [LinearOrderedField α] (sqrt : α → α)
    (hsqrt : ∀ x : α, sqrt (x * x) = |x|) (eps : α) (heps : 0 < eps) (D : Matrix α)
    (hsq : D.rows = D.cols)
    (hoff : ∀ i j, i < D.rows → j < D.rows → i ≠ j → D.get i j = 0)
    (hent : ∀ i, i < D.rows → D.get i i = 0 ∨ eps < |D.get i i|)
    {Q R : Matrix α} (hcols : ∀ c, c < D.cols → QRColumn sqrt eps D Q R c)
    (c : Nat) (hc : c < D.cols) :
    (∀ i, i < D.rows → i ≠ c → Q.get i c = 0) ∧
    (∀ k, k < c → R.get k c = 0) ∧
    R.get c c * Q.get c c = D.get c c := by
  induction c using Nat.strong_induction_on with
  | _ c ih =>
    have hcol := hcols c hc
    have hcr : c < D.rows := by rw [hsq]; exact hc
    have hsingle : ∀ f : Nat → α,
        ∑ i ∈ Finset.range D.rows, f i * D.get i c = f c * D.get c c := by
      intro f
      rw [Finset.sum_eq_single c]
      · intro i hi hic
        rw [hoff i c (Finset.mem_range.mp hi) hcr hic, mul_zero]
      · intro h
        exact absurd (Finset.mem_range.mpr hcr) h
    have hR : ∀ k, k < c → R.get k c = 0 := by
      intro k hk
      rw [hcol.coeff k hk, hsingle (fun i => Q.get i k),
        (ih k hk (lt_trans hk hc)).1 c hcr (Nat.ne_of_gt hk), zero_mul]
    have hres : ∀ i, qrResidual D Q R c i = D.get i c := by
      intro i
      unfold qrResidual
      rw [Finset.sum_eq_zero, sub_zero]
      intro k hk
      rw [hR k (Finset.mem_range.mp hk), zero_mul]
    have hnorm : qrNorm sqrt D Q R c = |D.get c c| := by
      unfold qrNorm
      rw [← hsqrt (D.get c c)]
      congr 1
      rw [Finset.sum_congr rfl (fun i _ => by rw [hres i]), hsingle (fun i => D.get i c)]
    refine ⟨?_, hR, ?_⟩
    · intro i hi hic
      by_cases hn : eps < qrNorm sqrt D Q R c
      · rw [(hcol.normalised hn).2 i hi, hres i, hoff i c hi hcr hic, zero_div]
      · rw [(hcol.degenerate hn).2 i hi, hres i, hoff i c hi hcr hic]
    · by_cases hn : eps < qrNorm sqrt D Q R c
      · obtain ⟨h1, h2⟩ := hcol.normalised hn
        have hne : qrNorm sqrt D Q R c ≠ 0 := ne_of_gt (lt_trans heps hn)
        rw [h1, h2 c hcr, hres c, mul_div_cancel₀ _ hne]
      · obtain ⟨h1, -⟩ := hcol.degenerate hn
        rw [hnorm] at hn
        rcases hent c hcr with h0 | h0
        · rw [h1, h0, zero_mul]
        · exact absurd h0 hn

/-- On such a diagonal matrix the product `R * Q` of the factors is the matrix itself. -/
theorem qr_diagonal_fixed [LinearOrderedField α] (sqrt : α → α)
    (hsqrt : ∀ x : α, sqrt (x * x) = |x|) (eps : α) (heps : 0 < eps) (D : Matrix α)
    (hD : D.WF) (hsq : D.rows = D.cols)
    (hoff : ∀ i j, i < D.rows → j < D.rows → i ≠ j → D.get i j = 0)
    (hent : ∀ i, i < D.rows → D.get i i = 0 ∨ eps < |D.get i i|) :
    (qrDecomposition sqrt eps D).2.mul (qrDecomposition sqrt eps D).1 = .ok D := by
  obtain ⟨hQ, hR, hcols⟩ := qrDecomposition_spec sqrt eps D
  obtain ⟨B, h1, h2, h3⟩ := mul_spec (qrDecomposition sqrt eps D).2
    (qrDecomposition sqrt eps D).1 (hR.2.2.trans (hsq.symm.trans hQ.2.1.symm))
  rw [hR.2.1, hQ.2.2] at h2 h3
  rw [hR.2.2] at h3
  rw [h1]
  congr 1
  apply Matrix.ext_get h2 ⟨hD, hsq, rfl⟩
  intro i j hi hj
  have hjr : j < D.rows := by rw [hsq]; exact hj
  obtain ⟨hQj, hRj, hdj⟩ := qr_diagonal_columns sqrt hsqrt eps heps D hsq hoff hent hcols j hj
  rw [h3 i j hi hj, Finset.sum_eq_single j]
  · rcases lt_trichotomy i j with h | h | h
    · rw [hRj i h, zero_mul, hoff i j (by rw [hsq]; exact hi) hjr (Nat.ne_of_lt h)]
    · rw [h, hdj]
    · rw [(hcols j hj).below i h, zero_mul,
        hoff i j (by rw [hsq]; exact hi) hjr (Nat.ne_of_gt h)]
  · intro k hk hkj
    rw [hQj k (by rw [hsq]; exact Finset.mem_range.mp hk) hkj, mul_zero]
  · intro h
    exact absurd (Finset.mem_range.mpr hj) h

/-! ## Classical and modified Gram-Schmidt -/

/-- Two folds over a range agree when their steps agree on every state the first one
goes through. -/
theorem foldl_range'_congr {σ : Type} (f g : σ → Nat → σ) (s : σ) (lo n : Nat)
    (h : ∀ m, m < n →
      f ((List.range' lo m).foldl f s) (lo + m) = g ((List.range' lo m).foldl f s) (lo + m)) :
    (List.range' lo n).foldl f s = (List.range' lo n).foldl g s := by
  induction n with
  | zero => rfl
  | succ n ih =>
    rw [List.range'_1_concat, List.foldl_append, List.foldl_append,
      ← ih (fun m hm => h m (Nat.lt_succ_of_lt hm))]
    simp only [List.foldl_cons, List.foldl_nil]
    exact h n (Nat.lt_succ_self n)

/-- In the projection loop for column `j`, the coefficient taken from the source column
and the one taken from the running residual agree when the finished columns are
pairwise orthogonal. -/
theorem qr_project_eq_mgs [LinearOrderedField α] (A : Matrix α) {n j : Nat} (hj : j < n)
    (Q R : Matrix α) (hQ : Q.Shape A.rows n) (hR : R.Shape n n)
    (hcopy : ∀ i, i < A.rows → Q.get i j = A.get i j)
    (horth : ∀ l k, l < k → k < j →
      ∑ i ∈ Finset.range A.rows, Q.get i l * Q.get i k = 0) :
    forRange 0 j (fun k QR => qrProject A j k QR) (Q, R)
      = forRange 0 j (fun k QR => mgsProject A j k QR) (Q, R) := by
  unfold forRange
  rw [Nat.sub_zero]
  apply foldl_range'_congr (fun QR k => qrProject A j k QR) (fun QR k => mgsProject A j k QR)
  intro m hm
  obtain ⟨-, -, hSg, -⟩ := qr_project_loop A hj m 0 (by omega) Q R hQ hR
  generalize (List.range' 0 m).foldl (fun QR k => qrProject A j k QR) (Q, R) = S at hSg
  rw [Nat.zero_add]
  have hmj : m ≠ j := Nat.ne_of_lt hm
  have hsum : ∑ i ∈ Finset.range A.rows, S.1.get i m * S.1.get i j
      = ∑ i ∈ Finset.range A.rows, S.1.get i m * A.get i j := by
    have h1 : ∀ i ∈ Finset.range A.rows, S.1.get i m * S.1.get i j
        = Q.get i m * A.get i j - ∑ k ∈ Finset.Ico 0 (0 + m),
            (∑ i' ∈ Finset.range A.rows, Q.get i' k * A.get i' j)
              * (Q.get i k * Q.get i m) := by
      intro i hi
      have hi' := Finset.mem_range.mp hi
      rw [hSg i m hi', if_neg hmj, hSg i j hi', if_pos rfl, hcopy i hi', mul_sub,
        Finset.mul_sum]
      congr 1
      apply Finset.sum_congr rfl
      intro k _
      ring
    have h2 : ∀ i ∈ Finset.range A.rows, S.1.get i m * A.get i j = Q.get i m * A.get i j := by
      intro i hi
      rw [hSg i m (Finset.mem_range.mp hi), if_neg hmj]
    rw [Finset.sum_congr rfl h1, Finset.sum_congr rfl h2, Finset.sum_sub_distrib,
      Finset.sum_comm]
    have h3 : ∀ k ∈ Finset.Ico 0 (0 + m), ∑ i ∈ Finset.range A.rows,
        (∑ i' ∈ Finset.range A.rows, Q.get i' k * A.get i' j) * (Q.get i k * Q.get i m)
        = 0 := by
      intro k hk
      have hkm : k < m := by
        have := Finset.mem_Ico.mp hk
        omega
      rw [← Finset.mul_sum, horth k m hkm hm, mul_zero]
    rw [Finset.sum_eq_zero h3, sub_zero]
  have hdot : forRange 0 A.rows (fun i d => d + S.1.get i m * S.1.get i j) 0
      = forRange 0 A.rows (fun i d => d + S.1.get i m * A.get i j) 0 := by
    rw [forRange_add_eq_sum (fun i => S.1.get i m * S.1.get i j),
      forRange_add_eq_sum (fun i => S.1.get i m * A.get i j), hsum]
  unfold qrProject mgsProject
  simp only [hdot]

/-- What `qrColumn` leaves untouched: every column of `Q` and of `R` other than `j`. -/
theorem qrColumn_frame [LinearOrderedField α] (sqrt : α → α) (eps : α) {A Q R : Matrix α}
    {j : Nat} (hj : j < A.cols) (hQ : Q.Shape A.rows A.cols) (hR : R.Shape A.cols A.cols) :
    (∀ i c, i < A.rows → c ≠ j → (qrColumn sqrt eps A j (Q, R)).1.get i c = Q.get i c) ∧
    (∀ r c, c ≠ j → (qrColumn sqrt eps A j (Q, R)).2.get r c = R.get r c) := by
  obtain ⟨hQ0, hQ0g⟩ := forRange_colUpdate (k := j) hj (fun i _ _ => A.get i j) Q hQ
  obtain ⟨hP1, hP2, hP1g, hP2g⟩ := qr_project_forRange A hj _ R hQ0 hR
  unfold qrColumn
  simp only
  generalize forRange 0 j (fun k QR => qrProject A j k QR)
      (forRange 0 A.rows (fun i Q => Q.set i j (A.get i j)) Q, R) = P
    at hP1 hP2 hP1g hP2g
  generalize sqrt (forRange 0 A.rows (fun i norm => norm + P.1.get i j * P.1.get i j) 0) = N
  have hPQ : ∀ i c, i < A.rows → c ≠ j → P.1.get i c = Q.get i c := by
    intro i c hi hc
    rw [hP1g i c hi, if_neg hc, hQ0g i c hi, if_neg hc]
  have hPR : ∀ r c, c ≠ j → P.2.get r c = R.get r c := by
    intro r c hc
    rw [hP2g r c, if_neg (fun e => hc e.1)]
  by_cases hn : N > eps
  · rw [if_pos hn]
    obtain ⟨-, hQ3g⟩ := forRange_colUpdate (k := j) hj (fun _ v _ => v / N) P.1 hP1
    constructor
    · intro i c hi hc
      rw [hQ3g i c hi, if_neg hc, hPQ i c hi hc]
    · intro r c hc
      rw [Matrix.get_set hP2 hj hj N r c, if_neg (fun e => hc e.2), hPR r c hc]
  · rw [if_neg hn]
    exact ⟨hPQ, hPR⟩

/-- The columns finished before a run of the column loop are not touched by it. -/
theorem qrColumn_loop_frame [LinearOrderedField α] {sqrt : α → α} {eps : α} {A : Matrix α}
    (len j0 : Nat) (hlen : j0 + len ≤ A.cols) {Q R : Matrix α}
    (inv : QRInv sqrt eps A j0 Q R) (c : Nat) (hc : c < j0) :
    (∀ i, i < A.rows →
      ((List.range' j0 len).foldl (fun QR j => qrColumn sqrt eps A j QR) (Q, R)).1.get i c
        = Q.get i c) ∧
    (∀ r, ((List.range' j0 len).foldl (fun QR j => qrColumn sqrt eps A j QR) (Q, R)).2.get r c
        = R.get r c) := by
  induction len generalizing j0 Q R with
  | zero => exact ⟨fun _ _ => rfl, fun _ => rfl⟩
  | succ len ih =>
    rw [List.range'_succ, List.foldl_cons]
    have hj0 : j0 < A.cols := by omega
    obtain ⟨h1, h2⟩ := ih (j0 + 1) (by omega) (QRInv.column_step hj0 inv) (by omega)
    obtain ⟨h3, h4⟩ := qrColumn_frame sqrt eps hj0 inv.shapeQ inv.shapeR
    exact ⟨fun i hi => (h1 i hi).trans (h3 i c hi (Nat.ne_of_lt hc)),
      fun r => (h2 r).trans (h4 r c (Nat.ne_of_lt hc))⟩

/-- One column of the source procedure and of the reference procedure agree when the
finished columns are pairwise orthogonal and the source normalises the column. -/
theorem qrColumn_eq_mgs [LinearOrderedField α] {sqrt : α → α} {eps : α} {A Q R : Matrix α}
    {j : Nat} (hj : j < A.cols) (inv : QRInv sqrt eps A j Q R)
    (horth : ∀ l k, l < k → k < j →
      ∑ i ∈ Finset.range A.rows, Q.get i l * Q.get i k = 0)
    (hnz : (qrColumn sqrt eps A j (Q, R)).2.get j j ≠ 0) :
    qrColumn sqrt eps A j (Q, R) = mgsColumn sqrt eps A j (Q, R) := by
  obtain ⟨hQ0, hQ0g⟩ := forRange_colUpdate (k := j) hj (fun i _ _ => A.get i j) Q inv.shapeQ
  have hloop := qr_project_eq_mgs A hj _ R hQ0 inv.shapeR
    (fun i hi => by rw [hQ0g i j hi, if_pos rfl])
    (fun l k hlk hkj => by
      rw [← horth l k hlk hkj]
      apply Finset.sum_congr rfl
      intro i hi
      rw [hQ0g i l (Finset.mem_range.mp hi), if_neg (by omega),
        hQ0g i k (Finset.mem_range.mp hi), if_neg (by omega)])
  obtain ⟨-, -, -, hP2g⟩ := qr_project_forRange A hj _ R hQ0 inv.shapeR
  unfold qrColumn at hnz ⊢
  unfold mgsColumn
  simp only at hnz ⊢
  rw [← hloop]
  generalize forRange 0 j (fun k QR => qrProject A j k QR)
      (forRange 0 A.rows (fun i Q => Q.set i j (A.get i j)) Q, R) = P
    at hP2g hnz ⊢
  generalize sqrt (forRange 0 A.rows (fun i norm => norm + P.1.get i j * P.1.get i j) 0) = N
    at hnz ⊢
  by_cases hn : N > eps
  · rw [if_pos hn, if_neg (not_lt.mpr (le_of_lt hn))]
  · rw [if_neg hn] at hnz
    rw [hP2g j j, if_neg (by omega)] at hnz
    exact absurd (inv.pending j (le_refl j) j) hnz

/-- When the source procedure normalises every column, it returns what the reference
modified Gram-Schmidt procedure returns. -/
theorem qr_eq_mgs [LinearOrderedField α] (sqrt : α → α)
    (hsqrt : ∀ x, 0 ≤ x → sqrt x * sqrt x = x) (eps : α) (heps : 0 ≤ eps) (A : Matrix α)
    (hfull : ∀ j, j < A.cols → (qrDecomposition sqrt eps A).2.get j j ≠ 0) :
    qrDecomposition sqrt eps A = mgsDecomposition sqrt eps A := by
  obtain ⟨-, -, hcols⟩ := qrDecomposition_spec sqrt eps A
  have h0 : QRInv sqrt eps A 0 (Matrix.new A.rows A.cols) (Matrix.new A.cols A.cols) :=
    ⟨Matrix.new_shape _ _, Matrix.new_shape _ _, fun c hc => absurd hc (Nat.not_lt_zero c),
      fun c _ r => Matrix.new_get _ _ r c⟩
  have hF : qrDecomposition sqrt eps A
      = (List.range' 0 A.cols).foldl (fun QR j => qrColumn sqrt eps A j QR)
        (Matrix.new A.rows A.cols, Matrix.new A.cols A.cols) := by
    unfold qrDecomposition forRange
    rw [Nat.sub_zero]
  have hG : mgsDecomposition sqrt eps A
      = (List.range' 0 A.cols).foldl (fun QR j => mgsColumn sqrt eps A j QR)
        (Matrix.new A.rows A.cols, Matrix.new A.cols A.cols) := by
    unfold mgsDecomposition forRange
    rw [Nat.sub_zero]
  have hsplit : ∀ m, m ≤ A.cols → qrDecomposition sqrt eps A
      = (List.range' m (A.cols - m)).foldl (fun QR j => qrColumn sqrt eps A j QR)
        ((List.range' 0 m).foldl (fun QR j => qrColumn sqrt eps A j QR)
          (Matrix.new A.rows A.cols, Matrix.new A.cols A.cols)) := by
    intro m hm
    rw [hF, ← List.foldl_append]
    have := List.range'_append_1 0 m (A.cols - m)
    rw [Nat.zero_add, Nat.sub_add_cancel hm] at this
    rw [this]
  rw [hG, hF]
  apply foldl_range'_congr
  intro m hm
  rw [Nat.zero_add]
  have inv : QRInv sqrt eps A m
      ((List.range' 0 m).foldl (fun QR j => qrColumn sqrt eps A j QR)
        (Matrix.new A.rows A.cols, Matrix.new A.cols A.cols)).1
      ((List.range' 0 m).foldl (fun QR j => qrColumn sqrt eps A j QR)
        (Matrix.new A.rows A.cols, Matrix.new A.cols A.cols)).2 := by
    have h := QRInv.column_loop m 0 (by omega) h0
    rw [Nat.zero_add] at h
    exact h
  have hsm := hsplit m (Nat.le_of_lt hm)
  have hsm1 := hsplit (m + 1) hm
  rw [List.range'_1_concat, List.foldl_append, Nat.zero_add] at hsm1
  simp only [List.foldl_cons, List.foldl_nil] at hsm1
  generalize (List.range' 0 m).foldl (fun QR j => qrColumn sqrt eps A j QR)
      (Matrix.new A.rows A.cols, Matrix.new A.cols A.cols) = S at inv hsm hsm1 ⊢
  have horth : ∀ l k, l < k → k < m →
      ∑ i ∈ Finset.range A.rows, S.1.get i l * S.1.get i k = 0 := by
    intro l k hlk hkm
    have hfr : ∀ c, c < m → ∀ i, i < A.rows →
        (qrDecomposition sqrt eps A).1.get i c = S.1.get i c := by
      intro c hc i hi
      rw [hsm]
      exact (qrColumn_loop_frame (A.cols - m) m (by omega) inv c hc).1 i hi
    rw [← (qr_gram hsqrt heps hcols hfull k (by omega)).1 l hlk]
    apply Finset.sum_congr rfl
    intro i hi
    rw [hfr l (by omega) i (Finset.mem_range.mp hi), hfr k hkm i (Finset.mem_range.mp hi)]
  have hnz : (qrColumn sqrt eps A m (S.1, S.2)).2.get m m ≠ 0 := by
    have h := (qrColumn_loop_frame (A.cols - (m + 1)) (m + 1) (by omega)
      (QRInv.column_step hm inv) m (Nat.lt_succ_self m)).2 m
    have hf := hfull m hm
    rw [hsm1] at hf
    rw [← h]
    exact hf
  exact qrColumn_eq_mgs hm inv horth hnz

theorem qr_cgs_eval :
    qrDecomposition Real.sqrt (1 / 1000)
        (⟨[[1 / 2000, 4000000 / 3999999, 1]], 1, 3⟩ : Matrix ℝ)
      = (⟨[[1 / 2000, 1, -(1 / 4000000)]], 1, 3⟩,
         ⟨[[0, 2000 / 3999999, 1 / 2000], [0, 1, 1], [0, 0, 0]], 3, 3⟩) := by
  have hs : Real.sqrt (2000⁻¹ * 2000⁻¹) = 2000⁻¹ := Real.sqrt_mul_self (by norm_num)
  have hlt : ¬ ((1000 : ℝ)⁻¹ < 2000⁻¹) := by norm_num
  have hx : (4000000 / 3999999 - 2000⁻¹ * (4000000 / 3999999) * 2000⁻¹ : ℝ) = 1 := by
    norm_num
  have hlt1 : ((1000 : ℝ)⁻¹ < 1) := by norm_num
  have h0 : qrColumn Real.sqrt (1 / 1000)
      (⟨[[1 / 2000, 4000000 / 3999999, 1]], 1, 3⟩ : Matrix ℝ) 0
      (Matrix.new 1 3, Matrix.new 3 3)
      = (⟨[[1 / 2000, 0, 0]], 1, 3⟩, ⟨[[0, 0, 0], [0, 0, 0], [0, 0, 0]], 3, 3⟩) := by
    simp [qrColumn, qrProject, forRange, Matrix.new, Matrix.set, Matrix.get, List.range', hs, hlt]
  have h1 : qrColumn Real.sqrt (1 / 1000)
      (⟨[[1 / 2000, 4000000 / 3999999, 1]], 1, 3⟩ : Matrix ℝ) 1
      (⟨[[1 / 2000, 0, 0]], 1, 3⟩, ⟨[[0, 0, 0], [0, 0, 0], [0, 0, 0]], 3, 3⟩)
      = (⟨[[1 / 2000, 1, 0]], 1, 3⟩,
         ⟨[[0, 2000 / 3999999, 0], [0, 1, 0], [0, 0, 0]], 3, 3⟩) := by
    simp [qrColumn, qrProject, forRange, Matrix.set, Matrix.get, List.range', hx, hlt1]
    norm_num
  have h2 : qrColumn Real.sqrt (1 / 1000)
      (⟨[[1 / 2000, 4000000 / 3999999, 1]], 1, 3⟩ : Matrix ℝ) 2
      (⟨[[1 / 2000, 1, 0]], 1, 3⟩, ⟨[[0, 2000 / 3999999, 0], [0, 1, 0], [0, 0, 0]], 3, 3⟩)
      = (⟨[[1 / 2000, 1, -(1 / 4000000)]], 1, 3⟩,
         ⟨[[0, 2000 / 3999999, 1 / 2000], [0, 1, 1], [0, 0, 0]], 3, 3⟩) := by
    simp [qrColumn, qrProject, forRange, Matrix.set, Matrix.get, List.range']
    rw [if_neg (by norm_num)]
    norm_num
  have hdef : qrDecomposition Real.sqrt (1 / 1000)
      (⟨[[1 / 2000, 4000000 / 3999999, 1]], 1, 3⟩ : Matrix ℝ)
      = qrColumn Real.sqrt (1 / 1000) ⟨[[1 / 2000, 4000000 / 3999999, 1]], 1, 3⟩ 2
        (qrColumn Real.sqrt (1 / 1000) ⟨[[1 / 2000, 4000000 / 3999999, 1]], 1, 3⟩ 1
          (qrColumn Real.sqrt (1 / 1000) ⟨[[1 / 2000, 4000000 / 3999999, 1]], 1, 3⟩ 0
            (Matrix.new 1 3, Matrix.new 3 3))) := rfl
  rw [hdef, h0, h1, h2]

theorem mgs_ref_eval :
    mgsDecomposition Real.sqrt (1 / 1000)
        (⟨[[1 / 2000, 4000000 / 3999999, 1]], 1, 3⟩ : Matrix ℝ)
      = (⟨[[0, 1, 0]], 1, 3⟩,
         ⟨[[0, 0, 0], [0, 4000000 / 3999999, 1], [0, 0, 0]], 3, 3⟩) := by
  have hs : Real.sqrt (2000⁻¹ * 2000⁻¹) = 2000⁻¹ := Real.sqrt_mul_self (by norm_num)
  have hlt : ((2000 : ℝ)⁻¹ < 1000⁻¹) := by norm_num
  have hsx : Real.sqrt (4000000 / 3999999 * (4000000 / 3999999)) = 4000000 / 3999999 :=
    Real.sqrt_mul_self (by norm_num)
  have hltx : ¬ ((4000000 / 3999999 : ℝ) < 1000⁻¹) := by norm_num
  have hpos : (0 : ℝ) < 1000⁻¹ := by norm_num
  have h0 : mgsColumn Real.sqrt (1 / 1000)
      (⟨[[1 / 2000, 4000000 / 3999999, 1]], 1, 3⟩ : Matrix ℝ) 0
      (Matrix.new 1 3, Matrix.new 3 3)
      = (⟨[[0, 0, 0]], 1, 3⟩, ⟨[[0, 0, 0], [0, 0, 0], [0, 0, 0]], 3, 3⟩) := by
    simp [mgsColumn, mgsProject, forRange, Matrix.new, Matrix.set, Matrix.get, List.range',
      hs, hlt]
  have h1 : mgsColumn Real.sqrt (1 / 1000)
      (⟨[[1 / 2000, 4000000 / 3999999, 1]], 1, 3⟩ : Matrix ℝ) 1
      (⟨[[0, 0, 0]], 1, 3⟩, ⟨[[0, 0, 0], [0, 0, 0], [0, 0, 0]], 3, 3⟩)
      = (⟨[[0, 1, 0]], 1, 3⟩,
         ⟨[[0, 0, 0], [0, 4000000 / 3999999, 0], [0, 0, 0]], 3, 3⟩) := by
    simp [mgsColumn, mgsProject, forRange, Matrix.set, Matrix.get, List.range', hsx, hltx]
  have h2 : mgsColumn Real.sqrt (1 / 1000)
      (⟨[[1 / 2000, 4000000 / 3999999, 1]], 1, 3⟩ : Matrix ℝ) 2
      (⟨[[0, 1, 0]], 1, 3⟩, ⟨[[0, 0, 0], [0, 4000000 / 3999999, 0], [0, 0, 0]], 3, 3⟩)
      = (⟨[[0, 1, 0]], 1, 3⟩,
         ⟨[[0, 0, 0], [0, 4000000 / 3999999, 1], [0, 0, 0]], 3, 3⟩) := by
    simp [mgsColumn, mgsProject, forRange, Matrix.set, Matrix.get, List.range', hpos]
  have hdef : mgsDecomposition Real.sqrt (1 / 1000)
      (⟨[[1 / 2000, 4000000 / 3999999, 1]], 1, 3⟩ : Matrix ℝ)
      = mgsColumn Real.sqrt (1 / 1000) ⟨[[1 / 2000, 4000000 / 3999999, 1]], 1, 3⟩ 2
        (mgsColumn Real.sqrt (1 / 1000) ⟨[[1 / 2000, 4000000 / 3999999, 1]], 1, 3⟩ 1
          (mgsColumn Real.sqrt (1 / 1000) ⟨[[1 / 2000, 4000000 / 3999999, 1]], 1, 3⟩ 0
            (Matrix.new 1 3, Matrix.new 3 3))) := rfl
  rw [hdef, h0, h1, h2]

theorem qr_unit_eval :
    qrDecomposition Real.sqrt (1 / 1000) (⟨[[1, 1], [0, 1]], 2, 2⟩ : Matrix ℝ)
      = (⟨[[1, 0], [0, 1]], 2, 2⟩, ⟨[[1, 1], [0, 1]], 2, 2⟩) := by
  have hlt1 : ((1000 : ℝ)⁻¹ < 1) := by norm_num
  simp [qrDecomposition, qrColumn, qrProject, forRange, Matrix.new, Matrix.set, Matrix.get,
    List.range', hlt1]


/-! ## Matrix multiplication -/

/-- C1: for rectangular `A` (m × n) and `B` (n × p), `A * B` returns an m × p
matrix whose cell `(i, j)` is the sum over `k < n` of `A[i][k] * B[k][j]`; the
blocked and the direct loop nest both compute that matrix, so it is returned
whichever path the dimensions select. -/
theorem mul_entry_eq_sum [CommRing α] (A B : Matrix α) (_hA : A.WF) (_hB : B.WF)
    (h : A.cols = B.rows) :
    ∃ C, A.mul B = .ok C ∧ mulBlocked A B = C ∧ mulDirect A B = C ∧
      C.WF ∧ C.rows = A.rows ∧ C.cols = B.cols ∧
      ∀ i j, i < A.rows → j < B.cols →
        C.get i j = ∑ k ∈ Finset.range A.cols, A.get i k * B.get k j := by
  obtain ⟨C, h1, h2, h3⟩ := mul_spec A B h
  have h4 : mulDirect A B = C := by
    unfold Matrix.mul at h1
    rw [if_neg (not_not.mpr h), blocked_eq_direct_semiring] at h1
    split_ifs at h1 <;> exact Except.ok.inj h1
  exact ⟨C, h1, (blocked_eq_direct_semiring A B).trans h4, h4, h2.1, h2.2.1, h2.2.2, h3⟩

/-- C1 at the known-value scenario `[[1,2],[3,4]] * [[5,6],[7,8]] = [[19,22],[43,50]]`. -/
theorem mul_entry_eq_sum_witness :
    (knownA.WF ∧ knownB.WF ∧ knownA.cols = knownB.rows) ∧
    (∃ C, knownA.mul knownB = .ok C ∧ mulBlocked knownA knownB = C ∧
      mulDirect knownA knownB = C ∧ C.WF ∧ C.rows = knownA.rows ∧ C.cols = knownB.cols ∧
      ∀ i j, i < knownA.rows → j < knownB.cols →
        C.get i j = ∑ k ∈ Finset.range knownA.cols, knownA.get i k * knownB.get k j) ∧
    knownA.mul knownB = .ok ⟨[[19, 22], [43, 50]], 2, 2⟩ :=
  ⟨by decide, mul_entry_eq_sum knownA knownB (by decide) (by decide) (by decide), by decide⟩

/-- C2: on operands with `A.cols == B.rows`, the blocked loop nest (tile size 64,
partial sums added into the zero-initialised result) and the direct triple loop
produce the same matrix, for all dimensions, over a commutative ring. -/
theorem mulBlocked_eq_mulDirect [CommRing α] (A B : Matrix α) (_hA : A.WF) (_hB : B.WF)
    (_h : A.cols = B.rows) : mulBlocked A B = mulDirect A B :=
  blocked_eq_direct_semiring A B

/-- C2 at a `1 × 65` by `65 × 1` product, whose inner dimension spans two tiles. -/
theorem mulBlocked_eq_mulDirect_witness :
    (wideRow.WF ∧ tallCol.WF ∧ wideRow.cols = tallCol.rows) ∧
    mulBlocked wideRow tallCol = mulDirect wideRow tallCol ∧
    wideRow.mul tallCol = .ok ⟨[[130]], 1, 1⟩ :=
  ⟨by decide, mulBlocked_eq_mulDirect wideRow tallCol (by decide) (by decide) (by decide),
    by decide⟩

/-- C3 fails as stated: over an element type with rounding (non-associative)
addition, a `1 × 66` by `66 × 1` product is `110` on the blocked path, which
`operator*` takes, and `100` on the direct path. -/
theorem blocked_order_counterexample :
    roundRow.WF ∧ roundCol.WF ∧ roundRow.cols = roundCol.rows ∧
    roundRow.mul roundCol = .ok (mulBlocked roundRow roundCol) ∧
    mulBlocked roundRow roundCol = ⟨[[⟨110⟩]], 1, 1⟩ ∧
    mulDirect roundRow roundCol = ⟨[[⟨100⟩]], 1, 1⟩ ∧
    mulBlocked roundRow roundCol ≠ mulDirect roundRow roundCol := by
  decide

/-- C3, amended: with no law assumed of `+` and `*`, cell `(i, j)` of the blocked
path is the left-to-right sum, started from the zero of the fresh result, of the
tiles' partial sums, each tile's partial sum being the left-to-right sum from
`T(0)` of that tile's products; cell `(i, j)` of the direct path is the
left-to-right sum from `T(0)` of all the products.  When the inner dimension
fits one tile (`0 < A.cols ≤ 64`) the blocked cell is `T(0) +` the direct cell. -/
theorem blocked_cell_order [Zero α] [Add α] [Mul α] (A B : Matrix α) (_hA : A.WF)
    (_hB : B.WF) (_h : A.cols = B.rows) (i j : Nat) (hi : i < A.rows) (hj : j < B.cols) :
    (mulBlocked A B).get i j
        = (stepValues A.cols 64).foldl (fun cell kk => cell +
            (List.range' kk (min (kk + 64) A.cols - kk)).foldl
              (fun sum k => sum + A.get i k * B.get k j) 0) 0 ∧
    (mulDirect A B).get i j
        = (List.range' 0 A.cols).foldl (fun sum k => sum + A.get i k * B.get k j) 0 ∧
    (0 < A.cols → A.cols ≤ 64 → (mulBlocked A B).get i j = 0 + (mulDirect A B).get i j) := by
  have hb := (mulBlocked_spec A B).2 i j hi hj
  have hd := (mulDirect_spec A B).2 i j hi hj
  refine ⟨hb, hd, ?_⟩
  intro h0 h64
  rw [hb, hd]
  unfold tiledSum stepValues BLOCK_SIZE
  have h1 : (A.cols + 64 - 1) / 64 = 1 := by omega
  rw [h1]
  simp only [List.range'_one, List.foldl_cons, List.foldl_nil, dotLoop]
  rw [show min (0 + 64) A.cols = A.cols by omega]

/-- C3, amended, at a narrow product over `Dec2`: there the blocked and the
direct cell agree (`0 + x = x` in `Dec2`). -/
theorem blocked_cell_order_witness :
    (narrowRow.WF ∧ narrowCol.WF ∧ narrowRow.cols = narrowCol.rows ∧
      0 < narrowRow.rows ∧ 0 < narrowCol.cols) ∧
    ((mulBlocked narrowRow narrowCol).get 0 0
        = (stepValues narrowRow.cols 64).foldl (fun cell kk => cell +
            (List.range' kk (min (kk + 64) narrowRow.cols - kk)).foldl
              (fun sum k => sum + narrowRow.get 0 k * narrowCol.get k 0) 0) 0 ∧
    (mulDirect narrowRow narrowCol).get 0 0
        = (List.range' 0 narrowRow.cols).foldl
            (fun sum k => sum + narrowRow.get 0 k * narrowCol.get k 0) 0 ∧
    (0 < narrowRow.cols → narrowRow.cols ≤ 64 →
      (mulBlocked narrowRow narrowCol).get 0 0 = 0 + (mulDirect narrowRow narrowCol).get 0 0)) ∧
    mulDirect narrowRow narrowCol = ⟨[[⟨110⟩]], 1, 1⟩ :=
  ⟨by decide,
    blocked_cell_order narrowRow narrowCol (by decide) (by decide) (by decide) 0 0
      (by decide) (by decide),
    by decide⟩

/-- C4: for every rectangular matrix `A`, `A * identity(A.getCols())` and
`identity(A.getRows()) * A` both return `A` itself (every cell equal), hence
a matrix that `operator==` accepts as equal to `A`. -/
theorem mul_identity [LinearOrderedCommRing α] (eps : α) (heps : 0 ≤ eps) (A : Matrix α)
    (hA : A.WF) :
    ∃ P Q, A.mul (Matrix.identity A.getCols) = .ok P ∧
      (Matrix.identity A.getRows).mul A = .ok Q ∧
      P = A ∧ Q = A ∧ P.beq eps A = true ∧ Q.beq eps A = true :=
  ⟨A, A, mul_one_right A hA, mul_one_left A hA, rfl, rfl,
    beq_self eps heps A, beq_self eps heps A⟩

/-- C4 at a `2 × 3` integer matrix, with the epsilon of an integer type. -/
theorem mul_identity_witness :
    ((0 : ℤ) ≤ 0 ∧ rect23.WF) ∧
    ∃ P Q, rect23.mul (Matrix.identity rect23.getCols) = .ok P ∧
      (Matrix.identity rect23.getRows).mul rect23 = .ok Q ∧
      P = rect23 ∧ Q = rect23 ∧ P.beq 0 rect23 = true ∧ Q.beq 0 rect23 = true :=
  ⟨by decide, mul_identity 0 (le_refl 0) rect23 (by decide)⟩

/-! ## Transpose -/

/-- C5: for every rectangular `A` (rows × cols), `transpose(A)` is rectangular
of shape cols × rows with cell `(j, i)` equal to `A(i, j)`, and
`transpose(transpose(A))` is `A`. -/
theorem transpose_involution [Zero α] (A : Matrix α) (hA : A.WF) :
    A.transpose.WF ∧ A.transpose.getRows = A.getCols ∧ A.transpose.getCols = A.getRows ∧
    (∀ i j, i < A.getRows → j < A.getCols → A.transpose.get j i = A.get i j) ∧
    A.transpose.transpose = A := by
  obtain ⟨hs, hg⟩ := transpose_spec A
  obtain ⟨hs2, hg2⟩ := transpose_spec A.transpose
  refine ⟨hs.1, hs.2.1, hs.2.2, hg, ?_⟩
  rw [hs.2.1, hs.2.2] at hs2 hg2
  apply Matrix.ext_get hs2 ⟨hA, rfl, rfl⟩
  intro i j hi hj
  rw [hg2 j i hj hi, hg i j hi hj]

/-- C5 at a `2 × 3` integer matrix. -/
theorem transpose_involution_witness :
    rect23.WF ∧
    (rect23.transpose.WF ∧ rect23.transpose.getRows = rect23.getCols ∧
      rect23.transpose.getCols = rect23.getRows ∧
      (∀ i j, i < rect23.getRows → j < rect23.getCols →
        rect23.transpose.get j i = rect23.get i j) ∧
      rect23.transpose.transpose = rect23) ∧
    rect23.transpose = ⟨[[1, 4], [2, 5], [3, 6]], 3, 2⟩ :=
  ⟨by decide, transpose_involution rect23 (by decide), by decide⟩

/-! ## LU decomposition and determinant -/

/-- C6: for every rectangular matrix `A` on which `luDecomposition` returns a
pair `(L, U)` (so `A` is square), `L * U` returns `A` itself, cell for cell, over
an ordered field with a positive machine epsilon. -/
theorem lu_reconstructs [LinearOrderedField α] (eps : α) (heps : 0 < eps)
    (A L U : Matrix α) (hA : A.WF) (hsz : A.rows < 2 ^ 64)
    (h : luDecomposition eps A = .ok (L, U)) : L.mul U = .ok A := by
  obtain ⟨hsq, hL, hU, hprod, -, -, -, -⟩ := luDecomposition_spec hA hsz h
  obtain ⟨C, h1, h2, h3⟩ := mul_spec L U (hL.2.2.trans hU.2.1.symm)
  rw [h1]
  congr 1
  rw [hL.2.1, hU.2.2] at h2 h3
  rw [hL.2.2] at h3
  apply Matrix.ext_get h2 ⟨hA, rfl, hsq.symm⟩
  intro i j hi hj
  rw [h3 i j hi hj, hprod heps i j hi hj]

/-- C6 at a `3 × 3` rational matrix. -/
theorem lu_reconstructs_witness :
    ((0 : ℚ) < 1 / 1000 ∧ lu33.WF ∧ lu33.rows < 2 ^ 64 ∧
      luDecomposition (1 / 1000) lu33
        = .ok (⟨[[1, 0, 0], [2, 1, 0], [4, 3, 1]], 3, 3⟩,
               ⟨[[2, 1, 1], [0, 1, 1], [0, 0, 2]], 3, 3⟩)) ∧
    (⟨[[1, 0, 0], [2, 1, 0], [4, 3, 1]], 3, 3⟩ : Matrix ℚ).mul
        ⟨[[2, 1, 1], [0, 1, 1], [0, 0, 2]], 3, 3⟩ = .ok lu33 :=
  ⟨by decide!, lu_reconstructs (1 / 1000) (by decide!) lu33 _ _ (by decide!) (by decide!)
    (by decide!)⟩

/-- C7: for every rectangular matrix `A` on which `luDecomposition` returns
`(L, U)`, both are rectangular with the shape of `A`, `L` has ones on the
diagonal and zeros above it, and `U` has exact zeros below the diagonal, over
an ordered field with a positive machine epsilon. -/
theorem lu_triangular [LinearOrderedField α] (eps : α) (heps : 0 < eps)
    (A L U : Matrix α) (hA : A.WF) (hsz : A.rows < 2 ^ 64)
    (h : luDecomposition eps A = .ok (L, U)) :
    (L.WF ∧ L.rows = A.rows ∧ L.cols = A.cols) ∧
    (U.WF ∧ U.rows = A.rows ∧ U.cols = A.cols) ∧
    (∀ i, i < A.rows → L.get i i = 1) ∧
    (∀ i j, i < A.rows → j < A.cols → j > i → L.get i j = 0) ∧
    (∀ i j, i < A.rows → j < A.cols → i > j → U.get i j = 0) := by
  obtain ⟨hsq, hL, hU, -, hdiag, hupper, hzero, -⟩ := luDecomposition_spec hA hsz h
  refine ⟨⟨hL.1, hL.2.1, hL.2.2.trans hsq⟩, ⟨hU.1, hU.2.1, hU.2.2.trans hsq⟩, hdiag, ?_, ?_⟩
  · intro i j hi hj hij
    exact hupper i j hi (hsq ▸ hj) hij
  · intro i j hi hj hij
    exact hzero heps i j hi (hsq ▸ hj) hij

/-- C7 at a `3 × 3` rational matrix. -/
theorem lu_triangular_witness :
    ((0 : ℚ) < 1 / 1000 ∧ lu33.WF ∧ lu33.rows < 2 ^ 64) ∧
    ∃ L U, luDecomposition (1 / 1000) lu33 = .ok (L, U) ∧
      (L.WF ∧ L.rows = lu33.rows ∧ L.cols = lu33.cols) ∧
      (U.WF ∧ U.rows = lu33.rows ∧ U.cols = lu33.cols) ∧
      (∀ i, i < lu33.rows → L.get i i = 1) ∧
      (∀ i j, i < lu33.rows → j < lu33.cols → j > i → L.get i j = 0) ∧
      (∀ i j, i < lu33.rows → j < lu33.cols → i > j → U.get i j = 0) :=
  ⟨by decide!, ⟨[[1, 0, 0], [2, 1, 0], [4, 3, 1]], 3, 3⟩,
    ⟨[[2, 1, 1], [0, 1, 1], [0, 0, 2]], 3, 3⟩, by decide!,
    lu_triangular (1 / 1000) (by decide!) lu33 _ _ (by decide!) (by decide!) (by decide!)⟩

/-- C8 fails as stated: on the singular matrix `[[1,1],[1,1]]` `luDecomposition`
returns, and the last diagonal entry of the returned `U` is `0`, below epsilon:
the pivot test sits in the elimination loop, which never reaches the last row. -/
theorem lu_last_pivot_counterexample :
    luDecomposition (1 / 1000) ones22
      = .ok (⟨[[1, 0], [1, 1]], 2, 2⟩, ⟨[[1, 1], [0, 0]], 2, 2⟩) ∧
    |(⟨[[1, 1], [0, 0]], 2, 2⟩ : Matrix ℚ).get 1 1| < 1 / 1000 := by
  decide!

/-- C8, amended: whenever `luDecomposition` returns `(L, U)` for an `n × n`
matrix, every diagonal entry `U[k][k]` with `0 ≤ k < n - 1`, that is every
entry the elimination divides by, has magnitude at least epsilon. -/
theorem lu_pivots_checked [LinearOrderedField α] (eps : α) (A L U : Matrix α) (hA : A.WF)
    (hsz : A.rows < 2 ^ 64) (h : luDecomposition eps A = .ok (L, U)) :
    ∀ k, k + 1 < A.rows → eps ≤ |U.get k k| := by
  obtain ⟨-, -, -, -, -, -, -, hpiv⟩ := luDecomposition_spec hA hsz h
  exact hpiv

/-- C8, amended, at the all-ones `2 × 2` matrix. -/
theorem lu_pivots_checked_witness :
    (ones22.WF ∧ ones22.rows < 2 ^ 64 ∧
      luDecomposition (1 / 1000) ones22
        = .ok (⟨[[1, 0], [1, 1]], 2, 2⟩, ⟨[[1, 1], [0, 0]], 2, 2⟩)) ∧
    ∀ k, k + 1 < ones22.rows →
      (1 / 1000 : ℚ) ≤ |(⟨[[1, 1], [0, 0]], 2, 2⟩ : Matrix ℚ).get k k| :=
  ⟨by decide!, lu_pivots_checked (1 / 1000) ones22 ⟨[[1, 0], [1, 1]], 2, 2⟩
    ⟨[[1, 1], [0, 0]], 2, 2⟩ (by decide!) (by decide!) (by decide!)⟩

/-- C9: the exchange matrix `[[0,1],[1,0]]` is invertible (its determinant is
`-1`, by the Leibniz sum and by `determinant`), and `luDecomposition` fails on
it with `std::runtime_error` for every positive epsilon: the first pivot is `0`
and no row exchange is attempted. -/
theorem lu_rejects_invertible :
    swap22.WF ∧ swap22.rows = swap22.cols ∧ swap22.leibnizDet = -1 ∧
    ∀ eps : ℚ, 0 < eps →
      determinant eps swap22 = .ok (-1) ∧
      luDecomposition eps swap22 = .error .runtime_error := by
  refine ⟨by decide, by decide, ?_, ?_⟩
  · simp [Matrix.leibnizDet, Matrix.det_fin_two, swap22, Matrix.get]
  · intro eps heps
    constructor
    · simp [determinant, swap22, Matrix.get]
    · simp [luDecomposition, forRangeM, luStep, swap22, Matrix.get, heps, List.range']

/-- C10: for every rectangular square matrix of order 1, 2 or 3, `determinant()`
does not fail and returns the mathematical (Leibniz) determinant of the matrix. -/
theorem determinant_small [LinearOrderedField α] (eps : α) (A : Matrix α) (_hA : A.WF)
    (hsq : A.rows = A.cols) (hn : A.rows = 1 ∨ A.rows = 2 ∨ A.rows = 3) :
    determinant eps A = .ok A.leibnizDet := by
  obtain ⟨d, r, c⟩ := A
  simp only at hsq hn
  subst hsq
  exact determinant_closed_form eps r hn d

/-- C10 at the known-value scenario `determinant([[1,2],[3,4]]) = -2`. -/
theorem determinant_small_witness :
    (knownDet.WF ∧ knownDet.rows = knownDet.cols ∧
      (knownDet.rows = 1 ∨ knownDet.rows = 2 ∨ knownDet.rows = 3)) ∧
    determinant (1 / 1000) knownDet = .ok knownDet.leibnizDet ∧
    determinant (1 / 1000) knownDet = .ok (-2) :=
  ⟨by decide, determinant_small (1 / 1000) knownDet (by decide) (by decide) (by decide),
    by decide!⟩

/-! ## Determinant through LU -/

/-- C11: for every rectangular square matrix `A` of order `n ≥ 4`, `determinant()`
returns the product of the diagonal of the `U` factor whenever `luDecomposition`
returns `(L, U)`, that product is the mathematical (Leibniz) determinant of `A`,
and an exception of `luDecomposition` propagates (ordered field, epsilon > 0). -/
theorem determinant_via_lu [LinearOrderedField α] (eps : α) (heps : 0 < eps)
    (A : Matrix α) (hA : A.WF) (hsq : A.rows = A.cols) (hn : 4 ≤ A.rows)
    (hsz : A.rows < 2 ^ 64) :
    (∀ L U, luDecomposition eps A = .ok (L, U) →
      determinant eps A = .ok (∏ i ∈ Finset.range A.rows, U.get i i) ∧
      ∏ i ∈ Finset.range A.rows, U.get i i = A.leibnizDet) ∧
    (∀ e, luDecomposition eps A = .error e → determinant eps A = .error e) := by
  have hdet : determinant eps A = determinantLU eps A := by
    unfold determinant
    rw [if_neg (not_not.mpr hsq), if_neg (by omega), if_neg (by omega), if_neg (by omega)]
  constructor
  · intro L U h
    rw [hdet]
    exact determinantLU_eq heps hA hsz h
  · intro e h
    rw [hdet]
    unfold determinantLU
    rw [h]

/-- C11 at a `4 × 4` rational matrix of determinant `-2`. -/
theorem determinant_via_lu_witness :
    ((0 : ℚ) < 1 / 1000 ∧ lu44.WF ∧ lu44.rows = lu44.cols ∧ 4 ≤ lu44.rows ∧
      lu44.rows < 2 ^ 64) ∧
    ((∀ L U, luDecomposition (1 / 1000) lu44 = .ok (L, U) →
      determinant (1 / 1000) lu44 = .ok (∏ i ∈ Finset.range lu44.rows, U.get i i) ∧
      ∏ i ∈ Finset.range lu44.rows, U.get i i = lu44.leibnizDet) ∧
    (∀ e, luDecomposition (1 / 1000) lu44 = .error e →
      determinant (1 / 1000) lu44 = .error e)) ∧
    determinant (1 / 1000) lu44 = .ok (-2) :=
  ⟨by decide!,
    determinant_via_lu (1 / 1000) (by decide!) lu44 (by decide!) (by decide!) (by decide!)
      (by decide!),
    by decide!⟩

/-! ## Inverse -/

/-- C13 fails as stated: `corner44` is invertible, `determinant()` returns `-1`
for it and `inverse()` returns its inverse, but `determinant()` of that inverse
fails: cell `(0, 0)` of the inverse is zero and `luDecomposition` does not
exchange rows. -/
theorem det_inverse_counterexample :
    corner44.WF ∧ corner44.mul corner44Inv = .ok (Matrix.identity 4) ∧
    determinant (1 / 1000) corner44 = .ok (-1) ∧
    inverse (1 / 1000) corner44 = .ok corner44Inv ∧
    determinant (1 / 1000) corner44Inv = .error .runtime_error := by
  decide!

/-- C13, amended: for every rectangular square matrix `A` on which
`determinant()` returns a value `d` of magnitude at least epsilon, `inverse(A)`
is returned; whenever `determinant(inverse(A))` is returned too, its product
with `d` is 1; and it is returned whenever the order is 1, 2 or 3 (ordered
field, epsilon > 0). -/
theorem det_inverse_product [LinearOrderedField α] (eps : α) (heps : 0 < eps)
    (A : Matrix α) (hA : A.WF) (hsq : A.rows = A.cols) (hsz : A.rows < 2 ^ 64) (d : α)
    (hd : determinant eps A = .ok d) (hmag : eps ≤ |d|) :
    ∃ B, inverse eps A = .ok B ∧
      (∀ d', determinant eps B = .ok d' → d * d' = 1) ∧
      (A.rows = 1 ∨ A.rows = 2 ∨ A.rows = 3 → ∃ d', determinant eps B = .ok d') := by
  obtain ⟨B, h1, h2, -, h3⟩ := mul_inverse heps hA hsq hsz hd hmag
  refine ⟨B, h1, ?_, ?_⟩
  · intro d' hd'
    rw [determinant_ok_eq heps hA hsq hsz hd,
      determinant_ok_eq heps h2.1 (h2.2.1.trans h2.2.2.symm) (by rw [h2.2.1]; exact hsz) hd']
    exact det_mul_of_right_inverse h2.2.1 h3
  · intro hn
    obtain ⟨dat, r, c⟩ := B
    obtain ⟨-, hr, hc⟩ := h2
    simp only at hr hc
    subst hr
    subst hc
    exact ⟨_, determinant_closed_form eps _ hn dat⟩

/-- C13, amended, at a `2 × 2` matrix of determinant 2, whose inverse has
determinant `1/2`. -/
theorem det_inverse_product_witness :
    ((0 : ℚ) < 1 / 1000 ∧ det2.WF ∧ det2.rows = det2.cols ∧ det2.rows < 2 ^ 64 ∧
      determinant (1 / 1000) det2 = .ok 2 ∧ (1 / 1000 : ℚ) ≤ |2|) ∧
    (∃ B, inverse (1 / 1000) det2 = .ok B ∧
      (∀ d', determinant (1 / 1000) B = .ok d' → 2 * d' = 1) ∧
      (det2.rows = 1 ∨ det2.rows = 2 ∨ det2.rows = 3 →
        ∃ d', determinant (1 / 1000) B = .ok d')) ∧
    inverse (1 / 1000) det2 = .ok ⟨[[3 / 2, -1 / 2], [-2, 1]], 2, 2⟩ ∧
    determinant (1 / 1000) (⟨[[3 / 2, -1 / 2], [-2, 1]], 2, 2⟩ : Matrix ℚ) = .ok (1 / 2) :=
  ⟨by decide!,
    det_inverse_product (1 / 1000) (by decide!) det2 (by decide!) (by decide!) (by decide!)
      2 (by decide!) (by decide!),
    by decide!, by decide!⟩

/-- C14: for every rectangular square matrix of order `n ≥ 1` whose mathematical
determinant is zero, `inverse()` fails with `std::runtime_error`: either
`determinant()` returns zero and the epsilon test rejects it, or, for `n ≥ 4`,
`luDecomposition` itself raises that error (ordered field, epsilon > 0). -/
theorem inverse_singular [LinearOrderedField α] (eps : α) (heps : 0 < eps) (A : Matrix α)
    (hA : A.WF) (hsq : A.rows = A.cols) (_hn : 1 ≤ A.rows) (hsz : A.rows < 2 ^ 64)
    (hdet : A.leibnizDet = 0) : inverse eps A = .error .runtime_error :=
  inverse_of_singular heps hA hsq hsz hdet

/-- C14 at the known-value scenario: inverting `[[1,1],[1,1]]` fails. -/
theorem inverse_singular_witness :
    ((0 : ℚ) < 1 / 1000 ∧ ones22.WF ∧ ones22.rows = ones22.cols ∧ 1 ≤ ones22.rows ∧
      ones22.rows < 2 ^ 64 ∧ ones22.leibnizDet = 0) ∧
    inverse (1 / 1000) ones22 = .error .runtime_error := by
  have hdet : ones22.leibnizDet = 0 := by
    simp [Matrix.leibnizDet, Matrix.det_fin_two, ones22, Matrix.get]
  exact ⟨⟨by decide!, by decide, by decide, by decide, by decide, hdet⟩,
    inverse_singular (1 / 1000) (by decide!) ones22 (by decide) (by decide) (by decide)
      (by decide) hdet⟩

/-- C15: for every rectangular matrix with `rows ≠ cols`, each of `determinant()`,
`inverse()`, `luDecomposition()` and `eigenvalues()` fails with
`std::invalid_argument`; for a square matrix none of them raises that error. -/
theorem square_only_operations [LinearOrderedField α] (sqrt : α → α) (eps : α)
    (A : Matrix α) (_hA : A.WF) :
    (A.rows ≠ A.cols →
      determinant eps A = .error .invalid_argument ∧
      inverse eps A = .error .invalid_argument ∧
      luDecomposition eps A = .error .invalid_argument ∧
      eigenvalues sqrt eps A = .error .invalid_argument) ∧
    (A.rows = A.cols →
      determinant eps A ≠ .error .invalid_argument ∧
      inverse eps A ≠ .error .invalid_argument ∧
      luDecomposition eps A ≠ .error .invalid_argument ∧
      eigenvalues sqrt eps A ≠ .error .invalid_argument) := by
  constructor
  · intro h
    refine ⟨?_, ?_, ?_, ?_⟩
    · unfold determinant; rw [if_pos h]
    · unfold inverse; rw [if_pos h]
    · unfold luDecomposition; rw [if_pos h]
    · unfold eigenvalues; rw [if_pos h]
  · intro h
    refine ⟨?_, ?_, ?_, ?_⟩
    · intro he
      exact absurd (determinant_error_kind h he) (by decide)
    · intro he
      exact absurd (inverse_error_kind h he) (by decide)
    · intro he
      exact absurd (lu_error_kind h he) (by decide)
    · intro he
      obtain ⟨v, hv⟩ := eigenvalues_square sqrt eps A h
      rw [hv] at he
      cases he

/-- C15 at a `2 × 3` rational matrix. -/
theorem square_only_operations_witness :
    rect23q.WF ∧
    ((rect23q.rows ≠ rect23q.cols →
      determinant (1 / 1000) rect23q = .error .invalid_argument ∧
      inverse (1 / 1000) rect23q = .error .invalid_argument ∧
      luDecomposition (1 / 1000) rect23q = .error .invalid_argument ∧
      eigenvalues ratSqrt (1 / 1000) rect23q = .error .invalid_argument) ∧
    (rect23q.rows = rect23q.cols →
      determinant (1 / 1000) rect23q ≠ .error .invalid_argument ∧
      inverse (1 / 1000) rect23q ≠ .error .invalid_argument ∧
      luDecomposition (1 / 1000) rect23q ≠ .error .invalid_argument ∧
      eigenvalues ratSqrt (1 / 1000) rect23q ≠ .error .invalid_argument)) ∧
    rect23q.rows ≠ rect23q.cols :=
  ⟨by decide, square_only_operations ratSqrt (1 / 1000) rect23q (by decide), by decide⟩

/-! ## Trace -/

/-- C16: for every rectangular matrix, `trace()` returns the sum of the diagonal
cells `A[i][i]`, `i < n`, when the matrix is square of order `n` (so `0` for
`n = 0`), fails with `std::invalid_argument` when it is not square, and fails
in no other case. -/
theorem trace_diagonal [CommRing α] (A : Matrix α) (_hA : A.WF) :
    (A.rows = A.cols → trace A = .ok (∑ i ∈ Finset.range A.rows, A.get i i)) ∧
    (A.rows = A.cols → A.rows = 0 → trace A = .ok 0) ∧
    (A.rows ≠ A.cols → trace A = .error .invalid_argument) ∧
    (∀ e, trace A = .error e → A.rows ≠ A.cols ∧ e = .invalid_argument) := by
  refine ⟨trace_eq_sum A, ?_, ?_, ?_⟩
  · intro h h0
    rw [trace_eq_sum A h, h0, Finset.sum_range_zero]
  · intro h
    unfold trace
    rw [if_pos h]
  · intro e he
    by_cases h : A.rows = A.cols
    · rw [trace_eq_sum A h] at he
      cases he
    · unfold trace at he
      rw [if_pos h] at he
      exact ⟨h, (Except.error.inj he).symm⟩

/-- C16 at a square and at a non-square integer matrix. -/
theorem trace_diagonal_witness :
    knownA.WF ∧
    ((knownA.rows = knownA.cols →
        trace knownA = .ok (∑ i ∈ Finset.range knownA.rows, knownA.get i i)) ∧
      (knownA.rows = knownA.cols → knownA.rows = 0 → trace knownA = .ok 0) ∧
      (knownA.rows ≠ knownA.cols → trace knownA = .error .invalid_argument) ∧
      (∀ e, trace knownA = .error e → knownA.rows ≠ knownA.cols ∧ e = .invalid_argument)) ∧
    trace knownA = .ok 5 ∧ trace rect23 = .error .invalid_argument :=
  ⟨by decide, trace_diagonal knownA (by decide), by decide, by decide⟩

/-! ## QR decomposition -/

/-- C17 fails as stated: in exact real arithmetic with epsilon `1 / 1000`, the
matrix `[[1/2000]]` has `Q = [[1/2000]]`, `R = [[0]]`, and `Q * R = [[0]]`. -/
theorem qr_product_counterexample :
    qrDecomposition Real.sqrt (1 / 1000) (⟨[[1 / 2000]], 1, 1⟩ : Matrix ℝ)
      = (⟨[[1 / 2000]], 1, 1⟩, ⟨[[0]], 1, 1⟩) ∧
    (⟨[[1 / 2000]], 1, 1⟩ : Matrix ℝ).mul ⟨[[0]], 1, 1⟩ = .ok ⟨[[0]], 1, 1⟩ ∧
    (⟨[[0]], 1, 1⟩ : Matrix ℝ) ≠ ⟨[[1 / 2000]], 1, 1⟩ := by
  refine ⟨qr_tiny_eval, ?_, ?_⟩
  · simp [Matrix.mul, mulDirect, dotLoop, forRange, BLOCK_SIZE, Matrix.new, Matrix.set,
      Matrix.get, List.range']
  · simp

/-- C18 fails as stated: the matrix `[[1/2000]]` has full rank (non-zero
determinant), but with epsilon `1 / 1000` its `Q = [[1/2000]]` is not
normalised: `transpose(Q) * Q = [[1/4000000]]`, not the identity. -/
theorem qr_orthonormal_counterexample :
    (⟨[[1 / 2000]], 1, 1⟩ : Matrix ℝ).leibnizDet ≠ 0 ∧
    (qrDecomposition Real.sqrt (1 / 1000) (⟨[[1 / 2000]], 1, 1⟩ : Matrix ℝ)).1
      = ⟨[[1 / 2000]], 1, 1⟩ ∧
    (⟨[[1 / 2000]], 1, 1⟩ : Matrix ℝ).transpose.mul ⟨[[1 / 2000]], 1, 1⟩
      = .ok ⟨[[1 / 4000000]], 1, 1⟩ ∧
    (⟨[[1 / 4000000]], 1, 1⟩ : Matrix ℝ) ≠ Matrix.identity 1 := by
  refine ⟨?_, by rw [qr_tiny_eval], ?_, ?_⟩
  · simp [Matrix.leibnizDet, Matrix.get]
  · simp [Matrix.mul, mulDirect, dotLoop, forRange, BLOCK_SIZE, Matrix.new, Matrix.set,
      Matrix.get, Matrix.transpose, List.range']
    norm_num
  · simp [Matrix.identity, forRange, Matrix.new, Matrix.set, List.range']

/-- C19 fails as stated: for `[[1/2000]]` with epsilon `1 / 1000` the residual
norm of column 0 is `1/2000`, below epsilon, `R[0][0] = 0`, and column 0 of the
returned `Q` is `1/2000`, not zero. -/
theorem qr_degenerate_counterexample :
    qrNorm Real.sqrt (⟨[[1 / 2000]], 1, 1⟩ : Matrix ℝ)
      (qrDecomposition Real.sqrt (1 / 1000) ⟨[[1 / 2000]], 1, 1⟩).1
      (qrDecomposition Real.sqrt (1 / 1000) ⟨[[1 / 2000]], 1, 1⟩).2 0 < 1 / 1000 ∧
    (qrDecomposition Real.sqrt (1 / 1000) (⟨[[1 / 2000]], 1, 1⟩ : Matrix ℝ)).2.get 0 0 = 0 ∧
    (qrDecomposition Real.sqrt (1 / 1000) (⟨[[1 / 2000]], 1, 1⟩ : Matrix ℝ)).1.get 0 0
      = 1 / 2000 ∧
    (qrDecomposition Real.sqrt (1 / 1000) (⟨[[1 / 2000]], 1, 1⟩ : Matrix ℝ)).1.get 0 0 ≠ 0 := by
  rw [qr_tiny_eval]
  have hs : Real.sqrt (2000⁻¹ * 2000⁻¹) = 2000⁻¹ := Real.sqrt_mul_self (by norm_num)
  refine ⟨?_, ?_, ?_, ?_⟩
  · simp [qrNorm, qrResidual, Matrix.get, hs]
    norm_num
  · simp [Matrix.get]
  · simp [Matrix.get]
  · simp [Matrix.get]

/-- C17, amended: for every rectangular matrix `A`, with `(Q, R)` returned by
`qrDecomposition`, `Q * R` has the shape of `A` and agrees with `A` in every
column `j` that was normalised (`R[j][j] ≠ 0`, the residual norm exceeded
epsilon); in a column left unnormalised (`R[j][j] = 0`) it is `A` minus the
residual left in column `j` of `Q`.  So `Q * R` is `A` when every column was
normalised (ordered field, any `sqrt`, epsilon ≥ 0). -/
theorem qr_product [LinearOrderedField α] (sqrt : α → α) (eps : α) (heps : 0 ≤ eps)
    (A : Matrix α) (hA : A.WF) :
    (∃ P, (qrDecomposition sqrt eps A).1.mul (qrDecomposition sqrt eps A).2 = .ok P ∧
      P.WF ∧ P.rows = A.rows ∧ P.cols = A.cols ∧
      ∀ i j, i < A.rows → j < A.cols →
        P.get i j = if (qrDecomposition sqrt eps A).2.get j j = 0
          then A.get i j - (qrDecomposition sqrt eps A).1.get i j else A.get i j) ∧
    ((∀ j, j < A.cols → (qrDecomposition sqrt eps A).2.get j j ≠ 0) →
      (qrDecomposition sqrt eps A).1.mul (qrDecomposition sqrt eps A).2 = .ok A) := by
  obtain ⟨hQ, hR, hcols⟩ := qrDecomposition_spec sqrt eps A
  obtain ⟨P, h1, h2, h3⟩ := mul_spec (qrDecomposition sqrt eps A).1
    (qrDecomposition sqrt eps A).2 (hQ.2.2.trans hR.2.1.symm)
  rw [hQ.2.1, hR.2.2] at h2 h3
  rw [hQ.2.2] at h3
  have hcell : ∀ i j, i < A.rows → j < A.cols →
      P.get i j = if (qrDecomposition sqrt eps A).2.get j j = 0
        then A.get i j - (qrDecomposition sqrt eps A).1.get i j else A.get i j := by
    intro i j hi hj
    rw [h3 i j hi hj]
    exact qr_product_cell heps hj (hcols j hj) i hi
  refine ⟨⟨P, h1, h2.1, h2.2.1, h2.2.2, hcell⟩, ?_⟩
  intro hfull
  rw [h1]
  congr 1
  apply Matrix.ext_get h2 ⟨hA, rfl, rfl⟩
  intro i j hi hj
  rw [hcell i j hi hj, if_neg (hfull j hj)]

/-- C17, amended, at the real matrix `[[3], [4]]`, whose column is normalised:
`Q = [[3/5], [4/5]]`, `R = [[5]]`. -/
theorem qr_product_witness :
    ((0 : ℝ) ≤ 1 / 1000 ∧ (⟨[[3], [4]], 2, 1⟩ : Matrix ℝ).WF) ∧
    ((∃ P, (qrDecomposition Real.sqrt (1 / 1000) (⟨[[3], [4]], 2, 1⟩ : Matrix ℝ)).1.mul
          (qrDecomposition Real.sqrt (1 / 1000) (⟨[[3], [4]], 2, 1⟩ : Matrix ℝ)).2 = .ok P ∧
      P.WF ∧ P.rows = (⟨[[3], [4]], 2, 1⟩ : Matrix ℝ).rows ∧
      P.cols = (⟨[[3], [4]], 2, 1⟩ : Matrix ℝ).cols ∧
      ∀ i j, i < (⟨[[3], [4]], 2, 1⟩ : Matrix ℝ).rows →
        j < (⟨[[3], [4]], 2, 1⟩ : Matrix ℝ).cols →
        P.get i j
          = if (qrDecomposition Real.sqrt (1 / 1000)
                (⟨[[3], [4]], 2, 1⟩ : Matrix ℝ)).2.get j j = 0
            then (⟨[[3], [4]], 2, 1⟩ : Matrix ℝ).get i j
              - (qrDecomposition Real.sqrt (1 / 1000)
                  (⟨[[3], [4]], 2, 1⟩ : Matrix ℝ)).1.get i j
            else (⟨[[3], [4]], 2, 1⟩ : Matrix ℝ).get i j) ∧
    ((∀ j, j < (⟨[[3], [4]], 2, 1⟩ : Matrix ℝ).cols →
        (qrDecomposition Real.sqrt (1 / 1000) (⟨[[3], [4]], 2, 1⟩ : Matrix ℝ)).2.get j j ≠ 0) →
      (qrDecomposition Real.sqrt (1 / 1000) (⟨[[3], [4]], 2, 1⟩ : Matrix ℝ)).1.mul
          (qrDecomposition Real.sqrt (1 / 1000) (⟨[[3], [4]], 2, 1⟩ : Matrix ℝ)).2
        = .ok ⟨[[3], [4]], 2, 1⟩)) :=
  ⟨⟨by norm_num, by decide⟩,
    qr_product Real.sqrt (1 / 1000) (by norm_num) ⟨[[3], [4]], 2, 1⟩ (by decide)⟩

/-- C18, amended: for every rectangular matrix `A` every column of which was
normalised by `qrDecomposition` (`R[j][j] ≠ 0` for every `j`, that is every
residual norm exceeded epsilon), the returned `Q` has orthonormal columns:
`transpose(Q) * Q` returns `identity(cols)` (ordered field with an exact square
root, epsilon ≥ 0). -/
theorem qr_orthonormal [LinearOrderedField α] (sqrt : α → α)
    (hsqrt : ∀ x, 0 ≤ x → sqrt x * sqrt x = x) (eps : α) (heps : 0 ≤ eps)
    (A : Matrix α) (_hA : A.WF)
    (hfull : ∀ j, j < A.cols → (qrDecomposition sqrt eps A).2.get j j ≠ 0) :
    (qrDecomposition sqrt eps A).1.transpose.mul (qrDecomposition sqrt eps A).1
      = .ok (Matrix.identity A.cols) := by
  obtain ⟨hQ, -, hcols⟩ := qrDecomposition_spec sqrt eps A
  obtain ⟨hT, hTg⟩ := transpose_spec (qrDecomposition sqrt eps A).1
  obtain ⟨hIs, hIg⟩ := identity_spec (α := α) A.cols
  rw [hQ.2.1, hQ.2.2] at hT hTg
  obtain ⟨P, h1, h2, h3⟩ := mul_spec (qrDecomposition sqrt eps A).1.transpose
    (qrDecomposition sqrt eps A).1 (hT.2.2.trans hQ.2.1.symm)
  rw [hT.2.1, hQ.2.2] at h2 h3
  rw [hT.2.2] at h3
  rw [h1]
  congr 1
  apply Matrix.ext_get h2 hIs
  intro a b ha hb
  have hsum : ∑ k ∈ Finset.range A.rows,
      (qrDecomposition sqrt eps A).1.transpose.get a k * (qrDecomposition sqrt eps A).1.get k b
      = ∑ k ∈ Finset.range A.rows,
        (qrDecomposition sqrt eps A).1.get k a * (qrDecomposition sqrt eps A).1.get k b :=
    Finset.sum_congr rfl (fun k hk => by rw [hTg k a (Finset.mem_range.mp hk) ha])
  rw [h3 a b ha hb, hsum, hIg a b ha hb]
  rcases lt_trichotomy a b with h | h | h
  · rw [if_neg (Nat.ne_of_lt h)]
    exact (qr_gram hsqrt heps hcols hfull b hb).1 a h
  · rw [if_pos h, h]
    exact (qr_gram hsqrt heps hcols hfull b hb).2
  · rw [if_neg (Nat.ne_of_gt h), Finset.sum_congr rfl (fun i _ => mul_comm _ _)]
    exact (qr_gram hsqrt heps hcols hfull a ha).1 b h

/-- C18, amended, at the real matrix `[[3], [4]]`. -/
theorem qr_orthonormal_witness :
    ((∀ x : ℝ, 0 ≤ x → Real.sqrt x * Real.sqrt x = x) ∧ (0 : ℝ) ≤ 1 / 1000 ∧
      (⟨[[3], [4]], 2, 1⟩ : Matrix ℝ).WF ∧
      ∀ j, j < (⟨[[3], [4]], 2, 1⟩ : Matrix ℝ).cols →
        (qrDecomposition Real.sqrt (1 / 1000) (⟨[[3], [4]], 2, 1⟩ : Matrix ℝ)).2.get j j ≠ 0) ∧
    (qrDecomposition Real.sqrt (1 / 1000) (⟨[[3], [4]], 2, 1⟩ : Matrix ℝ)).1.transpose.mul
        (qrDecomposition Real.sqrt (1 / 1000) (⟨[[3], [4]], 2, 1⟩ : Matrix ℝ)).1
      = .ok (Matrix.identity (⟨[[3], [4]], 2, 1⟩ : Matrix ℝ).cols) := by
  have hfull : ∀ j, j < (⟨[[3], [4]], 2, 1⟩ : Matrix ℝ).cols →
      (qrDecomposition Real.sqrt (1 / 1000) (⟨[[3], [4]], 2, 1⟩ : Matrix ℝ)).2.get j j ≠ 0 := by
    intro j hj
    have hj0 : j = 0 := by simpa using hj
    rw [qr_col34_eval, hj0]
    simp [Matrix.get]
  exact ⟨⟨fun x hx => Real.mul_self_sqrt hx, by norm_num, by decide, hfull⟩,
    qr_orthonormal Real.sqrt (fun x hx => Real.mul_self_sqrt hx) (1 / 1000) (by norm_num)
      ⟨[[3], [4]], 2, 1⟩ (by decide) hfull⟩

/-- C19, amended: for every rectangular matrix and every column `j` whose
residual norm does not exceed epsilon, `R[j][j] = 0` and column `j` of the
returned `Q` is the residual itself, unnormalised (the zero column only when
the residual is zero); `qrDecomposition` raises no error. -/
theorem qr_degenerate [LinearOrderedField α] (sqrt : α → α) (eps : α) (A : Matrix α)
    (_hA : A.WF) (j : Nat) (hj : j < A.cols)
    (hnorm : ¬ eps < qrNorm sqrt A (qrDecomposition sqrt eps A).1
      (qrDecomposition sqrt eps A).2 j) :
    (qrDecomposition sqrt eps A).2.get j j = 0 ∧
    ∀ i, i < A.rows → (qrDecomposition sqrt eps A).1.get i j
      = qrResidual A (qrDecomposition sqrt eps A).1 (qrDecomposition sqrt eps A).2 j i :=
  ((qrDecomposition_spec sqrt eps A).2.2 j hj).degenerate hnorm

/-- C19, amended, at `[[1/2000]]` with epsilon `1 / 1000`. -/
theorem qr_degenerate_witness :
    ((⟨[[1 / 2000]], 1, 1⟩ : Matrix ℝ).WF ∧ 0 < (⟨[[1 / 2000]], 1, 1⟩ : Matrix ℝ).cols ∧
      ¬ (1 / 1000 : ℝ) < qrNorm Real.sqrt (⟨[[1 / 2000]], 1, 1⟩ : Matrix ℝ)
        (qrDecomposition Real.sqrt (1 / 1000) ⟨[[1 / 2000]], 1, 1⟩).1
        (qrDecomposition Real.sqrt (1 / 1000) ⟨[[1 / 2000]], 1, 1⟩).2 0) ∧
    ((qrDecomposition Real.sqrt (1 / 1000) (⟨[[1 / 2000]], 1, 1⟩ : Matrix ℝ)).2.get 0 0 = 0 ∧
    ∀ i, i < (⟨[[1 / 2000]], 1, 1⟩ : Matrix ℝ).rows →
      (qrDecomposition Real.sqrt (1 / 1000) (⟨[[1 / 2000]], 1, 1⟩ : Matrix ℝ)).1.get i 0
        = qrResidual (⟨[[1 / 2000]], 1, 1⟩ : Matrix ℝ)
          (qrDecomposition Real.sqrt (1 / 1000) ⟨[[1 / 2000]], 1, 1⟩).1
          (qrDecomposition Real.sqrt (1 / 1000) ⟨[[1 / 2000]], 1, 1⟩).2 0 i) := by
  have hnorm : ¬ (1 / 1000 : ℝ) < qrNorm Real.sqrt (⟨[[1 / 2000]], 1, 1⟩ : Matrix ℝ)
      (qrDecomposition Real.sqrt (1 / 1000) ⟨[[1 / 2000]], 1, 1⟩).1
      (qrDecomposition Real.sqrt (1 / 1000) ⟨[[1 / 2000]], 1, 1⟩).2 0 := by
    have hs : Real.sqrt (2000⁻¹ * 2000⁻¹) = 2000⁻¹ := Real.sqrt_mul_self (by norm_num)
    rw [qr_tiny_eval]
    simp [qrNorm, qrResidual, Matrix.get, hs]
    norm_num
  exact ⟨⟨by decide, by decide, hnorm⟩,
    qr_degenerate Real.sqrt (1 / 1000) ⟨[[1 / 2000]], 1, 1⟩ (by decide) 0 (by decide) hnorm⟩

/-- C20: for every rectangular `rows × cols` matrix, `qrDecomposition` (a total
function: the source has no `throw` on this path) returns a rectangular `Q` of
shape `rows × cols` and a rectangular `R` of shape `cols × cols` with
`R[i][j] = 0` for every `i > j`. -/
theorem qr_shapes [LinearOrderedField α] (sqrt : α → α) (eps : α) (A : Matrix α)
    (_hA : A.WF) :
    ((qrDecomposition sqrt eps A).1.WF ∧ (qrDecomposition sqrt eps A).1.rows = A.rows ∧
      (qrDecomposition sqrt eps A).1.cols = A.cols) ∧
    ((qrDecomposition sqrt eps A).2.WF ∧ (qrDecomposition sqrt eps A).2.rows = A.cols ∧
      (qrDecomposition sqrt eps A).2.cols = A.cols) ∧
    ∀ i j, i < A.cols → j < A.cols → i > j → (qrDecomposition sqrt eps A).2.get i j = 0 := by
  obtain ⟨hQ, hR, hcols⟩ := qrDecomposition_spec sqrt eps A
  exact ⟨hQ, hR, fun i j _ hj hij => (hcols j hj).below i hij⟩

/-- C20 at the real matrix `[[3], [4]]`. -/
theorem qr_shapes_witness :
    (⟨[[3], [4]], 2, 1⟩ : Matrix ℝ).WF ∧
    (((qrDecomposition Real.sqrt (1 / 1000) (⟨[[3], [4]], 2, 1⟩ : Matrix ℝ)).1.WF ∧
      (qrDecomposition Real.sqrt (1 / 1000) (⟨[[3], [4]], 2, 1⟩ : Matrix ℝ)).1.rows
        = (⟨[[3], [4]], 2, 1⟩ : Matrix ℝ).rows ∧
      (qrDecomposition Real.sqrt (1 / 1000) (⟨[[3], [4]], 2, 1⟩ : Matrix ℝ)).1.cols
        = (⟨[[3], [4]], 2, 1⟩ : Matrix ℝ).cols) ∧
    ((qrDecomposition Real.sqrt (1 / 1000) (⟨[[3], [4]], 2, 1⟩ : Matrix ℝ)).2.WF ∧
      (qrDecomposition Real.sqrt (1 / 1000) (⟨[[3], [4]], 2, 1⟩ : Matrix ℝ)).2.rows
        = (⟨[[3], [4]], 2, 1⟩ : Matrix ℝ).cols ∧
      (qrDecomposition Real.sqrt (1 / 1000) (⟨[[3], [4]], 2, 1⟩ : Matrix ℝ)).2.cols
        = (⟨[[3], [4]], 2, 1⟩ : Matrix ℝ).cols) ∧
    ∀ i j, i < (⟨[[3], [4]], 2, 1⟩ : Matrix ℝ).cols →
      j < (⟨[[3], [4]], 2, 1⟩ : Matrix ℝ).cols → i > j →
      (qrDecomposition Real.sqrt (1 / 1000) (⟨[[3], [4]], 2, 1⟩ : Matrix ℝ)).2.get i j = 0) ∧
    qrDecomposition Real.sqrt (1 / 1000) (⟨[[3], [4]], 2, 1⟩ : Matrix ℝ)
      = (⟨[[3 / 5], [4 / 5]], 2, 1⟩, ⟨[[5]], 1, 1⟩) :=
  ⟨by decide, qr_shapes Real.sqrt (1 / 1000) ⟨[[3], [4]], 2, 1⟩ (by decide), qr_col34_eval⟩

/-! ## Eigenvalues -/

/-- C21: for a 2x2 matrix `[[a, b], [c, d]]` with `t = a + d`, `D = a*d - b*c` and
`disc = t*t - 4*D`, `eigenvalues` returns exactly two values (pairs of a real and an
imaginary part): `((t + sqrt disc)/2, 0)` and `((t - sqrt disc)/2, 0)` when `disc >= 0`,
the conjugate pair `(t/2, sqrt(-disc)/2)`, `(t/2, -sqrt(-disc)/2)` otherwise; with an exact
square root the two values, added and multiplied as complex numbers, give `t` and `D`. -/
theorem eigenvalues_two_by_two [LinearOrderedField α] (sqrt : α → α) (eps : α) (A : Matrix α)
    (hr : A.rows = 2) (hc : A.cols = 2)
    (hsqrt : ∀ x : α, 0 ≤ x → sqrt x * sqrt x = x) :
    let t := A.get 0 0 + A.get 1 1
    let D := A.get 0 0 * A.get 1 1 - A.get 0 1 * A.get 1 0
    let disc := t * t - 4 * D
    (0 ≤ disc → eigenvalues sqrt eps A
        = .ok [((t + sqrt disc) / 2, 0), ((t - sqrt disc) / 2, 0)]) ∧
    (disc < 0 → eigenvalues sqrt eps A
        = .ok [(t / 2, sqrt (-disc) / 2), (t / 2, -sqrt (-disc) / 2)]) ∧
    ∃ z w : α × α, eigenvalues sqrt eps A = .ok [z, w] ∧
      z.1 + w.1 = t ∧ z.2 + w.2 = 0 ∧
      z.1 * w.1 - z.2 * w.2 = D ∧ z.1 * w.2 + z.2 * w.1 = 0 := by
  intro t D disc
  have hsq : ¬ A.rows ≠ A.cols := by rw [hr, hc]; simp
  have h1 : ¬ A.rows = 1 := by rw [hr]; decide
  have hpos : 0 ≤ disc → eigenvalues sqrt eps A
      = .ok [((t + sqrt disc) / 2, 0), ((t - sqrt disc) / 2, 0)] := by
    intro h
    have h' : t * t - 4 * D ≥ 0 := h
    unfold eigenvalues
    rw [if_neg hsq, if_neg h1, if_pos hr]
    simp only [t, D] at h'
    simp only [h', if_true]
  have hneg : disc < 0 → eigenvalues sqrt eps A
      = .ok [(t / 2, sqrt (-disc) / 2), (t / 2, -sqrt (-disc) / 2)] := by
    intro h
    have h' : ¬ t * t - 4 * D ≥ 0 := not_le.mpr h
    unfold eigenvalues
    rw [if_neg hsq, if_neg h1, if_pos hr]
    simp only [t, D] at h'
    simp only [h', if_false]
  refine ⟨hpos, hneg, ?_⟩
  by_cases h : 0 ≤ disc
  · have hs := hsqrt disc h
    refine ⟨_, _, hpos h, ?_, ?_, ?_, ?_⟩
    · simp only; ring
    · simp
    · simp only
      have : (t + sqrt disc) / 2 * ((t - sqrt disc) / 2) = (t * t - sqrt disc * sqrt disc) / 4 := by
        ring
      rw [mul_zero, sub_zero, this, hs]
      simp only [disc]
      ring
    · simp
  · have hlt : disc < 0 := not_le.mp h
    have hs := hsqrt (-disc) (by linarith)
    refine ⟨_, _, hneg hlt, ?_, ?_, ?_, ?_⟩
    · simp only; ring
    · simp only; ring
    · simp only
      have : t / 2 * (t / 2) - sqrt (-disc) / 2 * (-sqrt (-disc) / 2)
          = (t * t + sqrt (-disc) * sqrt (-disc)) / 4 := by ring
      rw [this, hs]
      simp only [disc]
      ring
    · simp only; ring

/-- The example of C21 over the reals: `eigenvalues([[2, 0], [0, 3]])` is `3` then `2`,
both with imaginary part `0`; their sum is the trace `5` and their product is the
determinant `6`. -/
theorem eigenvalues_two_by_two_witness :
    eigenvalues Real.sqrt 0 (⟨[[2, 0], [0, 3]], 2, 2⟩ : Matrix ℝ) = .ok [(3, 0), (2, 0)] := by
  have h := (eigenvalues_two_by_two Real.sqrt 0 (⟨[[2, 0], [0, 3]], 2, 2⟩ : Matrix ℝ) rfl rfl
    (fun x hx => Real.mul_self_sqrt hx)).1
  simp only [Matrix.get, List.getD_cons_zero, List.getD_cons_succ] at h
  norm_num at h
  exact h

/-- C22: for a square matrix of order `n >= 3`, `eigenvalues` performs `k` passes
`A <- R * Q` of the QR iteration with `1 <= k <= 1000`, none of the passes before the
`k`-th leaves an off-diagonal absolute sum below `100 * eps`, the `k`-th does unless
`k = 1000`, and the result is the list of the `n` diagonal entries of the `k`-th iterate,
each with imaginary part `0`; the off-diagonal absolute sum is the sum of `|M[i][j]|`
over the cells with `i != j`. -/
theorem eigenvalues_qr_iteration [LinearOrderedField α] (sqrt : α → α) (eps : α)
    (A : Matrix α) (hsq : A.rows = A.cols) (hn : 3 ≤ A.rows) :
    ∃ (k : Nat) (it : Nat → Matrix α), 1 ≤ k ∧ k ≤ 1000 ∧ it 0 = A ∧
      (∀ m, m < k → (qrDecomposition sqrt eps (it m)).2.mul (qrDecomposition sqrt eps (it m)).1
        = .ok (it (m + 1))) ∧
      (∀ m, 1 ≤ m → m < k → ¬ offDiagonalSum A.rows A.cols (it m) < eps * 100) ∧
      (k < 1000 → offDiagonalSum A.rows A.cols (it k) < eps * 100) ∧
      eigenvalues sqrt eps A = .ok ((List.range A.rows).map (fun i => ((it k).get i i, 0))) ∧
      ((List.range A.rows).map (fun i => ((it k).get i i, (0 : α)))).length = A.rows ∧
      ∀ M : Matrix α, offDiagonalSum A.rows A.cols M
        = ∑ i ∈ Finset.range A.rows, ∑ j ∈ Finset.range A.cols,
            if i ≠ j then |M.get i j| else 0 := by
  obtain ⟨k, it, hk, hk1, h0, hstep, hnot, hlast, hres⟩ :=
    qrIterate_trace sqrt eps A.rows A.cols MAX_ITERATIONS A hsq
  refine ⟨k, it, hk1 (by decide), hk, h0, hstep, hnot, hlast, ?_, by simp,
    offDiagonalSum_eq_sum A.rows A.cols⟩
  unfold eigenvalues
  rw [if_neg (not_not.mpr hsq), if_neg (by omega), if_neg (by omega), hres]
  simp only
  rw [forRange_append_eq_map]

/-- An instance of C22: on the diagonal matrix `diag(4, 1, 9)` the first QR pass already
converges, and the three diagonal entries are returned. -/
theorem eigenvalues_qr_iteration_witness :
    (∃ v, eigenvalues ratSqrt (1 / 1000) diag3 = .ok v ∧ v.length = 3) ∧
    eigenvalues ratSqrt (1 / 1000) diag3 = .ok [(4, 0), (1, 0), (9, 0)] := by
  obtain ⟨k, it, -, -, -, -, -, -, h, hl, -⟩ :=
    eigenvalues_qr_iteration ratSqrt (1 / 1000) diag3 rfl (by decide)
  exact ⟨⟨_, h, hl⟩, by decide!⟩

/-! ## Shape checks of the binary operations -/

/-- C23: the binary operations throw `std::invalid_argument` exactly when the shapes
of the operands are incompatible: `Matrix` `+`, `-`, `+=`, `-=` iff the row or the column
counts differ, `Matrix * Matrix` iff `A.cols != B.rows`, `Vector` `+`, `-`, `+=`, `-=`
and `dot` iff the dimensions differ.  With compatible shapes every one of them returns,
and `+`, `-` (and `+=`, `-=` on a well-formed left operand) yield the element-wise
sum and difference. -/
theorem binary_shape_checks [Zero α] [Add α] [Sub α] [Mul α] (A B : Matrix α)
    (a b : Vector α) :
    (A.add B = .error .invalid_argument ↔ A.rows ≠ B.rows ∨ A.cols ≠ B.cols) ∧
    (A.sub B = .error .invalid_argument ↔ A.rows ≠ B.rows ∨ A.cols ≠ B.cols) ∧
    (A.addAssign B = .error .invalid_argument ↔ A.rows ≠ B.rows ∨ A.cols ≠ B.cols) ∧
    (A.subAssign B = .error .invalid_argument ↔ A.rows ≠ B.rows ∨ A.cols ≠ B.cols) ∧
    (A.mul B = .error .invalid_argument ↔ A.cols ≠ B.rows) ∧
    (a.add b = .error .invalid_argument ↔ a.dimension ≠ b.dimension) ∧
    (a.sub b = .error .invalid_argument ↔ a.dimension ≠ b.dimension) ∧
    (a.addAssign b = .error .invalid_argument ↔ a.dimension ≠ b.dimension) ∧
    (a.subAssign b = .error .invalid_argument ↔ a.dimension ≠ b.dimension) ∧
    (a.dot b = .error .invalid_argument ↔ a.dimension ≠ b.dimension) ∧
    (A.rows = B.rows → A.cols = B.cols →
      ∃ S D S' D', A.add B = .ok S ∧ A.sub B = .ok D ∧
        A.addAssign B = .ok S' ∧ A.subAssign B = .ok D' ∧
        S.Shape A.rows A.cols ∧ D.Shape A.rows A.cols ∧
        (∀ i j, i < A.rows → j < A.cols →
          S.get i j = A.get i j + B.get i j ∧ D.get i j = A.get i j - B.get i j) ∧
        (A.WF → S'.Shape A.rows A.cols ∧ D'.Shape A.rows A.cols ∧
          ∀ i j, i < A.rows → j < A.cols →
            S'.get i j = A.get i j + B.get i j ∧ D'.get i j = A.get i j - B.get i j)) ∧
    (A.cols = B.rows → ∃ C, A.mul B = .ok C) ∧
    (a.dimension = b.dimension →
      ∃ s d s' d' x, a.add b = .ok s ∧ a.sub b = .ok d ∧
        a.addAssign b = .ok s' ∧ a.subAssign b = .ok d' ∧ a.dot b = .ok x ∧
        s.WF ∧ s.dimension = a.dimension ∧ d.WF ∧ d.dimension = a.dimension ∧
        (∀ i, i < a.dimension →
          s.get i = a.get i + b.get i ∧ d.get i = a.get i - b.get i) ∧
        (a.WF → s'.WF ∧ s'.dimension = a.dimension ∧ d'.WF ∧ d'.dimension = a.dimension ∧
          ∀ i, i < a.dimension →
            s'.get i = a.get i + b.get i ∧ d'.get i = a.get i - b.get i)) := by
  refine ⟨ite_error_iff _ _ _, ite_error_iff _ _ _, ite_error_iff _ _ _, ite_error_iff _ _ _,
    ?_, ite_error_iff _ _ _, ite_error_iff _ _ _, ite_error_iff _ _ _, ite_error_iff _ _ _,
    ite_error_iff _ _ _, ?_, ?_, ?_⟩
  · unfold Matrix.mul
    by_cases h : A.cols = B.rows
    · rw [if_neg (not_not.mpr h)]
      split_ifs <;> simp [h]
    · simp [h]
  · intro hr hc
    obtain ⟨S, h1, h2, h3⟩ := Matrix.add_cells A B hr hc
    obtain ⟨D, h4, h5, h6⟩ := Matrix.sub_cells A B hr hc
    have hcond : ¬ (A.rows ≠ B.rows ∨ A.cols ≠ B.cols) := by simp [hr, hc]
    have hS : ∃ S', A.addAssign B = .ok S' ∧ (A.WF → S'.Shape A.rows A.cols ∧
        ∀ i j, i < A.rows → j < A.cols → S'.get i j = A.get i j + B.get i j) :=
      ⟨_, by unfold Matrix.addAssign; rw [if_neg hcond],
        fun hA => forRange_cells (fun i j v => v + B.get i j) A ⟨hA, rfl, rfl⟩⟩
    have hD : ∃ D', A.subAssign B = .ok D' ∧ (A.WF → D'.Shape A.rows A.cols ∧
        ∀ i j, i < A.rows → j < A.cols → D'.get i j = A.get i j - B.get i j) :=
      ⟨_, by unfold Matrix.subAssign; rw [if_neg hcond],
        fun hA => forRange_cells (fun i j v => v - B.get i j) A ⟨hA, rfl, rfl⟩⟩
    obtain ⟨S', h7, h8⟩ := hS
    obtain ⟨D', h9, h10⟩ := hD
    exact ⟨S, D, S', D', h1, h4, h7, h9, h2, h5,
      fun i j hi hj => ⟨h3 i j hi hj, h6 i j hi hj⟩,
      fun hA => ⟨(h8 hA).1, (h10 hA).1,
        fun i j hi hj => ⟨(h8 hA).2 i j hi hj, (h10 hA).2 i j hi hj⟩⟩⟩
  · intro h
    unfold Matrix.mul
    rw [if_neg (not_not.mpr h)]
    split_ifs
    · exact ⟨_, rfl⟩
    · exact ⟨_, rfl⟩
  · intro hd
    obtain ⟨s, h1, h2, h3, h4⟩ := Vector.add_spec a b hd
    obtain ⟨d, h5, h6, h7, h8⟩ := Vector.sub_spec a b hd
    have hs : ∃ s', a.addAssign b = .ok s' ∧ (a.WF → s'.WF ∧ s'.dimension = a.dimension ∧
        ∀ i, i < a.dimension → s'.get i = a.get i + b.get i) :=
      ⟨_, by unfold Vector.addAssign; rw [if_neg (not_not.mpr hd)],
        fun ha => Vector.forRange_set (fun i v => v + b.get i) a ha⟩
    have hd' : ∃ d', a.subAssign b = .ok d' ∧ (a.WF → d'.WF ∧ d'.dimension = a.dimension ∧
        ∀ i, i < a.dimension → d'.get i = a.get i - b.get i) :=
      ⟨_, by unfold Vector.subAssign; rw [if_neg (not_not.mpr hd)],
        fun ha => Vector.forRange_set (fun i v => v - b.get i) a ha⟩
    obtain ⟨s', h9, h10⟩ := hs
    obtain ⟨d', h11, h12⟩ := hd'
    have hx : ∃ x, a.dot b = .ok x := ⟨_, by unfold Vector.dot; rw [if_neg (not_not.mpr hd)]⟩
    obtain ⟨x, h13⟩ := hx
    exact ⟨s, d, s', d', x, h1, h5, h9, h11, h13, h2, h3, h6, h7,
      fun i hi => ⟨h4 i hi, h8 i hi⟩,
      fun ha => ⟨(h10 ha).1, (h10 ha).2.1, (h12 ha).1, (h12 ha).2.1,
        fun i hi => ⟨(h10 ha).2.2 i hi, (h12 ha).2.2 i hi⟩⟩⟩

/-- Instances of C23: a 2x2 and a 2x3 matrix cannot be added, vectors of dimensions
3 and 2 cannot be subtracted, and the sums of compatible operands are element-wise. -/
theorem binary_shape_checks_witness :
    knownA.add rect23 = .error .invalid_argument ∧
    v123.sub v78 = .error .invalid_argument ∧
    knownA.add knownB = .ok ⟨[[6, 8], [10, 12]], 2, 2⟩ ∧
    v123.add v456 = .ok ⟨[5, 7, 9], 3⟩ ∧
    (∃ S, knownA.add knownB = .ok S ∧ S.get 1 1 = 12) := by
  refine ⟨(binary_shape_checks knownA rect23 v123 v78).1.mpr (by decide),
    (binary_shape_checks knownA rect23 v123 v78).2.2.2.2.2.2.1.mpr (by decide),
    by decide, by decide, ?_⟩
  obtain ⟨S, D, S', D', h, -, -, -, -, -, hcell, -⟩ :=
    (binary_shape_checks knownA knownB v123 v456).2.2.2.2.2.2.2.2.2.2.1 rfl rfl
  exact ⟨S, h, by rw [(hcell 1 1 (by decide) (by decide)).1]; decide⟩

/-! ## Dot and cross product -/

/-- C24: for vectors `a`, `b` of equal dimension `n`, `a.dot(b)` is the left-to-right
fold `((0 + a[0]*b[0]) + a[1]*b[1]) + ... + a[n-1]*b[n-1]` (`0` for `n = 0`); when the
multiplication of the element type is commutative, `a.dot(b) = b.dot(a)`. -/
theorem dot_left_fold [Zero α] [Add α] [Mul α] (a b : Vector α) (ha : a.WF) (hb : b.WF)
    (hd : a.dimension = b.dimension) :
    a.dot b = .ok ((List.range a.dimension).foldl (fun acc i => acc + a.get i * b.get i) 0) ∧
    ((∀ x y : α, x * y = y * x) → a.dot b = b.dot a) := by
  have hlen : a.data.length = b.data.length := by rw [ha, hb, hd]
  have h1 : a.dot b
      = .ok ((List.range a.dimension).foldl (fun acc i => acc + a.get i * b.get i) 0) := by
    unfold Vector.dot
    rw [if_neg (not_not.mpr hd), inner_product_eq_foldl _ _ hlen, ha]
    rfl
  have h2 : b.dot a
      = .ok ((List.range b.dimension).foldl (fun acc i => acc + b.get i * a.get i) 0) := by
    unfold Vector.dot
    rw [if_neg (not_not.mpr hd.symm), inner_product_eq_foldl _ _ hlen.symm, hb]
    rfl
  refine ⟨h1, fun hcomm => ?_⟩
  rw [h1, h2, hd]
  congr 2
  funext acc i
  rw [hcomm]

/-- The example of C24: `dot([1, 2, 3], [4, 5, 6]) = 32`, in both orders. -/
theorem dot_left_fold_witness :
    v123.dot v456 = .ok 32 ∧ v123.dot v456 = v456.dot v123 ∧
    v123.dot v456 = .ok ((((0 + 1 * 4) + 2 * 5) + 3 * 6 : ℤ)) :=
  ⟨by decide, (dot_left_fold v123 v456 rfl rfl rfl).2 Int.mul_comm,
    (dot_left_fold v123 v456 rfl rfl rfl).1⟩

/-- C25: `a.cross(b)` throws `std::invalid_argument` iff `a` or `b` does not have
dimension 3; for 3-dimensional operands it returns
`[a1*b2 - a2*b1, a2*b0 - a0*b2, a0*b1 - a1*b0]`, whose dot product with `a` and with `b`
is `0`, and which is the negation of `b.cross(a)`. -/
theorem cross_spec [CommRing α] (a b : Vector α) :
    (a.cross b = .error .invalid_argument ↔ a.dimension ≠ 3 ∨ b.dimension ≠ 3) ∧
    (a.dimension = 3 → b.dimension = 3 →
      ∃ c c', a.cross b = .ok c ∧ b.cross a = .ok c' ∧
        c = ⟨[a.get 1 * b.get 2 - a.get 2 * b.get 1,
              a.get 2 * b.get 0 - a.get 0 * b.get 2,
              a.get 0 * b.get 1 - a.get 1 * b.get 0], 3⟩ ∧
        c = c'.neg ∧
        (a.WF → c.dot a = .ok 0) ∧ (b.WF → c.dot b = .ok 0)) := by
  refine ⟨ite_error_iff _ _ _, fun ha hb => ?_⟩
  have hcond : ¬ (a.dimension ≠ 3 ∨ b.dimension ≠ 3) := by simp [ha, hb]
  have hcond' : ¬ (b.dimension ≠ 3 ∨ a.dimension ≠ 3) := by simp [ha, hb]
  refine ⟨_, _, by unfold Vector.cross; rw [if_neg hcond]; rfl,
    by unfold Vector.cross; rw [if_neg hcond'], rfl, ?_, ?_, ?_⟩
  · simp only [Vector.neg, Vector.ofList, forRange, List.length_cons, List.length_nil,
      List.range', Vector.new, List.foldl_cons, List.foldl_nil, Vector.set, Vector.get,
      List.replicate, List.set_cons_zero, List.set_cons_succ, List.getD_cons_zero,
      List.getD_cons_succ, Vector.mk.injEq, List.cons.injEq, and_true]
    refine ⟨?_, ?_, ?_⟩ <;> ring
  · intro hwf
    cases a with
    | mk da na =>
      simp only [Vector.WF] at hwf
      simp only at ha
      subst ha
      obtain ⟨x, y, z, rfl⟩ := List.length_eq_three.mp hwf
      simp only [Vector.dot, Vector.ofList, Vector.get, inner_product, List.length_cons,
        List.length_nil, List.getD_cons_zero, List.getD_cons_succ, ne_eq, not_true_eq_false,
        if_false]
      congr 1
      ring
  · intro hwf
    cases b with
    | mk db nb =>
      simp only [Vector.WF] at hwf
      simp only at hb
      subst hb
      obtain ⟨x, y, z, rfl⟩ := List.length_eq_three.mp hwf
      simp only [Vector.dot, Vector.ofList, Vector.get, inner_product, List.length_cons,
        List.length_nil, List.getD_cons_zero, List.getD_cons_succ, ne_eq, not_true_eq_false,
        if_false]
      congr 1
      ring

/-- The example of C25: `cross([1, 2, 3], [4, 5, 6]) = [-3, 6, -3]`, which is orthogonal
to `[1, 2, 3]`; a 2-dimensional operand is rejected. -/
theorem cross_spec_witness :
    v123.cross v456 = .ok ⟨[-3, 6, -3], 3⟩ ∧
    v123.cross v78 = .error .invalid_argument ∧
    (∃ c, v123.cross v456 = .ok c ∧ c.dot v123 = .ok 0) := by
  refine ⟨by decide, (cross_spec v123 v78).1.mpr (by decide), ?_⟩
  obtain ⟨c, c', h1, -, -, -, h2, -⟩ := (cross_spec v123 v456).2 rfl rfl
  exact ⟨c, h1, h2 rfl⟩

/-! ## Scalar division and normalisation -/

/-- C26: over a field, `v / s` and `v /= s` throw `std::invalid_argument` iff
`|s| < eps`; otherwise each component of the result is `v[i] * (1 / s) = v[i] / s`,
`/=` leaves in `v` the vector that `/` returns (`/`, a `const` member, is a function of
`v` and `s` alone), and for positive `eps` multiplying the quotient by `s` gives `v`
back. -/
theorem div_scalar [LinearOrderedField α] (eps : α) (v : Vector α) (s : α) :
    (v.div eps s = .error .invalid_argument ↔ |s| < eps) ∧
    (v.divAssign eps s = .error .invalid_argument ↔ |s| < eps) ∧
    (¬ |s| < eps →
      ∃ r, v.div eps s = .ok r ∧ r.WF ∧ r.dimension = v.dimension ∧
        (∀ i, i < v.dimension → r.get i = v.get i * (1 / s) ∧ r.get i = v.get i / s) ∧
        (v.WF → v.divAssign eps s = .ok r) ∧
        (v.WF → 0 < eps → r.smul s = v)) := by
  refine ⟨ite_error_iff _ _ _, ite_error_iff _ _ _, fun h => ?_⟩
  obtain ⟨r, h1, h2, h3, h4⟩ := Vector.div_spec eps v s h
  refine ⟨r, h1, h2, h3, fun i hi => ⟨h4 i hi, by rw [h4 i hi, mul_one_div]⟩,
    fun hv => by rw [Vector.divAssign_eq_div eps v hv, h1], fun hv heps => ?_⟩
  have hs : s ≠ 0 := by
    intro h0
    rw [h0, abs_zero] at h
    exact h heps
  obtain ⟨h5, h6, h7⟩ := Vector.smul_spec r s
  apply Vector.ext_of_get h5 hv (h6.trans h3)
  intro i hi
  rw [h6] at hi
  rw [h7 i hi, h4 i (h3 ▸ hi)]
  field_simp

/-- Instances of C26 over the rationals with `eps = 1/1000`: `[1, 2, 3] / 2` is
`[1/2, 1, 3/2]`, multiplying it by `2` gives `[1, 2, 3]` back, and dividing by `0` is
rejected. -/
theorem div_scalar_witness :
    q123.div (1 / 1000) 2 = .ok ⟨[1 / 2, 1, 3 / 2], 3⟩ ∧
    q123.div (1 / 1000) 0 = .error .invalid_argument ∧
    (∃ r, q123.div (1 / 1000) 2 = .ok r ∧ r.smul 2 = q123) := by
  refine ⟨by decide!, (div_scalar (1 / 1000) q123 0).1.mpr (by decide!), ?_⟩
  obtain ⟨r, h1, -, -, -, -, h2⟩ := (div_scalar (1 / 1000) q123 2).2.2 (by decide!)
  exact ⟨r, h1, h2 rfl (by decide!)⟩

/-- C27: `normalize()` and `normalizeInPlace()` throw `std::runtime_error` iff
`magnitude(v) < eps`; otherwise both yield the same vector, whose components are those
of `v` times `1 / magnitude(v)` (`normalize`, a `const` member, is a function of `v`
alone), and with an exact square root its magnitude is `1`. -/
theorem normalize_unit [LinearOrderedField α] (sqrt : α → α) (eps : α) (heps : 0 < eps)
    (v : Vector α) (hv : v.WF) :
    (v.normalize sqrt eps = .error .runtime_error ↔ v.magnitude sqrt < eps) ∧
    (v.normalizeInPlace sqrt eps = .error .runtime_error ↔ v.magnitude sqrt < eps) ∧
    (¬ v.magnitude sqrt < eps →
      ∃ u, v.normalize sqrt eps = .ok u ∧ v.normalizeInPlace sqrt eps = .ok u ∧
        u.WF ∧ u.dimension = v.dimension ∧
        (∀ i, i < v.dimension → u.get i = v.get i * (1 / v.magnitude sqrt)) ∧
        ((∀ x : α, 0 ≤ x → sqrt x * sqrt x = x) → (∀ x : α, 0 ≤ sqrt x) →
          u.magnitude sqrt = 1)) := by
  have hok : ¬ v.magnitude sqrt < eps → ¬ |v.magnitude sqrt| < eps :=
    fun h h' => h (lt_of_le_of_lt (le_abs_self _) h')
  have hres : ¬ v.magnitude sqrt < eps →
      ∃ u, v.normalize sqrt eps = .ok u ∧ v.normalizeInPlace sqrt eps = .ok u ∧
        u.WF ∧ u.dimension = v.dimension ∧
        (∀ i, i < v.dimension → u.get i = v.get i * (1 / v.magnitude sqrt)) := by
    intro h
    obtain ⟨u, h1, h2, h3, h4⟩ := Vector.div_spec eps v (v.magnitude sqrt) (hok h)
    refine ⟨u, ?_, ?_, h2, h3, h4⟩
    · unfold Vector.normalize
      simp only [h, if_false]
      exact h1
    · unfold Vector.normalizeInPlace
      simp only [h, if_false]
      rw [Vector.divAssign_eq_div eps v hv]
      exact h1
  refine ⟨?_, ?_, fun h => ?_⟩
  · constructor
    · intro herr
      by_contra h
      obtain ⟨u, h1, -⟩ := hres h
      rw [h1] at herr
      cases herr
    · intro h
      unfold Vector.normalize
      simp only [h, if_true]
  · constructor
    · intro herr
      by_contra h
      obtain ⟨u, -, h1, -⟩ := hres h
      rw [h1] at herr
      cases herr
    · intro h
      unfold Vector.normalizeInPlace
      simp only [h, if_true]
  · obtain ⟨u, h1, h2, h3, h4, h5⟩ := hres h
    refine ⟨u, h1, h2, h3, h4, h5, fun hsq hnn => ?_⟩
    have hm : v.magnitude sqrt * v.magnitude sqrt = v.magnitudeSquared :=
      hsq _ (Vector.magnitudeSquared_nonneg hv)
    have hpos : 0 < v.magnitude sqrt := lt_of_lt_of_le heps (not_lt.mp h)
    have hu : u.magnitudeSquared = 1 := by
      rw [Vector.magnitudeSquared_scaled hv h3 h4 _ h5, ← hm]
      field_simp
    have h1' : sqrt 1 * sqrt 1 = 1 := hsq 1 zero_le_one
    have h2' : (sqrt 1 - 1) * (sqrt 1 + 1) = 0 := by ring_nf; rw [pow_two, h1']; ring
    unfold Vector.magnitude
    rw [hu]
    rcases mul_eq_zero.mp h2' with h0 | h0
    · exact sub_eq_zero.mp h0
    · have := hnn 1
      linarith

/-- Instances of C27: over the reals `[3, 4]` is normalised to a vector of magnitude
`1`; over the rationals (square root taken on perfect squares) the result is
`[3/5, 4/5]`, and the zero vector is rejected. -/
theorem normalize_unit_witness :
    (∃ u, Vector.normalize Real.sqrt (1 / 1000) (⟨[3, 4], 2⟩ : Vector ℝ) = .ok u ∧
      u.magnitude Real.sqrt = 1) ∧
    q34.normalize ratSqrt (1 / 1000) = .ok ⟨[3 / 5, 4 / 5], 2⟩ ∧
    q34.normalizeInPlace ratSqrt (1 / 1000) = .ok ⟨[3 / 5, 4 / 5], 2⟩ ∧
    (Vector.new 2 : Vector ℚ).normalize ratSqrt (1 / 1000) = .error .runtime_error := by
  refine ⟨?_, by decide!, by decide!, by decide!⟩
  have hs : Real.sqrt (3 * 3 + 4 * 4) = 5 := by
    rw [show (3 : ℝ) * 3 + 4 * 4 = 5 * 5 by norm_num]
    exact Real.sqrt_mul_self (by norm_num)
  have hmag : ¬ Vector.magnitude Real.sqrt (⟨[3, 4], 2⟩ : Vector ℝ) < 1 / 1000 := by
    simp only [Vector.magnitude, Vector.magnitudeSquared, inner_product, zero_add, hs]
    norm_num
  obtain ⟨u, h1, -, -, -, -, h2⟩ := (normalize_unit Real.sqrt (1 / 1000) (by norm_num)
    (⟨[3, 4], 2⟩ : Vector ℝ) rfl).2.2 hmag
  exact ⟨u, h1, h2 (fun x hx => Real.mul_self_sqrt hx) Real.sqrt_nonneg⟩

/-! ## Angle and projection -/

/-- Against C28 as stated, over the reals with `eps = 1/1000`: `[1/2000]` has a magnitude
below `eps`, yet its angle with `[1000]` is computed (`acos 1 = 0`); `[1/100]` has a
magnitude above `eps`, yet its angle with itself is refused. -/
theorem angle_guard_counterexample :
    Vector.magnitude Real.sqrt (⟨[1 / 2000], 1⟩ : Vector ℝ) < 1 / 1000 ∧
    Vector.angle Real.sqrt Real.arccos (1 / 1000)
      (⟨[1 / 2000], 1⟩ : Vector ℝ) ⟨[1000], 1⟩ = .ok 0 ∧
    ¬ Vector.magnitude Real.sqrt (⟨[1 / 100], 1⟩ : Vector ℝ) < 1 / 1000 ∧
    Vector.angle Real.sqrt Real.arccos (1 / 1000)
      (⟨[1 / 100], 1⟩ : Vector ℝ) ⟨[1 / 100], 1⟩ = .error .runtime_error := by
  have hmag : ∀ x : ℝ, 0 ≤ x → Vector.magnitude Real.sqrt (⟨[x], 1⟩ : Vector ℝ) = x := by
    intro x hx
    simp only [Vector.magnitude, Vector.magnitudeSquared, inner_product, zero_add]
    exact Real.sqrt_mul_self hx
  have hdot : ∀ x y : ℝ, Vector.dot (⟨[x], 1⟩ : Vector ℝ) ⟨[y], 1⟩ = .ok (x * y) := by
    intro x y
    simp [Vector.dot, inner_product]
  refine ⟨?_, ?_, ?_, ?_⟩
  · rw [hmag _ (by norm_num)]
    norm_num
  · unfold Vector.angle
    rw [if_neg (by simp), hdot]
    simp only [hmag (1 / 2000) (by norm_num), hmag 1000 (by norm_num)]
    rw [if_neg (by norm_num)]
    simp only [stdMin_eq_min, stdMax_eq_max]
    norm_num
  · rw [hmag _ (by norm_num)]
    norm_num
  · unfold Vector.angle
    rw [if_neg (by simp), hdot]
    simp only [hmag (1 / 100) (by norm_num)]
    rw [if_pos (by norm_num)]

/-- C28 (amended): for vectors of equal dimension, `a.angle(b)` throws
`std::runtime_error` iff the product `magnitude(a) * magnitude(b)` is below `eps`, and
otherwise returns `acos` of `dot(a, b) / (magnitude(a) * magnitude(b))` clamped to
`[-1, 1]`. -/
theorem angle_guard [LinearOrderedField α] (sqrt acos : α → α) (eps : α) (a b : Vector α)
    (hd : a.dimension = b.dimension) :
    (a.angle sqrt acos eps b = .error .runtime_error
      ↔ a.magnitude sqrt * b.magnitude sqrt < eps) ∧
    (¬ a.magnitude sqrt * b.magnitude sqrt < eps →
      ∃ d, a.dot b = .ok d ∧
        a.angle sqrt acos eps b
          = .ok (acos (max (-1) (min 1 (d / (a.magnitude sqrt * b.magnitude sqrt)))))) := by
  have hdot : a.dot b = .ok (inner_product a.data b.data 0) := by
    unfold Vector.dot
    rw [if_neg (not_not.mpr hd)]
  constructor
  · unfold Vector.angle
    rw [if_neg (not_not.mpr hd), hdot]
    simp only
    exact ite_error_iff _ _ _
  · intro h
    refine ⟨_, hdot, ?_⟩
    unfold Vector.angle
    rw [if_neg (not_not.mpr hd), hdot]
    simp only [h, if_false, stdMin_eq_min, stdMax_eq_max]

/-- An instance of C28 (amended) over the reals: the angle between `[1, 0]` and `[0, 1]`
is `acos 0 = pi / 2`. -/
theorem angle_guard_witness :
    Vector.angle Real.sqrt Real.arccos (1 / 1000) (⟨[1, 0], 2⟩ : Vector ℝ) ⟨[0, 1], 2⟩
      = .ok (Real.pi / 2) := by
  have hm1 : Vector.magnitude Real.sqrt (⟨[1, 0], 2⟩ : Vector ℝ) = 1 := by
    simp [Vector.magnitude, Vector.magnitudeSquared, inner_product]
  have hm2 : Vector.magnitude Real.sqrt (⟨[0, 1], 2⟩ : Vector ℝ) = 1 := by
    simp [Vector.magnitude, Vector.magnitudeSquared, inner_product]
  obtain ⟨d, h1, h2⟩ := (angle_guard Real.sqrt Real.arccos (1 / 1000)
    (⟨[1, 0], 2⟩ : Vector ℝ) ⟨[0, 1], 2⟩ rfl).2 (by rw [hm1, hm2]; norm_num)
  have hd : d = 0 := by
    have : Vector.dot (⟨[1, 0], 2⟩ : Vector ℝ) ⟨[0, 1], 2⟩ = .ok 0 := by
      simp [Vector.dot, inner_product]
    rw [this] at h1
    cases h1
    rfl
  rw [h2, hd, hm1, hm2]
  simp [Real.arccos_zero]

/-- C29: for vectors `v`, `onto` of equal dimension with `magnitudeSquared(onto) >= eps`
(so that `project` does not throw), `project(onto)` is `onto` scaled by
`dot(v, onto) / dot(onto, onto)`, `reject(onto)` is `v - project(onto)`, their sum is `v`,
the rejection is orthogonal to `onto`, and projecting the projection onto `onto` again
returns it unchanged. -/
theorem project_reject [LinearOrderedField α] (eps : α) (heps : 0 < eps) (v onto : Vector α)
    (hv : v.WF) (ho : onto.WF) (hd : v.dimension = onto.dimension)
    (hg : ¬ onto.magnitudeSquared < eps) :
    ∃ p r dv dd, v.project eps onto = .ok p ∧ v.reject eps onto = .ok r ∧
      v.dot onto = .ok dv ∧ onto.dot onto = .ok dd ∧
      p = onto.smul (dv / dd) ∧ p.WF ∧ p.dimension = v.dimension ∧
      (∀ i, i < v.dimension → p.get i = onto.get i * (dv / dd)) ∧
      v.sub p = .ok r ∧
      (∀ i, i < v.dimension → r.get i = v.get i - p.get i) ∧
      p.add r = .ok v ∧ r.dot onto = .ok 0 ∧ p.project eps onto = .ok p := by
  have hdd : 0 < onto.magnitudeSquared := lt_of_lt_of_le heps (not_lt.mp hg)
  have hdv := Vector.dot_eq_sum hv ho hd
  have hdvi : inner_product v.data onto.data 0
      = ∑ i ∈ Finset.range v.dimension, v.get i * onto.get i := by
    have h := hdv
    unfold Vector.dot at h
    rw [if_neg (not_not.mpr hd)] at h
    exact Except.ok.inj h
  have hproj := Vector.project_ok eps v onto hd hg
  rw [hdvi] at hproj
  obtain ⟨hp1, hp2, hp3⟩ := Vector.smul_spec onto
    ((∑ i ∈ Finset.range v.dimension, v.get i * onto.get i) / onto.magnitudeSquared)
  generalize hs : (∑ i ∈ Finset.range v.dimension, v.get i * onto.get i)
    / onto.magnitudeSquared = s at hproj hp1 hp2 hp3
  generalize hp : onto.smul s = p at hproj hp1 hp2 hp3
  have hpd : v.dimension = p.dimension := hd.trans hp2.symm
  obtain ⟨r, hr1, hr2, hr3, hr4⟩ := Vector.sub_spec v p hpd
  have hrej : v.reject eps onto = .ok r := by
    unfold Vector.reject
    rw [hproj]
    exact hr1
  obtain ⟨x, hx1, hx2, hx3, hx4⟩ := Vector.add_spec p r (hp2.trans (hd.symm.trans hr3.symm))
  have hxv : x = v := by
    apply Vector.ext_of_get hx2 hv (hx3.trans hpd.symm)
    intro i hi
    have hi' : i < p.dimension := by rw [← hx3]; exact hi
    have hi2 : i < v.dimension := by rw [hpd]; exact hi'
    rw [hx4 i hi', hr4 i hi2]
    ring
  have hmsq := Vector.magnitudeSquared_eq_sum ho
  have hrdot : r.dot onto = .ok 0 := by
    rw [Vector.dot_eq_sum hr2 ho (hr3.trans hd), hr3]
    congr 1
    have : ∀ i ∈ Finset.range v.dimension,
        r.get i * onto.get i = v.get i * onto.get i - s * (onto.get i * onto.get i) := by
      intro i hi
      rw [hr4 i (Finset.mem_range.mp hi), hp3 i (hd ▸ Finset.mem_range.mp hi)]
      ring
    rw [Finset.sum_congr rfl this, Finset.sum_sub_distrib, ← Finset.mul_sum, hd, ← hmsq, ← hs,
      hd]
    field_simp
  have hpp : p.project eps onto = .ok p := by
    have hpdot := Vector.dot_eq_sum hp1 ho hp2
    have hpi : inner_product p.data onto.data 0 = s * onto.magnitudeSquared := by
      have h := hpdot
      unfold Vector.dot at h
      rw [if_neg (not_not.mpr hp2)] at h
      rw [Except.ok.inj h, hp2, hmsq, Finset.mul_sum]
      apply Finset.sum_congr rfl
      intro i hi
      rw [hp3 i (Finset.mem_range.mp hi)]
      ring
    rw [Vector.project_ok eps p onto hp2 hg, hpi,
      show s * onto.magnitudeSquared / onto.magnitudeSquared = s by field_simp, hp]
  refine ⟨p, r, _, _, hproj, hrej, hdv, Vector.dot_self onto, ?_, hp1, hpd.symm, ?_, hr1, hr4,
    ?_, hrdot, hpp⟩
  · rw [← hp, hs]
  · intro i hi
    rw [hp3 i (hd ▸ hi), hs]
  · rw [hx1, hxv]

/-- An instance of C29 over the rationals with `eps = 1/1000`: projecting `[3, 4]` onto
`[1, 0]` gives `[3, 0]`, rejecting gives `[0, 4]`. -/
theorem project_reject_witness :
    q34.project (1 / 1000) q10 = .ok ⟨[3, 0], 2⟩ ∧
    q34.reject (1 / 1000) q10 = .ok ⟨[0, 4], 2⟩ ∧
    (∃ p r, q34.project (1 / 1000) q10 = .ok p ∧ q34.reject (1 / 1000) q10 = .ok r ∧
      p.add r = .ok q34 ∧ r.dot q10 = .ok 0 ∧ p.project (1 / 1000) q10 = .ok p) := by
  refine ⟨by decide!, by decide!, ?_⟩
  obtain ⟨p, r, dv, dd, h1, h2, -, -, -, -, -, -, -, -, h3, h4, h5⟩ :=
    project_reject (1 / 1000) (by decide!) q34 q10 rfl rfl rfl (by decide!)
  exact ⟨p, r, h1, h2, h3, h4, h5⟩

/-! ## Approximate equality -/

/-- C30: for `Matrix` and for `Vector`, `a == b` is `true` iff the operands have the same
shape and every pair of corresponding elements differs by at most `10 * eps` in absolute
value; hence `==` is symmetric, reflexive when `eps >= 0`, and `!=` is its negation. -/
theorem approx_equality [LinearOrderedCommRing α] (eps : α) (A B : Matrix α)
    (a b : Vector α) :
    (A.beq eps B = true ↔ A.rows = B.rows ∧ A.cols = B.cols ∧
      ∀ i j, i < A.rows → j < A.cols → |A.get i j - B.get i j| ≤ 10 * eps) ∧
    (a.beq eps b = true ↔ a.dimension = b.dimension ∧
      ∀ i, i < a.dimension → |a.get i - b.get i| ≤ 10 * eps) ∧
    (0 ≤ eps → A.beq eps A = true ∧ a.beq eps a = true) ∧
    A.beq eps B = B.beq eps A ∧ a.beq eps b = b.beq eps a ∧
    A.bne eps B = !(A.beq eps B) ∧ a.bne eps b = !(a.beq eps b) := by
  have hM : ∀ X Y : Matrix α, X.beq eps Y = true → Y.beq eps X = true := by
    intro X Y h
    obtain ⟨h1, h2, h3⟩ := (Matrix.beq_iff_cells eps X Y).mp h
    refine (Matrix.beq_iff_cells eps Y X).mpr ⟨h1.symm, h2.symm, fun i j hi hj => ?_⟩
    rw [abs_sub_comm]
    exact h3 i j (h1 ▸ hi) (h2 ▸ hj)
  have hV : ∀ x y : Vector α, x.beq eps y = true → y.beq eps x = true := by
    intro x y h
    obtain ⟨h1, h2⟩ := (Vector.beq_iff eps x y).mp h
    refine (Vector.beq_iff eps y x).mpr ⟨h1.symm, fun i hi => ?_⟩
    rw [abs_sub_comm]
    exact h2 i (h1 ▸ hi)
  refine ⟨?_, ?_, fun heps => ⟨?_, ?_⟩, ?_, ?_, rfl, rfl⟩
  · rw [mul_comm 10 eps]
    exact Matrix.beq_iff_cells eps A B
  · rw [mul_comm 10 eps]
    exact Vector.beq_iff eps a b
  · exact beq_self eps heps A
  · refine (Vector.beq_iff eps a a).mpr ⟨rfl, fun i _ => ?_⟩
    rw [sub_self, abs_zero]
    exact mul_nonneg heps (by norm_num)
  · rw [Bool.eq_iff_iff]
    exact ⟨hM A B, hM B A⟩
  · rw [Bool.eq_iff_iff]
    exact ⟨hV a b, hV b a⟩

/-- Instances of C30 over the rationals with `eps = 1/1000`: `[1, 2, 3]` equals itself,
`[1, 0]` and `[1, 1/200]` compare equal (they differ by less than `1/100`), `[1, 0]` and
`[1, 1/50]` do not, and vectors of different dimensions do not. -/
theorem approx_equality_witness :
    q123.beq (1 / 1000) q123 = true ∧
    q10.beq (1 / 1000) ⟨[1, 1 / 200], 2⟩ = true ∧
    q10.bne (1 / 1000) ⟨[1, 1 / 50], 2⟩ = true ∧
    q10.beq (1 / 1000) q123 = false ∧
    knownDet.beq (1 / 1000) knownDet = true :=
  ⟨((approx_equality (1 / 1000) knownDet knownDet q123 q123).2.2.1 (by decide!)).2,
    by decide!, by decide!, by decide!,
    ((approx_equality (1 / 1000) knownDet knownDet q123 q123).2.2.1 (by decide!)).1⟩

/-! ## Comparison of operands of different shapes, extremes, element access -/

/-- Against C31 as stated: comparing a `2 × 2` with a `2 × 3` matrix, or a vector of
dimension 2 with one of dimension 3, returns a value (`false` for `==`, `true` for
`!=`), whereas their sums are refused. -/
theorem compare_mismatch_counterexample :
    knownDet.beq (1 / 1000) rect23q = false ∧ knownDet.bne (1 / 1000) rect23q = true ∧
    q10.beq (1 / 1000) q123 = false ∧ q10.bne (1 / 1000) q123 = true ∧
    knownDet.add rect23q = .error .invalid_argument ∧
    q10.add q123 = .error .invalid_argument := by
  refine ⟨by decide!, by decide!, by decide!, by decide!, by decide!, by decide!⟩

/-- C31 (amended): on operands of different shapes `operator==` returns `false` and
`operator!=` returns `true`, for matrices and for vectors; addition and subtraction of
the same operands, and `dot`, throw `std::invalid_argument`. -/
theorem compare_mismatch [LinearOrderedRing α] (eps : α) (A B : Matrix α) (a b : Vector α) :
    (A.rows ≠ B.rows ∨ A.cols ≠ B.cols →
      A.beq eps B = false ∧ A.bne eps B = true ∧
      A.add B = .error .invalid_argument ∧ A.sub B = .error .invalid_argument) ∧
    (a.dimension ≠ b.dimension →
      a.beq eps b = false ∧ a.bne eps b = true ∧
      a.add b = .error .invalid_argument ∧ a.sub b = .error .invalid_argument ∧
      a.dot b = .error .invalid_argument) := by
  constructor
  · intro h
    have hb : A.beq eps B = false := by
      unfold Matrix.beq
      rw [if_pos h]
    refine ⟨hb, by unfold Matrix.bne; rw [hb]; rfl, ?_, ?_⟩
    · unfold Matrix.add
      rw [if_pos h]
    · unfold Matrix.sub
      rw [if_pos h]
  · intro h
    have hb : a.beq eps b = false := by
      unfold Vector.beq
      rw [if_pos h]
    refine ⟨hb, by unfold Vector.bne; rw [hb]; rfl, ?_, ?_, ?_⟩
    · unfold Vector.add
      rw [if_pos h]
    · unfold Vector.sub
      rw [if_pos h]
    · unfold Vector.dot
      rw [if_pos h]

/-- An instance of C31 (amended): `[1, 2, 3] == [7, 8]` is `false` over the integers. -/
theorem compare_mismatch_witness :
    v123.beq 0 v78 = false ∧ v123.bne 0 v78 = true ∧ knownA.beq 0 rect23 = false :=
  ⟨((compare_mismatch 0 knownA rect23 v123 v78).2 (by decide)).1,
    ((compare_mismatch 0 knownA rect23 v123 v78).2 (by decide)).2.1,
    ((compare_mismatch 0 knownA rect23 v123 v78).1 (by decide)).1⟩

/-- C32: `min()` and `max()` throw `std::runtime_error` iff the dimension is `0`;
otherwise `min()` returns an element of `v` that is `<=` every element and `max()` an
element that is `>=` every element. -/
theorem min_max_spec [LinearOrder α] [Zero α] (v : Vector α) (hv : v.WF) :
    (v.min = .error .runtime_error ↔ v.dimension = 0) ∧
    (v.max = .error .runtime_error ↔ v.dimension = 0) ∧
    (v.dimension ≠ 0 →
      ∃ lo hi, v.min = .ok lo ∧ v.max = .ok hi ∧ lo ∈ v.data ∧ hi ∈ v.data ∧
        ∀ x ∈ v.data, lo ≤ x ∧ x ≤ hi) := by
  refine ⟨ite_error_iff _ _ _, ite_error_iff _ _ _, fun hd => ?_⟩
  cases v with
  | mk data dimension =>
    simp only [Vector.WF] at hv
    simp only at hd
    cases data with
    | nil =>
      simp only [List.length_nil] at hv
      exact absurd hv.symm hd
    | cons x xs =>
      obtain ⟨h1, h2⟩ := foldl_min_mem xs x
      obtain ⟨h3, h4⟩ := foldl_max_mem xs x
      refine ⟨_, _, ?_, ?_, h1, h3, fun y hy => ⟨h2 y hy, h4 y hy⟩⟩
      · unfold Vector.min
        rw [if_neg hd]
        rfl
      · unfold Vector.max
        rw [if_neg hd]
        rfl

/-- Instances of C32: the extremes of `[3, 1, 2]` are `1` and `3`; the empty vector is
refused. -/
theorem min_max_spec_witness :
    v312.min = .ok 1 ∧ v312.max = .ok 3 ∧
    (Vector.new 0 : Vector ℤ).min = .error .runtime_error ∧
    (Vector.new 0 : Vector ℤ).max = .error .runtime_error ∧
    (∃ lo hi, v312.min = .ok lo ∧ v312.max = .ok hi ∧ lo ≤ 2 ∧ 2 ≤ hi) := by
  refine ⟨by decide, by decide, (min_max_spec (Vector.new 0) rfl).1.mpr rfl,
    (min_max_spec (Vector.new 0) rfl).2.1.mpr rfl, ?_⟩
  obtain ⟨lo, hi, h1, h2, -, -, h3⟩ := (min_max_spec v312 rfl).2.2 (by decide)
  exact ⟨lo, hi, h1, h2, h3 2 (by decide)⟩

/-- C33: on a rectangular matrix `m(i, j)` throws `std::out_of_range` iff `i >= rows`
or `j >= cols`, and otherwise returns the stored element `j` of the stored row `i`; on
a vector `v[k]` and `v.at(k)` throw `std::out_of_range` iff `k >= dimension`, and
otherwise return the stored element `k`. -/
theorem element_access [Zero α] (m : Matrix α) (hm : m.WF) (v : Vector α) (hv : v.WF)
    (i j k : Nat) :
    (m.apply i j = .error .out_of_range ↔ i ≥ m.rows ∨ j ≥ m.cols) ∧
    (i < m.rows → j < m.cols →
      ∃ row x, m.data[i]? = some row ∧ row[j]? = some x ∧ m.apply i j = .ok x) ∧
    (v.index k = .error .out_of_range ↔ k ≥ v.dimension) ∧
    (v.at_ k = .error .out_of_range ↔ k ≥ v.dimension) ∧
    (k < v.dimension →
      ∃ x, v.data[k]? = some x ∧ v.index k = .ok x ∧ v.at_ k = .ok x) := by
  refine ⟨ite_error_iff _ _ _, fun hi hj => ?_, ite_error_iff _ _ _, ite_error_iff _ _ _,
    fun hk => ?_⟩
  · have hlen : i < m.data.length := by rw [hm.1]; exact hi
    have hrow : j < (m.data[i]).length := by
      rw [hm.2 _ (List.getElem_mem hlen)]; exact hj
    refine ⟨m.data[i], (m.data[i])[j], List.getElem?_eq_getElem hlen,
      List.getElem?_eq_getElem hrow, ?_⟩
    unfold Matrix.apply Matrix.get
    rw [if_neg (by omega)]
    simp [List.getD_eq_getElem?_getD, List.getElem?_eq_getElem hlen,
      List.getElem?_eq_getElem hrow]
  · have hlen : k < v.data.length := by rw [hv]; exact hk
    have h1 : v.index k = .ok (v.data[k]) := by
      unfold Vector.index Vector.get
      rw [if_neg (by omega)]
      simp [List.getD_eq_getElem?_getD, List.getElem?_eq_getElem hlen]
    exact ⟨v.data[k], List.getElem?_eq_getElem hlen, h1, h1⟩

/-- Instances of C33: cell `(1, 0)` of `[[1, 2], [3, 4]]` is `3`, column `2` is out of
range; element `2` of `[1, 2, 3]` is `3`, element `3` is out of range. -/
theorem element_access_witness :
    knownA.apply 1 0 = .ok 3 ∧ knownA.apply 1 2 = .error .out_of_range ∧
    v123.index 2 = .ok 3 ∧ v123.at_ 3 = .error .out_of_range :=
  ⟨by decide, (element_access knownA (by decide) v123 rfl 1 2 3).1.mpr (by decide),
    by decide, (element_access knownA (by decide) v123 rfl 1 2 3).2.2.2.1.mpr (by decide)⟩

/-! ## The rectangular invariant -/

/-- Against C34 as stated: the matrix built from the table `[[1, 2], [3]]` declares
2 rows and 2 columns, but its second stored row has one element. -/
theorem rectangular_counterexample :
    ¬ (Matrix.ofRows raggedRows).WF ∧ (Matrix.ofRows raggedRows).rows = 2 ∧
    (Matrix.ofRows raggedRows).cols = 2 ∧
    ((Matrix.ofRows raggedRows).data.getD 1 []).length = 1 := by
  decide

/-- C34 (amended): the storage has exactly `rows` rows of exactly `cols` elements for
the dimensioned and the value-filled constructor, for the constructor from a table iff
every row of the table has the length of the first, for the factories `identity`,
`zeros`, `ones`, for every result of `+`, `-`, `*`, scalar `*` and `transpose`, for
the factors returned by `qrDecomposition`, for the result of `inverse`, for the factors
returned by `luDecomposition` on a rectangular matrix, and for a rectangular matrix
after `+=`, `-=` and `*=`. -/
theorem rectangular_invariant [LinearOrderedField α] (sqrt : α → α) (eps : α)
    (A B : Matrix α) :
    (∀ r c : Nat, (Matrix.new r c : Matrix α).WF) ∧
    (∀ (r c : Nat) (value : α), (Matrix.filled r c value).WF) ∧
    (∀ mat : List (List α),
      (Matrix.ofRows mat).WF ↔ ∀ row ∈ mat, row.length = (mat.headD []).length) ∧
    (∀ n : Nat, (Matrix.identity n : Matrix α).WF) ∧
    (∀ r c : Nat, (Matrix.zeros r c : Matrix α).WF ∧ (Matrix.ones r c : Matrix α).WF) ∧
    (∀ C, A.add B = .ok C → C.WF) ∧
    (∀ C, A.sub B = .ok C → C.WF) ∧
    (∀ C, A.mul B = .ok C → C.WF) ∧
    (∀ s : α, (A.smul s).WF) ∧
    A.transpose.WF ∧
    (qrDecomposition sqrt eps A).1.WF ∧ (qrDecomposition sqrt eps A).2.WF ∧
    (∀ C, inverse eps A = .ok C → C.WF) ∧
    (A.WF →
      (∀ L U, A.rows < 2 ^ 64 → luDecomposition eps A = .ok (L, U) → L.WF ∧ U.WF) ∧
      (∀ C, A.addAssign B = .ok C → C.WF) ∧
      (∀ C, A.subAssign B = .ok C → C.WF) ∧
      (∀ s : α, (A.mulAssign s).WF)) := by
  refine ⟨fun r c => (Matrix.new_shape r c).1, Matrix.filled_wf, Matrix.ofRows_wf_iff,
    fun n => (identity_spec n).1.1, fun r c => ⟨Matrix.filled_wf r c 0, Matrix.filled_wf r c 1⟩,
    ?_, ?_, fun C h => (Matrix.mul_shape h).1, fun s => (Matrix.smul_shape A s).1.1,
    (transpose_spec A).1.1, (qrDecomposition_spec sqrt eps A).1.1,
    (qrDecomposition_spec sqrt eps A).2.1.1, ?_, fun hA => ⟨?_, ?_, ?_, ?_⟩⟩
  · intro C h
    unfold Matrix.add at h
    split_ifs at h
    cases h
    exact (forRange_cells (fun i j _ => A.get i j + B.get i j) (Matrix.new A.rows A.cols)
      (Matrix.new_shape _ _)).1.1
  · intro C h
    unfold Matrix.sub at h
    split_ifs at h
    cases h
    exact (forRange_cells (fun i j _ => A.get i j - B.get i j) (Matrix.new A.rows A.cols)
      (Matrix.new_shape _ _)).1.1
  · intro C h
    unfold inverse at h
    split_ifs at h
    split at h
    · cases h
    · split_ifs at h
      cases h
      exact (extractRight_spec _ _ _).1.1
  · intro L U hsz h
    obtain ⟨-, hL, hU, -⟩ := luDecomposition_spec hA hsz h
    exact ⟨hL.1, hU.1⟩
  · intro C h
    unfold Matrix.addAssign at h
    split_ifs at h
    cases h
    exact (forRange_cells (fun i j v => v + B.get i j) A ⟨hA, rfl, rfl⟩).1.1
  · intro C h
    unfold Matrix.subAssign at h
    split_ifs at h
    cases h
    exact (forRange_cells (fun i j v => v - B.get i j) A ⟨hA, rfl, rfl⟩).1.1
  · intro s
    exact (Matrix.mulAssign_shape A hA s).1.1

/-- Instances of C34 (amended) over the rationals: a uniform table gives a rectangular
matrix, and so does the sum of two of them. -/
theorem rectangular_invariant_witness :
    (Matrix.ofRows [[1, 2], [3, 4]] : Matrix ℚ).WF ∧
    (∀ C, knownDet.add det2 = .ok C → C.WF) ∧
    (∀ C, knownDet.addAssign det2 = .ok C → C.WF) :=
  ⟨((rectangular_invariant ratSqrt (1 / 1000) knownDet det2).2.2.1 _).mpr (by decide),
    (rectangular_invariant ratSqrt (1 / 1000) knownDet det2).2.2.2.2.2.1,
    ((rectangular_invariant ratSqrt (1 / 1000) knownDet det2).2.2.2.2.2.2.2.2.2.2.2.2.2
      (by decide)).2.1⟩

/-! ## Gram-Schmidt: the coefficients of `R` -/

/-- Against C35 as stated, over the reals with `eps = 1/1000`, on the `1 × 3` matrix
`[[1/2000, 4000000/3999999, 1]]`: column 0 is too short to be normalised and stays
`[1/2000]` in `Q`, so `R[1][2] = 1` is the inner product of column 1 of `Q` with the
source column 2, not with the running residual `1 - R[0][2] * Q[0][0]`; and the factors
returned differ from those of the reference modified Gram-Schmidt procedure. -/
theorem qr_mgs_counterexample :
    (qrDecomposition Real.sqrt (1 / 1000)
        (⟨[[1 / 2000, 4000000 / 3999999, 1]], 1, 3⟩ : Matrix ℝ)).2.get 1 2 = 1 ∧
    (∑ i ∈ Finset.range 1,
      (qrDecomposition Real.sqrt (1 / 1000)
        (⟨[[1 / 2000, 4000000 / 3999999, 1]], 1, 3⟩ : Matrix ℝ)).1.get i 1
      * (Matrix.get (⟨[[1 / 2000, 4000000 / 3999999, 1]], 1, 3⟩ : Matrix ℝ) i 2
        - ∑ l ∈ Finset.range 1,
          (qrDecomposition Real.sqrt (1 / 1000)
            (⟨[[1 / 2000, 4000000 / 3999999, 1]], 1, 3⟩ : Matrix ℝ)).2.get l 2
          * (qrDecomposition Real.sqrt (1 / 1000)
            (⟨[[1 / 2000, 4000000 / 3999999, 1]], 1, 3⟩ : Matrix ℝ)).1.get i l))
      = 3999999 / 4000000 ∧
    qrDecomposition Real.sqrt (1 / 1000)
        (⟨[[1 / 2000, 4000000 / 3999999, 1]], 1, 3⟩ : Matrix ℝ)
      ≠ mgsDecomposition Real.sqrt (1 / 1000)
        (⟨[[1 / 2000, 4000000 / 3999999, 1]], 1, 3⟩ : Matrix ℝ) := by
  rw [qr_cgs_eval, mgs_ref_eval]
  refine ⟨by simp [Matrix.get], by norm_num [Matrix.get], ?_⟩
  intro h
  have h00 := congrArg (fun p : Matrix ℝ × Matrix ℝ => p.1.get 0 0) h
  norm_num [Matrix.get] at h00

/-- C35 (amended): for every input and every `k < j`, the coefficient `R[k][j]` stored
by `qrDecomposition` is the inner product of the finished column `k` of `Q` with the
source column `j` (classical Gram-Schmidt).  When every column is normalised
(`R[j][j] != 0` for every `j`), it is also the inner product with the running residual,
column `j` reduced by the projections onto the columns `0..k-1`, and the returned
factors are those of the reference modified Gram-Schmidt procedure (ordered field with
an exact square root, `eps >= 0`). -/
theorem qr_gram_schmidt [LinearOrderedField α] (sqrt : α → α)
    (hsqrt : ∀ x, 0 ≤ x → sqrt x * sqrt x = x) (eps : α) (heps : 0 ≤ eps) (A : Matrix α) :
    (∀ k j, k < j → j < A.cols →
      (qrDecomposition sqrt eps A).2.get k j
        = ∑ i ∈ Finset.range A.rows, (qrDecomposition sqrt eps A).1.get i k * A.get i j) ∧
    ((∀ j, j < A.cols → (qrDecomposition sqrt eps A).2.get j j ≠ 0) →
      (∀ k j, k < j → j < A.cols →
        (qrDecomposition sqrt eps A).2.get k j
          = ∑ i ∈ Finset.range A.rows, (qrDecomposition sqrt eps A).1.get i k
            * (A.get i j - ∑ l ∈ Finset.range k,
                (qrDecomposition sqrt eps A).2.get l j
                  * (qrDecomposition sqrt eps A).1.get i l)) ∧
      qrDecomposition sqrt eps A = mgsDecomposition sqrt eps A) := by
  obtain ⟨-, -, hcols⟩ := qrDecomposition_spec sqrt eps A
  refine ⟨fun k j hkj hj => (hcols j hj).coeff k hkj, fun hfull => ⟨?_, ?_⟩⟩
  · intro k j hkj hj
    rw [(hcols j hj).coeff k hkj]
    symm
    simp only [mul_sub, Finset.sum_sub_distrib, Finset.mul_sum]
    rw [sub_eq_self, Finset.sum_comm]
    apply Finset.sum_eq_zero
    intro l hl
    have hlk : l < k := Finset.mem_range.mp hl
    have h := (qr_gram hsqrt heps hcols hfull k (by omega)).1 l hlk
    have h' : ∀ i ∈ Finset.range A.rows,
        (qrDecomposition sqrt eps A).1.get i k
          * ((qrDecomposition sqrt eps A).2.get l j * (qrDecomposition sqrt eps A).1.get i l)
        = (qrDecomposition sqrt eps A).2.get l j
          * ((qrDecomposition sqrt eps A).1.get i l
            * (qrDecomposition sqrt eps A).1.get i k) := fun i _ => by ring
    rw [Finset.sum_congr rfl h', ← Finset.mul_sum, h, mul_zero]
  · exact qr_eq_mgs sqrt hsqrt eps heps A hfull

/-- An instance of C35 (amended) over the reals: on `[[1, 1], [0, 1]]` both columns are
normalised, the factors are those of the reference procedure, and `R[0][1] = 1`. -/
theorem qr_gram_schmidt_witness :
    qrDecomposition Real.sqrt (1 / 1000) (⟨[[1, 1], [0, 1]], 2, 2⟩ : Matrix ℝ)
      = mgsDecomposition Real.sqrt (1 / 1000) (⟨[[1, 1], [0, 1]], 2, 2⟩ : Matrix ℝ) ∧
    (qrDecomposition Real.sqrt (1 / 1000) (⟨[[1, 1], [0, 1]], 2, 2⟩ : Matrix ℝ)).2.get 0 1
      = 1 := by
  have hfull : ∀ j, j < 2 →
      (qrDecomposition Real.sqrt (1 / 1000) (⟨[[1, 1], [0, 1]], 2, 2⟩ : Matrix ℝ)).2.get j j
        ≠ 0 := by
    intro j hj
    rw [qr_unit_eval]
    interval_cases j <;> simp [Matrix.get]
  exact ⟨((qr_gram_schmidt Real.sqrt (fun x hx => Real.mul_self_sqrt hx) (1 / 1000)
    (by norm_num) (⟨[[1, 1], [0, 1]], 2, 2⟩ : Matrix ℝ)).2 hfull).2,
    by rw [qr_unit_eval]; simp [Matrix.get]⟩

/-! ## Pivoting in `inverse` -/

/-- C36: in `inverse()`, once the determinant check has passed (`determinant()` returned
`d` with `|d| >= eps > 0`), at every step `i` of the elimination the pivot row `p` chosen
holds the entry of largest absolute value of column `i` among the rows `i..n-1`, is the
first such row, and that entry is non-zero; it is the divisor `pivot` read by the row
scaling after the exchange of the rows `i` and `p`. -/
theorem inverse_pivot_nonzero [LinearOrderedField α] (eps : α) (heps : 0 < eps)
    (A : Matrix α) (hA : A.WF) (hsq : A.rows = A.cols) (hsz : A.rows < 2 ^ 64) (d : α)
    (hd : determinant eps A = .ok d) (hmag : eps ≤ |d|) (i : Nat) (hi : i < A.rows) :
    let aug := forRange 0 i
      (fun i augmented => gaussJordanStep A.rows A.cols i augmented) (augment A)
    let p := pivotRow A.rows i aug
    i ≤ p ∧ p < A.rows ∧
    (∀ k, i ≤ k → k < A.rows → |aug.get k i| ≤ |aug.get p i|) ∧
    (∀ k, i ≤ k → k < p → |aug.get k i| < |aug.get p i|) ∧
    aug.get p i ≠ 0 ∧
    (swapRows A.cols i p aug).get i i = aug.get p i := by
  intro aug p
  have hdet : A.leibnizDet ≠ 0 := by
    rw [← determinant_ok_eq heps hA hsq hsz hd]
    intro h0
    rw [h0, abs_zero] at hmag
    exact absurd heps (not_lt.mpr hmag)
  have inv0 := GJInv.augmented hsq hdet
  have inv : GJInv A A.rows i aug := by
    have h := GJInv.pivot_loop i 0 (by omega) inv0
    rw [Nat.zero_add] at h
    simp only [aug, forRange, Nat.sub_zero, ← hsq]
    exact h
  obtain ⟨h1, h2, h3, h4⟩ := pivotRow_spec hi aug
  refine ⟨h1, h2, h3, h4, GJInv.pivot_ne_zero inv hi h3, ?_⟩
  have hs := (swapRows_spec (show 2 * A.cols = 2 * A.cols from rfl) hi h2 aug
    (by rw [← hsq]; exact inv.shape)).2 i i (by omega)
  rw [hs, if_pos rfl]

/-- An instance of C36 over the rationals: for `[[1, 2], [3, 4]]` (determinant `-2`) the
first pivot is found in row `1`, where column `0` holds `3`, and it is non-zero. -/
theorem inverse_pivot_nonzero_witness :
    pivotRow 2 0 (augment knownDet) = 1 ∧ (augment knownDet).get 1 0 = 3 ∧
    (augment knownDet).get (pivotRow 2 0 (augment knownDet)) 0 ≠ 0 :=
  ⟨by decide!, by decide!,
    (inverse_pivot_nonzero (1 / 1000) (by decide!) knownDet (by decide) rfl (by decide)
      (-2) (by decide!) (by decide!) 0 (by decide)).2.2.2.2.1⟩

/-! ## Eigenvalues of a diagonal matrix -/

/-- C37: for a diagonal matrix `D` of order `n >= 3` whose diagonal entries are `0` or
of absolute value above `eps`, the first QR pass gives `R * Q = D`, whose off-diagonal
absolute sum is below `100 * eps`, so the iteration stops after that pass whatever number
of passes is allowed, and `eigenvalues()` returns `D[0][0], ..., D[n-1][n-1]` in order,
each with imaginary part `0` (ordered field with an exact square root, `eps > 0`). -/
theorem eigenvalues_diagonal [LinearOrderedField α] (sqrt : α → α)
    (hsqrt : ∀ x : α, sqrt (x * x) = |x|) (eps : α) (heps : 0 < eps) (D : Matrix α)
    (hD : D.WF) (hsq : D.rows = D.cols) (hn : 3 ≤ D.rows)
    (hoff : ∀ i j, i < D.rows → j < D.rows → i ≠ j → D.get i j = 0)
    (hent : ∀ i, i < D.rows → D.get i i = 0 ∨ eps < |D.get i i|) :
    (qrDecomposition sqrt eps D).2.mul (qrDecomposition sqrt eps D).1 = .ok D ∧
    offDiagonalSum D.rows D.cols D < eps * 100 ∧
    (∀ fuel, qrIterate sqrt eps D.rows D.cols (fuel + 1) D = .ok D) ∧
    eigenvalues sqrt eps D = .ok ((List.range D.rows).map (fun i => (D.get i i, 0))) := by
  have hfix := qr_diagonal_fixed sqrt hsqrt eps heps D hD hsq hoff hent
  have hsum : offDiagonalSum D.rows D.cols D < eps * 100 := by
    rw [offDiagonalSum_eq_sum, Finset.sum_eq_zero]
    · exact mul_pos heps (by norm_num)
    · intro i hi
      apply Finset.sum_eq_zero
      intro j hj
      by_cases hij : i ≠ j
      · rw [if_pos hij, hoff i j (Finset.mem_range.mp hi)
          (by rw [hsq]; exact Finset.mem_range.mp hj) hij, abs_zero]
      · rw [if_neg hij]
  have hit : ∀ fuel, qrIterate sqrt eps D.rows D.cols (fuel + 1) D = .ok D := by
    intro fuel
    unfold qrIterate
    simp only [hfix, hsum, if_true]
  refine ⟨hfix, hsum, hit, ?_⟩
  unfold eigenvalues
  rw [if_neg (not_not.mpr hsq), if_neg (by omega), if_neg (by omega)]
  have h1000 : qrIterate sqrt eps D.rows D.cols MAX_ITERATIONS D = .ok D := hit 999
  rw [h1000]
  simp only
  rw [forRange_append_eq_map]

/-- An instance of C37 over the reals with `eps = 1/1000`: the eigenvalues of
`diag(4, 0, -9)` are returned as `4`, `0`, `-9`. -/
theorem eigenvalues_diagonal_witness :
    eigenvalues Real.sqrt (1 / 1000) (⟨[[4, 0, 0], [0, 0, 0], [0, 0, -9]], 3, 3⟩ : Matrix ℝ)
      = .ok [(4, 0), (0, 0), (-9, 0)] := by
  have h := (eigenvalues_diagonal Real.sqrt Real.sqrt_mul_self_eq_abs (1 / 1000) (by norm_num)
    (⟨[[4, 0, 0], [0, 0, 0], [0, 0, -9]], 3, 3⟩ : Matrix ℝ) (by decide) rfl (le_refl 3)
    (by
      intro i j hi hj hij
      simp only at hi hj
      interval_cases i <;> interval_cases j <;> simp [Matrix.get] at hij ⊢)
    (by
      intro i hi
      simp only at hi
      interval_cases i <;> norm_num [Matrix.get])).2.2.2
  rw [h]
  simp [Matrix.get, List.range, List.range.loop]

/-! ## Sub-vectors, integer vectors and the legacy eigenvalue program -/

/-- C38, the failing input: on `[1, 2, 3]` the call `subVector(2^64 - 1, 2)` requests a
range that is not contained in the vector, but `start + length` wraps to `1`, which does
not exceed the dimension `3`, and the call is not refused; the call `subVector(2, 2)`
is. -/
theorem subVector_wrap_accepted :
    ¬ (2 ^ 64 - 1 + 2 ≤ v123.dimension) ∧ (2 ^ 64 - 1 + 2) % 2 ^ 64 = 1 ∧
    v123.subVector (2 ^ 64 - 1) 2 ≠ .error .out_of_range ∧
    (∃ r, v123.subVector (2 ^ 64 - 1) 2 = .ok r) ∧
    v123.subVector 2 2 = .error .out_of_range ∧
    v123.subVector 1 2 = .ok ⟨[2, 3], 2⟩ := by
  refine ⟨by decide, by decide, by decide, ⟨⟨[0, 1], 2⟩, by decide⟩, by decide, by decide⟩

/-- Against C39 as stated: for `s = INT_MIN` the value `std::abs(s)` formed in `int` is
`INT_MIN`, which is below the epsilon `0`, so the guard of `v / s` and of `v /= s` fires
although `|s| >= 2`, and the result is not the all-zero vector. -/
theorem vectorI_guard_counterexample :
    INT_MIN ≤ INT_MIN ∧ INT_MIN ≤ INT_MAX ∧ 2 ≤ |INT_MIN| ∧ absInt INT_MIN = INT_MIN ∧
    VectorI.div ⟨[4, 6], 2⟩ INT_MIN = some (.error .invalid_argument) ∧
    VectorI.divAssign ⟨[4, 6], 2⟩ INT_MIN = some (.error .invalid_argument) := by
  decide

/-- C39 (amended): for `Vector<int>` and every `int` value `s` other than `INT_MIN`, the
division-by-zero guard of `v / s` and `v /= s` does not fire (for `s = 0` the division
`1 / s` is then reached and has no result), and for `|s| >= 2` both return the all-zero
vector of the dimension of `v`; for instance `[4, 6] / 2` is `[0, 0]` although
`4 / 2 = 2` and `6 / 2 = 3`. -/
theorem vectorI_div_zero (v : Vector ℤ) (s : ℤ) (hlo : INT_MIN < s) (hhi : s ≤ INT_MAX) :
    VectorI.div v s ≠ some (.error .invalid_argument) ∧
    VectorI.divAssign v s ≠ some (.error .invalid_argument) ∧
    (s = 0 → VectorI.div v s = none ∧ VectorI.divAssign v s = none) ∧
    (2 ≤ |s| → VectorI.div v s = some (.ok (Vector.new v.dimension)) ∧
      (v.WF → VectorI.divAssign v s = some (.ok (Vector.new v.dimension)))) ∧
    VectorI.div ⟨[4, 6], 2⟩ 2 = some (.ok ⟨[0, 0], 2⟩) ∧
    VectorI.divAssign ⟨[4, 6], 2⟩ 2 = some (.ok ⟨[0, 0], 2⟩) ∧
    intDiv 4 2 = some 2 ∧ intDiv 6 2 = some 3 := by
  have hguard : ¬ absInt s < INT_EPSILON := by
    unfold absInt INT_EPSILON wrapInt
    unfold INT_MIN at hlo
    unfold INT_MAX at hhi
    split_ifs <;> omega
  have hdivE : ∀ r : Option ℤ, (match r with
      | none => (none : Option (Except Error (Vector ℤ)))
      | some inv_scalar => some (.ok (forRange 0 v.dimension (fun i result =>
          result.set i (wrapInt (v.get i * inv_scalar))) (Vector.new v.dimension))))
      ≠ some (.error .invalid_argument) := by
    intro r h
    cases r with
    | none => cases h
    | some x => cases h
  have hdivA : ∀ r : Option ℤ, (match r with
      | none => (none : Option (Except Error (Vector ℤ)))
      | some inv_scalar => some (.ok (forRange 0 v.dimension (fun i self =>
          self.set i (wrapInt (self.get i * inv_scalar))) v)))
      ≠ some (.error .invalid_argument) := by
    intro r h
    cases r with
    | none => cases h
    | some x => cases h
  refine ⟨?_, ?_, fun h0 => ?_, fun hs => ?_, by decide, by decide, by decide, by decide⟩
  · unfold VectorI.div
    rw [if_neg hguard]
    exact hdivE _
  · unfold VectorI.divAssign
    rw [if_neg hguard]
    exact hdivA _
  · have hnone : intDiv 1 s = none := by
      unfold intDiv
      rw [if_pos (Or.inl h0)]
    constructor
    · unfold VectorI.div
      rw [if_neg hguard, hnone]
    · unfold VectorI.divAssign
      rw [if_neg hguard, hnone]
  · have hinv : intDiv 1 s = some 0 := by
      have hs0 : s ≠ 0 := by
        intro h0
        rw [h0] at hs
        exact absurd hs (by decide)
      have hne : ¬ (s = 0 ∨ ((1 : ℤ) = INT_MIN ∧ s = -1)) := by
        rintro (h | h)
        · exact hs0 h
        · exact absurd h.1 (by decide)
      unfold intDiv
      rw [if_neg hne]
      congr 1
      rcases le_or_lt 0 s with h | h
      · rw [abs_of_nonneg h] at hs
        exact Int.tdiv_eq_zero_of_lt (by decide) (by omega)
      · rw [abs_of_neg h] at hs
        have : Int.tdiv 1 (-(-s)) = 0 := by
          rw [Int.tdiv_neg, Int.tdiv_eq_zero_of_lt (by decide) (by omega)]
          rfl
        rw [neg_neg] at this
        exact this
    have hw : wrapInt 0 = 0 := by decide
    constructor
    · unfold VectorI.div
      rw [if_neg hguard, hinv]
      have h := Vector.forRange_fresh (fun i => wrapInt (v.get i * 0)) v.dimension
      show some (Except.ok (forRange 0 v.dimension
        (fun i result => result.set i (wrapInt (v.get i * 0))) (Vector.new v.dimension))) = _
      congr 2
      apply Vector.ext_of_get h.1 (Vector.new_wf _) h.2.1
      intro i hi
      rw [h.2.1] at hi
      rw [h.2.2 i hi, mul_zero, hw, Vector.get_of_new]
    · intro hv
      unfold VectorI.divAssign
      rw [if_neg hguard, hinv]
      have h := Vector.forRange_set (fun _ x => wrapInt (x * 0)) v hv
      dsimp only at h
      show some (Except.ok (forRange 0 v.dimension
        (fun i self => self.set i (wrapInt (self.get i * 0))) v)) = _
      congr 2
      apply Vector.ext_of_get h.1 (Vector.new_wf _) h.2.1
      intro i hi
      rw [h.2.1] at hi
      rw [h.2.2 i hi, mul_zero, hw, Vector.get_of_new]

/-- Instances of C39 (amended): `[4, 6] / (-3)` is `[0, 0]`; division by `0` passes the
guard and reaches `1 / 0`. -/
theorem vectorI_div_zero_witness :
    VectorI.div ⟨[4, 6], 2⟩ (-3) = some (.ok ⟨[0, 0], 2⟩) ∧
    VectorI.div ⟨[4, 6], 2⟩ 0 ≠ some (.error .invalid_argument) ∧
    VectorI.div ⟨[4, 6], 2⟩ 0 = none :=
  ⟨((vectorI_div_zero ⟨[4, 6], 2⟩ (-3) (by decide) (by decide)).2.2.2.1 (by decide)).1,
    (vectorI_div_zero ⟨[4, 6], 2⟩ 0 (by decide) (by decide)).1,
    ((vectorI_div_zero ⟨[4, 6], 2⟩ 0 (by decide) (by decide)).2.2.1 rfl).1⟩

/-- C40, the failing input: on `[[1, 0], [0, 3]]` (discriminant `4`) the legacy program
computes `eigenvalue1 = 3` and `eigenvalue2 = (1 + 3)/2 - 4/2 = 0`, whereas
`Matrix::eigenvalues` returns `3` and `1`. -/
theorem legacy_eigenvalue_differs :
    legacyEigenvalues Real.sqrt 1 0 0 3 = .real 3 0 ∧
    eigenvalues Real.sqrt (1 / 1000) (⟨[[1, 0], [0, 3]], 2, 2⟩ : Matrix ℝ)
      = .ok [(3, 0), (1, 0)] := by
  have hs : Real.sqrt 4 = 2 := by
    rw [show (4 : ℝ) = 2 * 2 by norm_num]
    exact Real.sqrt_mul_self (by norm_num)
  constructor
  · unfold legacyEigenvalues
    norm_num [hs]
  · unfold eigenvalues
    norm_num [Matrix.get, hs]

end LinAlg
